import Mathlib

/-!
# Sorting engine: quicksort (five pivot strategies, two drivers) and merge sort

A shallow embedding of `src/sort_algorithms.c`.

* A present array is a `List Int`; an absent one (`NULL`) is `none`.
* C `int` indices are `Int`. Element reads and writes go through `rd` and `wr`.
  For an index inside the array they are the C accesses `arr[i]` and
  `arr[i] = v`; every theorem below works under bounds that keep the
  indices inside the array.
* The `static unsigned int seed` of `select_pivot` is threaded explicitly as a
  `Nat` (a 32-bit unsigned value, wrap-around written as `% 2 ^ 32`).
* `malloc` is an explicit input: a `Bool` for the stack of
  `quick_sort_iterative`, and an oracle on the arguments of `merge_arrays`
  for its two buffers.
-/

namespace SortAlgorithms

/-! ## Types of `sort_algorithms.h` -/

inductive SortError where
  | SORT_SUCCESS
  | SORT_ERROR_NULL_POINTER
  | SORT_ERROR_INVALID_SIZE
  | SORT_ERROR_MEMORY_ALLOC
  deriving DecidableEq, Repr

inductive PivotStrategy where
  | PIVOT_FIRST
  | PIVOT_LAST
  | PIVOT_MIDDLE
  | PIVOT_RANDOM
  | PIVOT_MEDIAN_OF_THREE
  deriving DecidableEq, Repr

open SortError PivotStrategy

/-! ## Memory access -/

/-- The read `arr[i]`. -/
def rd (arr : List Int) (i : Int) : Int := arr.getD i.toNat 0

/-- The write `arr[i] = v`. -/
def wr (arr : List Int) (i : Int) (v : Int) : List Int := arr.set i.toNat v

/-- `swap_elements(&arr[a], &arr[b])`: the two pointers are addresses of array
cells, hence never `NULL`, so the early return of the C function is not taken. -/
def swap_elements (arr : List Int) (a b : Int) : List Int :=
  let temp := rd arr a
  let arr1 := wr arr a (rd arr b)
  wr arr1 b temp

/-! ## `is_sorted` -/

/-- The loop `for (i = ...; i < n; i++) if (arr[i] < arr[i-1]) return 0;` of
`is_sorted`, with `count` iterations left to run from index `i`. -/
def is_sorted_loop (arr : List Int) : Nat → Int → Int
  | 0, _ => 1
  | count + 1, i => if rd arr i < rd arr (i - 1) then 0 else is_sorted_loop arr count (i + 1)

/-- `is_sorted(arr, n)`. -/
def is_sorted (arr : Option (List Int)) (n : Int) : Int :=
  match arr with
  | none => 0
  | some a => if n ≤ 0 then 0 else is_sorted_loop a (n - 1).toNat 1

/-! ## Pivot selection -/

/-- What `select_pivot` leaves behind: the array, the generator state and the
returned index. -/
structure PivotResult where
  arr : List Int
  seed : Nat
  index : Int
  deriving DecidableEq, Repr

/-- The generator step `seed = (seed * 1103515245 + 12345) & 0x7fffffff` on a
32-bit unsigned value. -/
def next_seed (seed : Nat) : Nat := ((seed * 1103515245 + 12345) % 2 ^ 32) &&& 0x7fffffff

/-- The initial value of the `static unsigned int seed` of `select_pivot`. -/
def initial_seed : Nat := 123456789

/-- `select_pivot(arr, low, high, strategy)`. The integer division truncates
towards zero, as in C. In the `PIVOT_RANDOM` case the C expression
`low + (seed % (high - low + 1))` is computed on `unsigned int`; for
`0 ≤ low ≤ high ≤ INT_MAX` nothing wraps and it is the integer below. The
`default:` case of the `switch` has no value of the enumeration left. -/
def select_pivot (arr : List Int) (low high : Int) (strategy : PivotStrategy) (seed : Nat) :
    PivotResult :=
  if low > high then ⟨arr, seed, low⟩
  else
    match strategy with
    | PIVOT_FIRST => ⟨arr, seed, low⟩
    | PIVOT_LAST => ⟨arr, seed, high⟩
    | PIVOT_MIDDLE => ⟨arr, seed, low + (high - low).tdiv 2⟩
    | PIVOT_RANDOM =>
      let seed1 := next_seed seed
      ⟨arr, seed1, low + ((seed1 : Int) % (high - low + 1))⟩
    | PIVOT_MEDIAN_OF_THREE =>
      let mid := low + (high - low).tdiv 2
      let arr1 := if rd arr low > rd arr mid then swap_elements arr low mid else arr
      let arr2 := if rd arr1 low > rd arr1 high then swap_elements arr1 low high else arr1
      let arr3 := if rd arr2 mid > rd arr2 high then swap_elements arr2 mid high else arr2
      ⟨arr3, seed, mid⟩

/-! ## Partition -/

/-- The scan `for (j = low; j < high; j++)` of `partition_array`, with `count`
iterations left to run from index `j`; the state is the array and the
boundary `i`. -/
def partition_scan (pivot_value : Int) : Nat → Int → List Int → Int → List Int × Int
  | 0, _, arr, i => (arr, i)
  | count + 1, j, arr, i =>
    if rd arr j ≤ pivot_value then
      partition_scan pivot_value count (j + 1) (swap_elements arr (i + 1) j) (i + 1)
    else
      partition_scan pivot_value count (j + 1) arr i

/-- `partition_array(arr, low, high, strategy)`. -/
def partition_array (arr : List Int) (low high : Int) (strategy : PivotStrategy) (seed : Nat) :
    PivotResult :=
  if low ≥ high then ⟨arr, seed, low⟩
  else
    let sel := select_pivot arr low high strategy seed
    let pivot_value := rd sel.arr sel.index
    let arr1 := swap_elements sel.arr sel.index high
    let scan := partition_scan pivot_value (high - low).toNat low arr1 (low - 1)
    let arr2 := swap_elements scan.1 (scan.2 + 1) high
    ⟨arr2, sel.seed, scan.2 + 1⟩

/-- The boundary after the scan has moved up by at most the number of
iterations. Used for the termination of the two quicksort drivers. -/
theorem partition_scan_boundary (v : Int) (count : Nat) (j : Int) (arr : List Int) (i : Int) :
    i ≤ (partition_scan v count j arr i).2 ∧ (partition_scan v count j arr i).2 ≤ i + count := by
  induction count generalizing j arr i with
  | zero => simp [partition_scan]
  | succ n ih =>
    simp only [partition_scan]
    split
    · have h := ih (j + 1) (swap_elements arr (i + 1) j) (i + 1)
      push_cast
      omega
    · have h := ih (j + 1) arr i
      push_cast
      omega

/-- The position returned by `partition_array` lies in `[low, high]`. -/
theorem partition_array_index_bounds (arr : List Int) (low high : Int) (strategy : PivotStrategy)
    (seed : Nat) (h : low < high) :
    low ≤ (partition_array arr low high strategy seed).index ∧
      (partition_array arr low high strategy seed).index ≤ high := by
  have hb := partition_scan_boundary
    (rd (select_pivot arr low high strategy seed).arr (select_pivot arr low high strategy seed).index)
    (high - low).toNat low
    (swap_elements (select_pivot arr low high strategy seed).arr
      (select_pivot arr low high strategy seed).index high) (low - 1)
  have hn : ((high - low).toNat : Int) = high - low := Int.toNat_of_nonneg (by omega)
  simp only [partition_array, if_neg (not_le.mpr h)]
  omega

/-! ## Quicksort, recursive driver -/

/-- Outcome of a quicksort call on a present array: the returned code, the
array and the generator state it leaves. -/
structure QuickResult where
  error : SortError
  arr : List Int
  seed : Nat
  deriving DecidableEq, Repr

/-- The body of `quick_sort_recursive` once `arr != NULL` is known (the array
pointer is the same in every recursive call). -/
def quick_sort_recursive_present (arr : List Int) (low high : Int) (strategy : PivotStrategy)
    (seed : Nat) : QuickResult :=
  if low < 0 ∨ high < 0 ∨ low > high then ⟨SORT_ERROR_INVALID_SIZE, arr, seed⟩
  else if h : low < high then
    let part := partition_array arr low high strategy seed
    have hp := partition_array_index_bounds arr low high strategy seed h
    let left := quick_sort_recursive_present part.arr low (part.index - 1) strategy part.seed
    if left.error ≠ SORT_SUCCESS then left
    else
      let right := quick_sort_recursive_present left.arr (part.index + 1) high strategy left.seed
      if right.error ≠ SORT_SUCCESS then right
      else ⟨SORT_SUCCESS, right.arr, right.seed⟩
  else ⟨SORT_SUCCESS, arr, seed⟩
termination_by (high - low).toNat
decreasing_by
  all_goals simp_wf
  all_goals omega

/-- `quick_sort_recursive(arr, low, high, strategy)`: the code, the array and
the generator state after the call. -/
def quick_sort_recursive (arr : Option (List Int)) (low high : Int) (strategy : PivotStrategy)
    (seed : Nat) : SortError × Option (List Int) × Nat :=
  match arr with
  | none => (SORT_ERROR_NULL_POINTER, none, seed)
  | some a =>
    let r := quick_sort_recursive_present a low high strategy seed
    (r.error, some r.arr, r.seed)

/-! ## Quicksort, iterative driver -/

/-- A frame of the explicit stack. -/
structure StackItem where
  low : Int
  high : Int
  deriving DecidableEq, Repr

/-- The write `stack[++top] = item` into a stack allocated with `capacity`
cells. The list holds the cells `0..top`, the top one first; the write is
inside the allocation when `top + 1 < capacity`, and is `none` otherwise. -/
def stack_push (capacity : Int) (stack : List StackItem) (item : StackItem) :
    Option (List StackItem) :=
  if (stack.length : Int) < capacity then some (item :: stack) else none

/-- Total number of elements covered by the frames of a stack; the measure by
which the loop of `quick_sort_iterative` terminates. -/
def stack_weight : List StackItem → Nat
  | [] => 0
  | item :: rest => (item.high - item.low).toNat + 1 + stack_weight rest

set_option linter.unusedVariables false in
/-- The loop `while (top >= 0)` of `quick_sort_iterative`; `none` when a push
falls outside the allocated stack. -/
def quick_sort_iterative_loop (capacity : Int) (strategy : PivotStrategy) (stack : List StackItem)
    (arr : List Int) (seed : Nat) : Option (List Int × Nat) :=
  match stack with
  | [] => some (arr, seed)
  | item :: rest =>
    if h : item.low < item.high then
      let part := partition_array arr item.low item.high strategy seed
      have hp : item.low ≤ part.index ∧ part.index ≤ item.high :=
        partition_array_index_bounds arr item.low item.high strategy seed h
      match h1 : (if part.index - 1 > item.low then stack_push capacity rest ⟨item.low, part.index - 1⟩
          else some rest) with
      | none => none
      | some stack1 =>
        match h2 : (if part.index + 1 < item.high then
            stack_push capacity stack1 ⟨part.index + 1, item.high⟩ else some stack1) with
        | none => none
        | some stack2 => quick_sort_iterative_loop capacity strategy stack2 part.arr part.seed
    else quick_sort_iterative_loop capacity strategy rest arr seed
termination_by stack_weight stack
decreasing_by
  · simp_wf
    have e1 : stack_weight stack1 ≤ stack_weight rest + (part.index - item.low).toNat := by
      split at h1
      · simp only [stack_push] at h1
        split at h1
        · cases h1
          simp only [stack_weight]
          omega
        · cases h1
      · cases h1
        omega
    have e2 : stack_weight stack2 ≤ stack_weight stack1 + (item.high - part.index).toNat := by
      split at h2
      · simp only [stack_push] at h2
        split at h2
        · cases h2
          simp only [stack_weight]
          omega
        · cases h2
      · cases h2
        omega
    simp only [stack_weight]
    omega
  · simp_wf
    simp only [stack_weight]
    omega

/-- `quick_sort_iterative(arr, low, high, strategy)`, with `malloc_ok` telling
whether the stack is obtained. The result is `none` when the call writes
outside its stack. -/
def quick_sort_iterative (malloc_ok : Bool) (arr : Option (List Int)) (low high : Int)
    (strategy : PivotStrategy) (seed : Nat) : Option (SortError × Option (List Int) × Nat) :=
  match arr with
  | none => some (SORT_ERROR_NULL_POINTER, none, seed)
  | some a =>
    if low < 0 ∨ high < 0 ∨ low > high then some (SORT_ERROR_INVALID_SIZE, some a, seed)
    else
      let stack_size := high - low + 1
      if ¬ malloc_ok then some (SORT_ERROR_MEMORY_ALLOC, some a, seed)
      else
        match stack_push stack_size [] ⟨low, high⟩ with
        | none => none
        | some stack =>
          match quick_sort_iterative_loop stack_size strategy stack a seed with
          | none => none
          | some (a1, seed1) => some (SORT_SUCCESS, some a1, seed1)

/-! ### The loop of `quick_sort_iterative`, one iteration at a time -/

/-- State of the loop of `quick_sort_iterative` at the test `top >= 0`: the
stack (top first), the array and the generator state, together with two
counters that the C code does not hold: the number of pushes `stack[++top]`
and the number of pops `stack[top--]` executed so far in the call. -/
structure LoopState where
  stack : List StackItem
  arr : List Int
  seed : Nat
  pushes : Nat
  pops : Nat
  deriving DecidableEq, Repr

/-- The state in which `quick_sort_iterative` enters its loop: the initial
range has been pushed. -/
def quick_sort_iterative_start (arr : List Int) (low high : Int) (seed : Nat) : LoopState :=
  ⟨[⟨low, high⟩], arr, seed, 1, 0⟩

/-- One iteration of the loop `while (top >= 0)` of `quick_sort_iterative`, the
frame `item` being popped from the stack `item :: rest`; `none` when a push
falls outside the allocated stack. -/
def quick_sort_iterative_body (capacity : Int) (strategy : PivotStrategy) (item : StackItem)
    (rest : List StackItem) (arr : List Int) (seed : Nat) (pushes pops : Nat) :
    Option LoopState :=
  if item.low < item.high then
    let part := partition_array arr item.low item.high strategy seed
    match (if part.index - 1 > item.low then stack_push capacity rest ⟨item.low, part.index - 1⟩
        else some rest) with
    | none => none
    | some stack1 =>
      match (if part.index + 1 < item.high then
          stack_push capacity stack1 ⟨part.index + 1, item.high⟩ else some stack1) with
      | none => none
      | some stack2 =>
        some ⟨stack2, part.arr, part.seed, pushes + (stack2.length - rest.length), pops + 1⟩
  else some ⟨rest, arr, seed, pushes, pops + 1⟩

/-- The state after `count` iterations of the loop of `quick_sort_iterative`
(fewer when the stack is empty before: the loop has ended and the state
stays); `none` when a push falls outside the allocated stack. -/
def quick_sort_iterative_run (capacity : Int) (strategy : PivotStrategy) :
    Nat → LoopState → Option LoopState
  | 0, s => some s
  | count + 1, s =>
    match s.stack with
    | [] => some s
    | item :: rest =>
      match quick_sort_iterative_body capacity strategy item rest s.arr s.seed s.pushes s.pops with
      | none => none
      | some t => quick_sort_iterative_run capacity strategy count t

/-! ## Merge sort -/

/-- The copy loop `for (i = 0; i < size; i++) buf[i] = arr[start + i];` into a
fresh buffer of `size` cells. -/
def buffer_fill (arr : List Int) (start : Int) (size : Nat) : List Int :=
  (List.range size).map (fun (i : Nat) => rd arr (start + (i : Int)))

/-- The loop `while (i < left_size && j < right_size)` of `merge_arrays`. -/
def merge_loop (left_arr right_arr : List Int) (left_size right_size : Int) (arr : List Int)
    (i j k : Int) : List Int × Int × Int × Int :=
  if i < left_size ∧ j < right_size then
    if rd left_arr i ≤ rd right_arr j then
      merge_loop left_arr right_arr left_size right_size (wr arr k (rd left_arr i)) (i + 1) j (k + 1)
    else
      merge_loop left_arr right_arr left_size right_size (wr arr k (rd right_arr j)) i (j + 1) (k + 1)
  else (arr, i, j, k)
termination_by (left_size - i).toNat + (right_size - j).toNat
decreasing_by
  all_goals simp_wf
  all_goals omega

/-- The loops `while (i < size) { arr[k] = buf[i]; i++; k++; }` of
`merge_arrays` that copy what is left of one buffer. -/
def merge_rest (buf : List Int) (size : Int) (arr : List Int) (i k : Int) : List Int × Int :=
  if i < size then merge_rest buf size (wr arr k (rd buf i)) (i + 1) (k + 1)
  else (arr, k)
termination_by (size - i).toNat
decreasing_by
  all_goals simp_wf
  all_goals omega

/-- `merge_arrays(arr, left, mid, right)`, with `malloc_ok` telling whether
both buffers are obtained. -/
def merge_arrays (malloc_ok : Bool) (arr : List Int) (left mid right : Int) : List Int :=
  let left_size := mid - left + 1
  let right_size := right - mid
  if ¬ malloc_ok then arr
  else
    let left_arr := buffer_fill arr left left_size.toNat
    let right_arr := buffer_fill arr (mid + 1) right_size.toNat
    let m := merge_loop left_arr right_arr left_size right_size arr 0 0 left
    let l := merge_rest left_arr left_size m.1 m.2.1 m.2.2.2
    let r := merge_rest right_arr right_size l.1 m.2.2.1 l.2
    r.1

/-- The body of `merge_sort_serial` once `arr != NULL` is known. `alloc left
mid right` tells whether `merge_arrays(arr, left, mid, right)` obtains its
buffers. -/
def merge_sort_serial_present (alloc : Int → Int → Int → Bool) (arr : List Int) (left right : Int) :
    SortError × List Int :=
  if left < 0 ∨ right < 0 ∨ left > right then (SORT_ERROR_INVALID_SIZE, arr)
  else if h : left < right then
    let mid := left + (right - left).tdiv 2
    have hm : (right - left).tdiv 2 = (right - left) / 2 :=
      Int.tdiv_eq_ediv (by omega) (by omega)
    let l := merge_sort_serial_present alloc arr left mid
    if l.1 ≠ SORT_SUCCESS then l
    else
      let r := merge_sort_serial_present alloc l.2 (mid + 1) right
      if r.1 ≠ SORT_SUCCESS then r
      else (SORT_SUCCESS, merge_arrays (alloc left mid right) r.2 left mid right)
  else (SORT_SUCCESS, arr)
termination_by (right - left).toNat
decreasing_by
  all_goals simp_wf
  all_goals omega

/-- `merge_sort_serial(arr, left, right)`. -/
def merge_sort_serial (alloc : Int → Int → Int → Bool) (arr : Option (List Int)) (left right : Int) :
    SortError × Option (List Int) :=
  match arr with
  | none => (SORT_ERROR_NULL_POINTER, none)
  | some a =>
    let r := merge_sort_serial_present alloc a left right
    (r.1, some r.2)

/-- The constant `PARALLEL_THRESHOLD` of `merge_sort_parallel`. -/
def PARALLEL_THRESHOLD : Int := 1000

/-- The body of `merge_sort_parallel` once `arr != NULL` is known, in the
branch without OpenMP: the two halves run one after the other and their
return codes are dropped. -/
def merge_sort_parallel_present (alloc : Int → Int → Int → Bool) (arr : List Int)
    (left right : Int) : SortError × List Int :=
  if left < 0 ∨ right < 0 ∨ left > right then (SORT_ERROR_INVALID_SIZE, arr)
  else if right - left < PARALLEL_THRESHOLD then merge_sort_serial_present alloc arr left right
  else if h : left < right then
    let mid := left + (right - left).tdiv 2
    have hm : (right - left).tdiv 2 = (right - left) / 2 :=
      Int.tdiv_eq_ediv (by omega) (by omega)
    let l := merge_sort_parallel_present alloc arr left mid
    let r := merge_sort_parallel_present alloc l.2 (mid + 1) right
    (SORT_SUCCESS, merge_arrays (alloc left mid right) r.2 left mid right)
  else (SORT_SUCCESS, arr)
termination_by (right - left).toNat
decreasing_by
  all_goals simp_wf
  all_goals omega

/-- `merge_sort_parallel(arr, left, right)`. -/
def merge_sort_parallel (alloc : Int → Int → Int → Bool) (arr : Option (List Int))
    (left right : Int) : SortError × Option (List Int) :=
  match arr with
  | none => (SORT_ERROR_NULL_POINTER, none)
  | some a =>
    let r := merge_sort_parallel_present alloc a left right
    (r.1, some r.2)

/-! ## Specification vocabulary -/

/-- The array `b` has the length of `a` and the same cells outside `[low, high]`. -/
def same_outside (b a : List Int) (low high : Int) : Prop :=
  b.length = a.length ∧ ∀ k : Int, 0 ≤ k → (k < low ∨ high < k) → rd b k = rd a k

/-- The pivot value of `partition_array`: the cell at the index chosen by
`select_pivot`, read after the swaps of `select_pivot`. -/
def pivot_value_of (arr : List Int) (low high : Int) (strategy : PivotStrategy) (seed : Nat) : Int :=
  rd (select_pivot arr low high strategy seed).arr (select_pivot arr low high strategy seed).index

/-- The values at the indices `low..high` of `arr`, in order. -/
def slice (arr : List Int) (low high : Int) : List Int :=
  (arr.drop low.toNat).take (high - low + 1).toNat

/-- The cells `low..high` of `arr` are in ascending order. -/
def sorted_range (arr : List Int) (low high : Int) : Prop :=
  ∀ i j : Int, low ≤ i → i ≤ j → j ≤ high → rd arr i ≤ rd arr j

/-- The frames that one iteration of the loop of `quick_sort_iterative` pushes
after partitioning `item` at position `p`, the last pushed first. -/
def new_frames (item : StackItem) (p : Int) : List StackItem :=
  (if p + 1 < item.high then [(⟨p + 1, item.high⟩ : StackItem)] else []) ++
    (if p - 1 > item.low then [(⟨item.low, p - 1⟩ : StackItem)] else [])

/-- Two frames cover no common index. -/
def disjoint_frames (f g : StackItem) : Prop := f.high < g.low ∨ g.high < f.low

/-- Invariant of the loop of `quick_sort_iterative` on the range
`[low, high]`. -/
structure loop_inv (low high : Int) (stack : List StackItem) (arr : List Int) : Prop where
  low_nonneg : 0 ≤ low
  high_lt : high < arr.length
  frames : ∀ f ∈ stack, low ≤ f.low ∧ f.low ≤ f.high ∧ f.high ≤ high
  disjoint : stack.Pairwise disjoint_frames
  weight : (stack_weight stack : Int) ≤ high - low + 1
  order : ∀ x y : Int, low ≤ x → x < y → y ≤ high →
    (∃ f ∈ stack, f.low ≤ x ∧ y ≤ f.high) ∨ rd arr x ≤ rd arr y

/-- Invariant of the states of the loop of `quick_sort_iterative` called on
`(arr0, low, high)` from the generator state `seed0`. -/
structure run_inv (low high : Int) (arr0 : List Int) (seed0 : Nat) (t : LoopState) : Prop where
  inv : loop_inv low high t.stack t.arr
  count : (t.pushes : Int) + stack_weight t.stack ≤ (high - low + 1) + t.stack.length
  popped : t.pops + t.stack.length = t.pushes
  pruned : t = quick_sort_iterative_start arr0 low high seed0 ∨ ∀ f ∈ t.stack, f.low < f.high

/-- State of the scan of `partition_array` over a sorted range whose pivot was
taken at `idx`: the array is `arr` with the value of `arr[high]` parked at `m`
and the pivot at `high`. -/
def sorted_scan_inv (arr : List Int) (high idx : Int) (a : List Int) (i j m : Int) : Prop :=
  a.length = arr.length ∧
    (∀ k : Int, 0 ≤ k → rd a k =
      if k = high then rd arr idx else if k = m then rd arr high else rd arr k) ∧
    rd arr m = rd arr idx ∧ m ≤ high ∧
    ((m = i + 1 ∧ idx ≤ i + 1) ∨ (m = idx ∧ i + 1 ≤ idx)) ∧
    (i + 1 = j ∨ (idx ≤ i + 1 ∧ i + 1 < j ∧ ∀ k : Int, i + 1 < k → k < j → rd arr idx < rd arr k))

/-- The recursion of `quick_sort_recursive_present` with the recursion depth
as an explicit structural argument; used to evaluate the function on concrete
arrays. -/
def quick_sort_recursive_depth : Nat → List Int → Int → Int → PivotStrategy → Nat → QuickResult
  | 0, arr, low, high, _, seed =>
    if low < 0 ∨ high < 0 ∨ low > high then ⟨SORT_ERROR_INVALID_SIZE, arr, seed⟩
    else ⟨SORT_SUCCESS, arr, seed⟩
  | depth + 1, arr, low, high, strategy, seed =>
    if low < 0 ∨ high < 0 ∨ low > high then ⟨SORT_ERROR_INVALID_SIZE, arr, seed⟩
    else if low < high then
      let part := partition_array arr low high strategy seed
      let left := quick_sort_recursive_depth depth part.arr low (part.index - 1) strategy part.seed
      if left.error ≠ SORT_SUCCESS then left
      else quick_sort_recursive_depth depth left.arr (part.index + 1) high strategy left.seed
    else ⟨SORT_SUCCESS, arr, seed⟩

/-- The array `a` after the values `xs` are written to the cells `k`, `k + 1`, ... -/
def write_list (a : List Int) (k : Int) : List Int → List Int
  | [] => a
  | x :: xs => write_list (wr a k x) (k + 1) xs

/-- The merge of two lists that `merge_arrays` computes: the head of the left
list is taken when it is at most the head of the right one. -/
def merge_lists (xs ys : List Int) : List Int := List.merge xs ys (fun a b => decide (a ≤ b))

/-- The arguments of one call of `quick_sort_recursive` on a present array,
with the generator state at the call. -/
structure RecCall where
  arr : List Int
  low : Int
  high : Int
  seed : Nat

/-- The calls that a call `c` of `quick_sort_recursive` makes, itself included:
`recursive_call strategy c d` when `d` is `c`, or is made (directly or through
further calls) by the call on `[low, pivot-1]`, or by the call on
`[pivot+1, high]`, which is made only when the first one returned
`SORT_SUCCESS`. -/
inductive recursive_call (strategy : PivotStrategy) : RecCall → RecCall → Prop where
  | here (c : RecCall) : recursive_call strategy c c
  | left (c d : RecCall) (hv : ¬ (c.low < 0 ∨ c.high < 0 ∨ c.low > c.high)) (h : c.low < c.high)
      (hd : recursive_call strategy
        ⟨(partition_array c.arr c.low c.high strategy c.seed).arr, c.low,
          (partition_array c.arr c.low c.high strategy c.seed).index - 1,
          (partition_array c.arr c.low c.high strategy c.seed).seed⟩ d) :
      recursive_call strategy c d
  | right (c d : RecCall) (hv : ¬ (c.low < 0 ∨ c.high < 0 ∨ c.low > c.high)) (h : c.low < c.high)
      (hok : (quick_sort_recursive_present
        (partition_array c.arr c.low c.high strategy c.seed).arr c.low
        ((partition_array c.arr c.low c.high strategy c.seed).index - 1) strategy
        (partition_array c.arr c.low c.high strategy c.seed).seed).error = SORT_SUCCESS)
      (hd : recursive_call strategy
        ⟨(quick_sort_recursive_present
            (partition_array c.arr c.low c.high strategy c.seed).arr c.low
            ((partition_array c.arr c.low c.high strategy c.seed).index - 1) strategy
            (partition_array c.arr c.low c.high strategy c.seed).seed).arr,
          (partition_array c.arr c.low c.high strategy c.seed).index + 1, c.high,
          (quick_sort_recursive_present
            (partition_array c.arr c.low c.high strategy c.seed).arr c.low
            ((partition_array c.arr c.low c.high strategy c.seed).index - 1) strategy
            (partition_array c.arr c.low c.high strategy c.seed).seed).seed⟩ d) :
      recursive_call strategy c d

/-! ## Facts on reads, writes and swaps -/

theorem length_wr (arr : List Int) (i v : Int) : (wr arr i v).length = arr.length := by
  simp [wr]

theorem rd_wr_eq (arr : List Int) (i v : Int) (h0 : 0 ≤ i) (h1 : i < arr.length) :
    rd (wr arr i v) i = v := by
  have : i.toNat < arr.length := by omega
  simp [rd, wr, List.getD_eq_getElem?_getD, this]

theorem rd_wr_ne (arr : List Int) (i j v : Int) (h0 : 0 ≤ i) (h1 : 0 ≤ j) (h : i ≠ j) :
    rd (wr arr i v) j = rd arr j := by
  have : i.toNat ≠ j.toNat := by omega
  simp [rd, wr, List.getD_eq_getElem?_getD, List.getElem?_set_ne this]

theorem length_swap_elements (arr : List Int) (a b : Int) :
    (swap_elements arr a b).length = arr.length := by
  simp [swap_elements, length_wr]

theorem rd_swap_elements (arr : List Int) (a b k : Int) (ha : 0 ≤ a) (ha1 : a < arr.length)
    (hb : 0 ≤ b) (hb1 : b < arr.length) (hk : 0 ≤ k) :
    rd (swap_elements arr a b) k =
      if k = b then rd arr a else if k = a then rd arr b else rd arr k := by
  simp only [swap_elements]
  by_cases h1 : k = b
  · subst h1
    rw [rd_wr_eq _ _ _ hk (by rw [length_wr]; exact hb1)]
    simp
  · rw [rd_wr_ne _ _ _ _ hb hk (Ne.symm h1), if_neg h1]
    by_cases h2 : k = a
    · subst h2
      rw [rd_wr_eq _ _ _ hk ha1]
      simp
    · rw [rd_wr_ne _ _ _ _ ha hk (Ne.symm h2), if_neg h2]

/-- Two arrays of the same length with the same reads are equal. -/
theorem ext_rd (a b : List Int) (hl : a.length = b.length)
    (h : ∀ k : Int, 0 ≤ k → k < a.length → rd a k = rd b k) : a = b := by
  apply List.ext_getElem hl
  intro n h1 h2
  have := h n (by omega) (by omega)
  simpa [rd, List.getD_eq_getElem?_getD, h1, h2] using this

theorem wr_perm_count (arr : List Int) (i v x : Int) (h0 : 0 ≤ i) (h1 : i < arr.length) :
    (wr arr i v).count x + (if rd arr i = x then 1 else 0) =
      arr.count x + (if v = x then 1 else 0) := by
  have hi : i.toNat < arr.length := by omega
  have hc := List.count_set v x arr i.toNat hi
  have hr : rd arr i = arr[i.toNat] := by
    simp [rd, List.getD_eq_getElem?_getD, hi]
  have hpos : arr[i.toNat] = x → 0 < arr.count x := by
    intro e
    exact List.count_pos_iff.mpr (e ▸ List.getElem_mem hi)
  simp only [wr, hr, hc, beq_iff_eq]
  split_ifs <;> simp_all

theorem swap_elements_perm (arr : List Int) (a b : Int) (ha : 0 ≤ a) (ha1 : a < arr.length)
    (hb : 0 ≤ b) (hb1 : b < arr.length) : (swap_elements arr a b).Perm arr := by
  rw [List.perm_iff_count]
  intro x
  have h1 := wr_perm_count arr a (rd arr b) x ha ha1
  have h2 := wr_perm_count (wr arr a (rd arr b)) b (rd arr a) x hb (by rw [length_wr]; exact hb1)
  have h3 : rd (wr arr a (rd arr b)) b = rd arr b := by
    by_cases h : a = b
    · subst h
      exact rd_wr_eq _ _ _ ha ha1
    · exact rd_wr_ne _ _ _ _ ha hb h
  rw [h3] at h2
  simp only [swap_elements]
  omega

theorem same_outside_refl (a : List Int) (low high : Int) : same_outside a a low high :=
  ⟨rfl, fun _ _ _ => rfl⟩

theorem same_outside_trans {c b a : List Int} {low high : Int} (h1 : same_outside c b low high)
    (h2 : same_outside b a low high) : same_outside c a low high :=
  ⟨h1.1.trans h2.1, fun k hk ho => (h1.2 k hk ho).trans (h2.2 k hk ho)⟩

theorem same_outside_mono {b a : List Int} {low high low1 high1 : Int}
    (h : same_outside b a low1 high1) (hl : low ≤ low1) (hh : high1 ≤ high) :
    same_outside b a low high :=
  ⟨h.1, fun k hk ho => h.2 k hk (by omega)⟩

theorem same_outside_swap (arr : List Int) (a b low high : Int) (ha : low ≤ a) (ha1 : a ≤ high)
    (hb : low ≤ b) (hb1 : b ≤ high) (hl : 0 ≤ low) (hh : high < arr.length) :
    same_outside (swap_elements arr a b) arr low high := by
  refine ⟨length_swap_elements arr a b, fun k hk ho => ?_⟩
  rw [rd_swap_elements arr a b k (by omega) (by omega) (by omega) (by omega) hk]
  rw [if_neg (by omega), if_neg (by omega)]

/-! ## `select_pivot` -/

theorem select_pivot_spec (arr : List Int) (low high : Int) (strategy : PivotStrategy) (seed : Nat)
    (hl : 0 ≤ low) (hlh : low ≤ high) (hh : high < arr.length) :
    (select_pivot arr low high strategy seed).arr.Perm arr ∧
      same_outside (select_pivot arr low high strategy seed).arr arr low high ∧
      low ≤ (select_pivot arr low high strategy seed).index ∧
      (select_pivot arr low high strategy seed).index ≤ high := by
  have hd : (high - low).tdiv 2 = (high - low) / 2 := Int.tdiv_eq_ediv (by omega) (by omega)
  simp only [select_pivot, if_neg (not_lt.mpr hlh)]
  cases strategy
  · exact ⟨List.Perm.refl _, same_outside_refl _ _ _, le_refl _, hlh⟩
  · exact ⟨List.Perm.refl _, same_outside_refl _ _ _, hlh, le_refl _⟩
  · refine ⟨List.Perm.refl _, same_outside_refl _ _ _, ?_, ?_⟩ <;> simp only [hd] <;> omega
  · have h1 := Int.emod_nonneg (next_seed seed : Int) (show high - low + 1 ≠ 0 by omega)
    have h2 := Int.emod_lt_of_pos (next_seed seed : Int) (show 0 < high - low + 1 by omega)
    refine ⟨List.Perm.refl _, same_outside_refl _ _ _, ?_, ?_⟩ <;> simp only <;> omega
  · simp only [hd]
    have hm1 : low ≤ low + (high - low) / 2 := by omega
    have hm2 : low + (high - low) / 2 ≤ high := by omega
    generalize low + (high - low) / 2 = mid at hm1 hm2
    -- three guarded swaps, each inside `[low, high]`
    have step : ∀ (a : List Int) (x y : Int), a.Perm arr → same_outside a arr low high →
        low ≤ x → x ≤ high → low ≤ y → y ≤ high →
        (if rd a x > rd a y then swap_elements a x y else a).Perm arr ∧
          same_outside (if rd a x > rd a y then swap_elements a x y else a) arr low high := by
      intro a x y hp hs hx hx1 hy hy1
      have hlen : a.length = arr.length := hs.1
      split
      · exact ⟨(swap_elements_perm a x y (by omega) (by omega) (by omega) (by omega)).trans hp,
          same_outside_trans (same_outside_swap a x y low high hx hx1 hy hy1 hl (by omega)) hs⟩
      · exact ⟨hp, hs⟩
    have s1 := step arr low mid (List.Perm.refl _) (same_outside_refl _ _ _) (le_refl _) hlh hm1 hm2
    have s2 := step _ low high s1.1 s1.2 (le_refl _) hlh hlh (le_refl _)
    have s3 := step _ mid high s2.1 s2.2 hm1 hm2 hlh (le_refl _)
    exact ⟨s3.1, s3.2, hm1, hm2⟩

/-! ## `partition_array` -/

theorem partition_scan_spec (v : Int) (low high : Int) (count : Nat) (j : Int) (arr : List Int)
    (i : Int) (hl : 0 ≤ low) (hi : low - 1 ≤ i) (hij : i < j) (hj : j + count = high)
    (hh : high < arr.length)
    (hle : ∀ k, low ≤ k → k ≤ i → rd arr k ≤ v)
    (hgt : ∀ k, i < k → k < j → v < rd arr k) :
    (partition_scan v count j arr i).1.Perm arr ∧
      same_outside (partition_scan v count j arr i).1 arr low (high - 1) ∧
      low - 1 ≤ (partition_scan v count j arr i).2 ∧
      (partition_scan v count j arr i).2 < high ∧
      (∀ k, low ≤ k → k ≤ (partition_scan v count j arr i).2 →
        rd (partition_scan v count j arr i).1 k ≤ v) ∧
      (∀ k, (partition_scan v count j arr i).2 < k → k < high →
        v < rd (partition_scan v count j arr i).1 k) := by
  induction count generalizing j arr i with
  | zero =>
    simp only [partition_scan]
    have : j = high := by simpa using hj
    subst this
    exact ⟨List.Perm.refl _, same_outside_refl _ _ _, hi, hij, hle, hgt⟩
  | succ n ih =>
    have hjn : j + 1 + (n : Int) = high := by push_cast at hj; omega
    simp only [partition_scan]
    split
    · rename_i hc
      have hsw : ∀ k, 0 ≤ k → rd (swap_elements arr (i + 1) j) k =
          if k = j then rd arr (i + 1) else if k = i + 1 then rd arr j else rd arr k :=
        fun k hk => rd_swap_elements arr (i + 1) j k (by omega) (by omega) (by omega) (by omega) hk
      have hso := same_outside_swap arr (i + 1) j low (high - 1) (by omega) (by omega) (by omega)
        (by omega) hl (by omega)
      have hpm := swap_elements_perm arr (i + 1) j (by omega) (by omega) (by omega) (by omega)
      have r := ih (j + 1) (swap_elements arr (i + 1) j) (i + 1) (by omega) (by omega) hjn
        (by rw [length_swap_elements]; exact hh)
        (by
          intro k hk1 hk2
          rw [hsw k (by omega)]
          by_cases e1 : k = j
          · rw [if_pos e1]
            have : i + 1 = j := by omega
            rw [this]; exact hc
          · rw [if_neg e1]
            by_cases e2 : k = i + 1
            · rw [if_pos e2]; exact hc
            · rw [if_neg e2]; exact hle k hk1 (by omega))
        (by
          intro k hk1 hk2
          rw [hsw k (by omega)]
          by_cases e1 : k = j
          · rw [if_pos e1]
            exact hgt (i + 1) (by omega) (by omega)
          · rw [if_neg e1, if_neg (by omega)]
            exact hgt k (by omega) (by omega))
      exact ⟨r.1.trans hpm, same_outside_trans r.2.1 hso, by omega, r.2.2.2.1, r.2.2.2.2.1,
        r.2.2.2.2.2⟩
    · rename_i hc
      have r := ih (j + 1) arr i hi (by omega) hjn hh hle
        (by
          intro k hk1 hk2
          by_cases e : k = j
          · subst e; omega
          · exact hgt k hk1 (by omega))
      exact r

theorem partition_array_spec (arr : List Int) (low high : Int) (strategy : PivotStrategy)
    (seed : Nat) (hl : 0 ≤ low) (hlh : low < high) (hh : high < arr.length) :
    (partition_array arr low high strategy seed).arr.Perm arr ∧
      same_outside (partition_array arr low high strategy seed).arr arr low high ∧
      low ≤ (partition_array arr low high strategy seed).index ∧
      (partition_array arr low high strategy seed).index ≤ high ∧
      rd (partition_array arr low high strategy seed).arr
        (partition_array arr low high strategy seed).index =
          pivot_value_of arr low high strategy seed ∧
      (∀ k, low ≤ k → k < (partition_array arr low high strategy seed).index →
        rd (partition_array arr low high strategy seed).arr k ≤
          pivot_value_of arr low high strategy seed) ∧
      (∀ k, (partition_array arr low high strategy seed).index < k → k ≤ high →
        pivot_value_of arr low high strategy seed <
          rd (partition_array arr low high strategy seed).arr k) := by
  obtain ⟨sp, so, si1, si2⟩ := select_pivot_spec arr low high strategy seed hl (le_of_lt hlh) hh
  simp only [partition_array, if_neg (not_le.mpr hlh), pivot_value_of]
  generalize select_pivot arr low high strategy seed = sel at sp so si1 si2
  obtain ⟨a0, seed0, idx⟩ := sel
  simp only at sp so si1 si2 ⊢
  have hlen0 : a0.length = arr.length := so.1
  set v := rd a0 idx with hv
  set a1 := swap_elements a0 idx high with ha1
  have hlen1 : a1.length = arr.length := by rw [ha1, length_swap_elements]; exact hlen0
  have hrd1 : ∀ k, 0 ≤ k → rd a1 k = if k = high then rd a0 idx else if k = idx then rd a0 high
      else rd a0 k :=
    fun k hk => rd_swap_elements a0 idx high k (by omega) (by omega) (by omega) (by omega) hk
  have hn : ((high - low).toNat : Int) = high - low := Int.toNat_of_nonneg (by omega)
  obtain ⟨p1, p2, p3, p4, p5, p6⟩ := partition_scan_spec v low high (high - low).toNat low a1
    (low - 1) hl (le_refl _) (by omega) (by omega) (by omega)
    (fun k h1 h2 => by omega) (fun k h1 h2 => by omega)
  generalize partition_scan v (high - low).toNat low a1 (low - 1) = scan at p1 p2 p3 p4 p5 p6
  obtain ⟨a2, i⟩ := scan
  simp only at p1 p2 p3 p4 p5 p6 ⊢
  have hlen2 : a2.length = arr.length := p2.1.trans hlen1
  have hrd3 : ∀ k, 0 ≤ k → rd (swap_elements a2 (i + 1) high) k =
      if k = high then rd a2 (i + 1) else if k = i + 1 then rd a2 high else rd a2 k :=
    fun k hk => rd_swap_elements a2 (i + 1) high k (by omega) (by omega) (by omega) (by omega) hk
  have hhigh : rd a2 high = v := by
    rw [p2.2 high (by omega) (Or.inr (by omega)), hrd1 high (by omega), if_pos rfl]
  refine ⟨?_, ?_, by omega, by omega, ?_, ?_, ?_⟩
  · exact (swap_elements_perm a2 (i + 1) high (by omega) (by omega) (by omega) (by omega)).trans
      (p1.trans ((swap_elements_perm a0 idx high (by omega) (by omega) (by omega)
        (by omega)).trans sp))
  · exact same_outside_trans
      (same_outside_swap a2 (i + 1) high low high (by omega) (by omega) (by omega) (le_refl _) hl
        (by omega))
      (same_outside_trans (same_outside_mono p2 (le_refl _) (by omega))
        (same_outside_trans
          (same_outside_swap a0 idx high low high si1 si2 (by omega) (le_refl _) hl (by omega)) so))
  · rw [hrd3 (i + 1) (by omega)]
    by_cases e : i + 1 = high
    · rw [if_pos e, e]; exact hhigh
    · rw [if_neg e, if_pos rfl]; exact hhigh
  · intro k hk1 hk2
    rw [hrd3 k (by omega), if_neg (by omega), if_neg (by omega)]
    exact p5 k hk1 (by omega)
  · intro k hk1 hk2
    rw [hrd3 k (by omega)]
    by_cases e : k = high
    · rw [if_pos e]
      exact p6 (i + 1) (by omega) (by omega)
    · rw [if_neg e, if_neg (by omega)]
      exact p6 k (by omega) (by omega)

theorem slice_length (arr : List Int) (low high : Int) (hl : 0 ≤ low) (hh : high < arr.length) :
    (slice arr low high).length = (high - low + 1).toNat := by
  simp only [slice, List.length_take, List.length_drop]
  omega

theorem slice_getElem (arr : List Int) (low high : Int) (hl : 0 ≤ low) (k : Nat)
    (hk : k < (slice arr low high).length) : (slice arr low high)[k] = rd arr (low + k) := by
  have h1 := hk
  simp only [slice, List.length_take, List.length_drop] at h1
  have h2 : low.toNat + k < arr.length := by omega
  have h3 : (low + k).toNat = low.toNat + k := by omega
  simp [slice, rd, List.getD_eq_getElem?_getD, h3, h2]

theorem mem_slice_iff (arr : List Int) (low high : Int) (hl : 0 ≤ low) (hh : high < arr.length)
    (x : Int) : x ∈ slice arr low high ↔ ∃ k : Int, low ≤ k ∧ k ≤ high ∧ rd arr k = x := by
  have hlen := slice_length arr low high hl hh
  constructor
  · intro hx
    obtain ⟨n, hn, e⟩ := List.getElem_of_mem hx
    rw [slice_getElem arr low high hl n hn] at e
    exact ⟨low + n, by omega, by omega, e⟩
  · rintro ⟨k, h1, h2, e⟩
    have hn : (k - low).toNat < (slice arr low high).length := by omega
    have := slice_getElem arr low high hl (k - low).toNat hn
    have hk : low + ((k - low).toNat : Int) = k := by omega
    rw [hk, e] at this
    exact this ▸ List.getElem_mem hn

theorem sorted_slice_iff (arr : List Int) (low high : Int) (hl : 0 ≤ low) (hh : high < arr.length) :
    (slice arr low high).Sorted (· ≤ ·) ↔ sorted_range arr low high := by
  have hlen := slice_length arr low high hl hh
  simp only [List.Sorted, List.pairwise_iff_getElem, sorted_range]
  constructor
  · intro h i j h1 h2 h3
    by_cases e : i = j
    · subst e; exact le_refl _
    · have hi : (i - low).toNat < (slice arr low high).length := by omega
      have hj : (j - low).toNat < (slice arr low high).length := by omega
      have := h (i - low).toNat (j - low).toNat hi hj (by omega)
      rw [slice_getElem arr low high hl _ hi, slice_getElem arr low high hl _ hj] at this
      have e1 : low + ((i - low).toNat : Int) = i := by omega
      have e2 : low + ((j - low).toNat : Int) = j := by omega
      rwa [e1, e2] at this
  · intro h i j hi hj hij
    rw [slice_getElem arr low high hl _ hi, slice_getElem arr low high hl _ hj]
    exact h _ _ (by omega) (by omega) (by omega)

/-- An array splits into what is before `low`, the slice `low..high` and what
is after `high`. -/
theorem slice_split (arr : List Int) (low high : Int) (hl : 0 ≤ low) (hlh : low ≤ high + 1) :
    arr = arr.take low.toNat ++ (slice arr low high ++ arr.drop (high + 1).toNat) := by
  have e : (high + 1).toNat = low.toNat + (high - low + 1).toNat := by omega
  simp only [slice]
  rw [e, ← List.drop_drop, List.take_append_drop, List.take_append_drop]

theorem same_outside_take_drop (b a : List Int) (low high : Int) (hl : 0 ≤ low)
    (h : same_outside b a low high) :
    b.take low.toNat = a.take low.toNat ∧ b.drop (high + 1).toNat = a.drop (high + 1).toNat := by
  obtain ⟨hlen, ho⟩ := h
  constructor
  · apply List.ext_getElem (by simp [hlen])
    intro n h1 h2
    have hn : n < low.toNat ∧ n < a.length := by simpa using h2
    have := ho n (by omega) (Or.inl (by omega))
    have hb : n < b.length := by omega
    simp only [rd, List.getD_eq_getElem?_getD, Int.toNat_ofNat, hn.2, hb,
      List.getElem?_eq_getElem, Option.getD_some] at this
    simpa using this
  · apply List.ext_getElem (by simp [hlen])
    intro n h1 h2
    have hn : (high + 1).toNat + n < a.length := by
      have := h2; simp only [List.length_drop] at this; omega
    have := ho ((high + 1).toNat + n : Nat) (by omega) (Or.inr (by omega))
    have hb : (high + 1).toNat + n < b.length := by omega
    simp only [rd, List.getD_eq_getElem?_getD, Int.toNat_ofNat, hn, hb,
      List.getElem?_eq_getElem, Option.getD_some] at this
    simpa using this

/-- For arrays that agree outside `[low, high]`, being a permutation of each
other is the same as their slices `low..high` being so. -/
theorem perm_iff_slice_perm (b a : List Int) (low high : Int) (hl : 0 ≤ low)
    (hlh : low ≤ high + 1) (h : same_outside b a low high) :
    b.Perm a ↔ (slice b low high).Perm (slice a low high) := by
  obtain ⟨e1, e2⟩ := same_outside_take_drop b a low high hl h
  have sa := slice_split a low high hl hlh
  have sb := slice_split b low high hl hlh
  rw [e1, e2] at sb
  constructor
  · intro hp
    rw [sa, sb] at hp
    exact (List.perm_append_right_iff _).mp ((List.perm_append_left_iff _).mp hp)
  · intro hp
    rw [sa, sb]
    exact (List.perm_append_left_iff _).mpr ((List.perm_append_right_iff _).mpr hp)

/-- Arrays that agree outside `[low, high]` and have the same slice there are
equal. -/
theorem eq_of_slice_eq (b a : List Int) (low high : Int) (hl : 0 ≤ low) (hlh : low ≤ high + 1)
    (h : same_outside b a low high) (hs : slice b low high = slice a low high) : b = a := by
  obtain ⟨e1, e2⟩ := same_outside_take_drop b a low high hl h
  rw [slice_split a low high hl hlh, slice_split b low high hl hlh, e1, e2, hs]

/-! ## `is_sorted` -/

theorem is_sorted_loop_eq_one_iff (arr : List Int) (count : Nat) (i : Int) :
    is_sorted_loop arr count i = 1 ↔ ∀ k : Int, i ≤ k → k < i + count → rd arr (k - 1) ≤ rd arr k := by
  induction count generalizing i with
  | zero =>
    simp only [is_sorted_loop, true_iff]
    intro k h1 h2
    simp at h2
    omega
  | succ n ih =>
    simp only [is_sorted_loop]
    split
    · rename_i hc
      simp only [zero_ne_one, false_iff, not_forall]
      exact ⟨i, le_refl _, by push_cast; omega, not_le.mpr hc⟩
    · rename_i hc
      rw [ih (i + 1)]
      constructor
      · intro h k h1 h2
        by_cases e : k = i
        · subst e; exact not_lt.mp hc
        · exact h k (by omega) (by push_cast at h2; omega)
      · intro h k h1 h2
        exact h k (by omega) (by push_cast; omega)

theorem sorted_range_iff_adjacent (arr : List Int) (low high : Int) :
    sorted_range arr low high ↔ ∀ k : Int, low < k → k ≤ high → rd arr (k - 1) ≤ rd arr k := by
  constructor
  · intro h k h1 h2
    exact h (k - 1) k (by omega) (by omega) h2
  · intro h i j h1 h2 h3
    obtain ⟨d, rfl⟩ : ∃ d : Nat, j = i + d := ⟨(j - i).toNat, by omega⟩
    clear h2
    induction d with
    | zero => simp
    | succ n ih =>
      have := h (i + (n + 1 : Nat)) (by push_cast; omega) h3
      have e : i + ((n + 1 : Nat) : Int) - 1 = i + n := by push_cast; omega
      rw [e] at this
      exact le_trans (ih (by push_cast at h3; omega)) this

/-- `is_sorted` returns 1 on a present array exactly when the first `n` cells
are in ascending order (for `n ≥ 1`). -/
theorem is_sorted_eq_one_iff (arr : List Int) (n : Int) (hn : 1 ≤ n) :
    is_sorted (some arr) n = 1 ↔ sorted_range arr 0 (n - 1) := by
  have e : ((n - 1).toNat : Int) = n - 1 := Int.toNat_of_nonneg (by omega)
  simp only [is_sorted, if_neg (show ¬ n ≤ 0 by omega), is_sorted_loop_eq_one_iff,
    sorted_range_iff_adjacent, e]
  constructor
  · intro h k h1 h2; exact h k (by omega) (by omega)
  · intro h k h1 h2; exact h k (by omega) (by omega)

theorem quick_sort_iterative_loop_nil (capacity : Int) (strategy : PivotStrategy)
    (arr : List Int) (seed : Nat) :
    quick_sort_iterative_loop capacity strategy [] arr seed = some (arr, seed) := by
  rw [quick_sort_iterative_loop]

theorem quick_sort_iterative_loop_skip (capacity : Int) (strategy : PivotStrategy)
    (item : StackItem) (rest : List StackItem) (arr : List Int) (seed : Nat)
    (h : ¬ item.low < item.high) :
    quick_sort_iterative_loop capacity strategy (item :: rest) arr seed =
      quick_sort_iterative_loop capacity strategy rest arr seed := by
  rw [quick_sort_iterative_loop]
  simp only [dif_neg h]

theorem quick_sort_iterative_loop_step (capacity : Int) (strategy : PivotStrategy)
    (item : StackItem) (rest : List StackItem) (arr : List Int) (seed : Nat)
    (h : item.low < item.high) (hc : (rest.length : Int) + 1 < capacity) :
    quick_sort_iterative_loop capacity strategy (item :: rest) arr seed =
      quick_sort_iterative_loop capacity strategy
        (new_frames item (partition_array arr item.low item.high strategy seed).index ++ rest)
        (partition_array arr item.low item.high strategy seed).arr
        (partition_array arr item.low item.high strategy seed).seed := by
  rw [quick_sort_iterative_loop]
  simp only [dif_pos h, new_frames, stack_push]
  have l1 : (rest.length : Int) < capacity := by omega
  have l2 : ∀ f : StackItem, (((f :: rest).length : Nat) : Int) < capacity := by
    intro f; simp only [List.length_cons]; push_cast; omega
  have l3 : ∀ f : StackItem, (rest.length : Int) + 1 < capacity := fun _ => hc
  by_cases c1 : (partition_array arr item.low item.high strategy seed).index - 1 > item.low <;>
  by_cases c2 : (partition_array arr item.low item.high strategy seed).index + 1 < item.high
  all_goals
    split
    · rename_i e1
      simp [c1, l1] at e1
    · rename_i stack1 e1
      simp only [c1, l1, if_true, if_false, Option.some.injEq] at e1
      subst e1
      split
      · rename_i e2
        simp [c2, l1, hc] at e2
      · rename_i stack2 e2
        simp only [c2, l1, l2, if_true, if_false, Option.some.injEq] at e2
        subst e2
        simp [c1, c2]

/-- Every value of `b` in `[low, high]` is a value of `a` in `[low, high]`, when
`b` is a permutation of `a` with the same cells outside `[low, high]`. -/
theorem rd_range_of_perm (b a : List Int) (low high : Int) (hl : 0 ≤ low) (hh : high < a.length)
    (hp : b.Perm a) (hs : same_outside b a low high) (x : Int) (h1 : low ≤ x) (h2 : x ≤ high) :
    ∃ y : Int, low ≤ y ∧ y ≤ high ∧ rd a y = rd b x := by
  have hsp := (perm_iff_slice_perm b a low high hl (by omega) hs).mp hp
  have hm : rd b x ∈ slice b low high :=
    (mem_slice_iff b low high hl (by rw [hs.1]; exact hh) _).mpr ⟨x, h1, h2, rfl⟩
  exact (mem_slice_iff a low high hl hh _).mp (hsp.subset hm)

theorem stack_weight_append (s t : List StackItem) :
    stack_weight (s ++ t) = stack_weight s + stack_weight t := by
  induction s with
  | nil => simp [stack_weight]
  | cons f s ih =>
    rw [List.cons_append]
    simp only [stack_weight]
    rw [ih]
    omega

theorem length_le_stack_weight (s : List StackItem) : s.length ≤ stack_weight s := by
  induction s with
  | nil => simp
  | cons f s ih => simp only [List.length_cons, stack_weight]; omega

theorem stack_weight_new_frames (item : StackItem) (p : Int) (h1 : item.low ≤ p)
    (h2 : p ≤ item.high) :
    (stack_weight (new_frames item p) : Int) ≤ item.high - item.low := by
  simp only [new_frames]
  split <;> split <;> simp [stack_weight] <;> omega

theorem mem_new_frames (item : StackItem) (p : Int) (f : StackItem) :
    f ∈ new_frames item p ↔
      (f = ⟨p + 1, item.high⟩ ∧ p + 1 < item.high) ∨ (f = ⟨item.low, p - 1⟩ ∧ p - 1 > item.low) := by
  simp only [new_frames]
  split <;> split <;> simp_all

theorem loop_inv_skip (low high : Int) (item : StackItem) (rest : List StackItem) (arr : List Int)
    (h : ¬ item.low < item.high) (inv : loop_inv low high (item :: rest) arr) :
    loop_inv low high rest arr where
  low_nonneg := inv.low_nonneg
  high_lt := inv.high_lt
  frames := fun f hf => inv.frames f (List.mem_cons_of_mem _ hf)
  disjoint := (List.pairwise_cons.mp inv.disjoint).2
  weight := by have := inv.weight; simp only [stack_weight] at this; omega
  order := by
    intro x y h1 h2 h3
    rcases inv.order x y h1 h2 h3 with ⟨f, hf, c1, c2⟩ | hle
    · rcases List.mem_cons.mp hf with rfl | hf
      · omega
      · exact Or.inl ⟨f, hf, c1, c2⟩
    · exact Or.inr hle

theorem loop_inv_step (low high : Int) (item : StackItem) (rest : List StackItem) (arr : List Int)
    (strategy : PivotStrategy) (seed : Nat)
    (h : item.low < item.high) (inv : loop_inv low high (item :: rest) arr) :
    loop_inv low high
      (new_frames item (partition_array arr item.low item.high strategy seed).index ++ rest)
      (partition_array arr item.low item.high strategy seed).arr := by
  have hfi := inv.frames item (List.mem_cons_self _ _)
  have hl0 := inv.low_nonneg
  have hh0 := inv.high_lt
  obtain ⟨pp, ps, pl, ph, pv, ple, pgt⟩ := partition_array_spec arr item.low item.high strategy seed
    (by omega) h (by omega)
  generalize pivot_value_of arr item.low item.high strategy seed = v at pv ple pgt
  generalize partition_array arr item.low item.high strategy seed = part at pp ps pl ph pv ple pgt
  obtain ⟨hdi, hdr⟩ := List.pairwise_cons.mp inv.disjoint
  have hnew : ∀ f ∈ new_frames item part.index, item.low ≤ f.low ∧ f.low < f.high ∧
      f.high ≤ item.high := by
    intro f hf
    rcases (mem_new_frames item part.index f).mp hf with ⟨rfl, c⟩ | ⟨rfl, c⟩ <;> simp only <;> omega
  refine ⟨hl0, by rw [ps.1]; exact hh0, ?_, ?_, ?_, ?_⟩
  · intro f hf
    rcases List.mem_append.mp hf with hf | hf
    · have := hnew f hf; omega
    · exact inv.frames f (List.mem_cons_of_mem _ hf)
  · rw [List.pairwise_append]
    refine ⟨?_, hdr, ?_⟩
    · simp only [new_frames]
      split <;> split <;> simp [disjoint_frames]
      omega
    · intro f hf g hg
      have := hnew f hf
      have hd := hdi g hg
      simp only [disjoint_frames] at hd ⊢
      omega
  · have w1 := stack_weight_new_frames item part.index pl ph
    have w2 := inv.weight
    simp only [stack_weight] at w2
    rw [stack_weight_append]
    push_cast at w2 ⊢
    omega
  · intro x y h1 h2 h3
    have inx : ∀ z, item.low ≤ z → z ≤ item.high →
        ∃ z', item.low ≤ z' ∧ z' ≤ item.high ∧ rd arr z' = rd part.arr z :=
      rd_range_of_perm part.arr arr item.low item.high (by omega) (by omega) pp ps
    have outx : ∀ z, 0 ≤ z → (z < item.low ∨ item.high < z) → rd part.arr z = rd arr z := ps.2
    -- a pair with one index inside the popped frame and one outside was ordered before
    have cross : ∀ a b, low ≤ a → a < b → b ≤ high →
        ((item.low ≤ a ∧ a ≤ item.high) ∧ item.high < b ∨
          a < item.low ∧ (item.low ≤ b ∧ b ≤ item.high)) → rd arr a ≤ rd arr b := by
      intro a b ha hab hb hc
      rcases inv.order a b ha hab hb with ⟨f, hf, c1, c2⟩ | hle
      · rcases List.mem_cons.mp hf with rfl | hf
        · omega
        · have hd := hdi f hf
          simp only [disjoint_frames] at hd
          have := inv.frames f (List.mem_cons_of_mem _ hf)
          omega
      · exact hle
    by_cases cx : item.low ≤ x ∧ x ≤ item.high <;> by_cases cy : item.low ≤ y ∧ y ≤ item.high
    · by_cases c1 : y < part.index
      · exact Or.inl ⟨⟨item.low, part.index - 1⟩, List.mem_append_left _
          ((mem_new_frames item part.index _).mpr (Or.inr ⟨rfl, by omega⟩)),
          by simp only; omega, by simp only; omega⟩
      · by_cases c2 : part.index < x
        · exact Or.inl ⟨⟨part.index + 1, item.high⟩, List.mem_append_left _
            ((mem_new_frames item part.index _).mpr (Or.inl ⟨rfl, by omega⟩)),
            by simp only; omega, by simp only; omega⟩
        · right
          have hx : rd part.arr x ≤ v := by
            by_cases e : x = part.index
            · rw [e, pv]
            · exact ple x cx.1 (by omega)
          have hy : v ≤ rd part.arr y := by
            by_cases e : y = part.index
            · rw [e, pv]
            · exact le_of_lt (pgt y (by omega) cy.2)
          exact le_trans hx hy
    · right
      obtain ⟨x', a1, a2, a3⟩ := inx x cx.1 cx.2
      rw [← a3, outx y (by omega) (by omega)]
      exact cross x' y (by omega) (by omega) h3 (Or.inl ⟨⟨a1, a2⟩, by omega⟩)
    · right
      obtain ⟨y', a1, a2, a3⟩ := inx y cy.1 cy.2
      rw [← a3, outx x (by omega) (by omega)]
      exact cross x y' h1 (by omega) (by omega) (Or.inr ⟨by omega, a1, a2⟩)
    · rw [outx x (by omega) (by omega), outx y (by omega) (by omega)]
      rcases inv.order x y h1 h2 h3 with ⟨f, hf, c1, c2⟩ | hle
      · rcases List.mem_cons.mp hf with rfl | hf
        · omega
        · exact Or.inl ⟨f, List.mem_append_right _ hf, c1, c2⟩
      · exact Or.inr hle

/-- From a state that satisfies the invariant, the loop of
`quick_sort_iterative` ends without leaving its stack and leaves the range
sorted, as a permutation of what it was, with the rest of the array
untouched. -/
theorem quick_sort_iterative_loop_spec (low high : Int) (strategy : PivotStrategy) (n : Nat) :
    ∀ (stack : List StackItem) (arr : List Int) (seed : Nat), stack_weight stack ≤ n →
      loop_inv low high stack arr →
      ∃ arr1 seed1, quick_sort_iterative_loop (high - low + 1) strategy stack arr seed =
          some (arr1, seed1) ∧
        arr1.Perm arr ∧ same_outside arr1 arr low high ∧ sorted_range arr1 low high := by
  induction n with
  | zero =>
    intro stack arr seed hw inv
    cases stack with
    | nil =>
      refine ⟨arr, seed, quick_sort_iterative_loop_nil _ _ _ _, List.Perm.refl _,
        same_outside_refl _ _ _, ?_⟩
      intro i j h1 h2 h3
      by_cases e : i = j
      · subst e; exact le_refl _
      · rcases inv.order i j h1 (by omega) h3 with ⟨f, hf, _⟩ | hle
        · simp at hf
        · exact hle
    | cons item rest => simp [stack_weight] at hw
  | succ n ih =>
    intro stack arr seed hw inv
    cases stack with
    | nil =>
      refine ⟨arr, seed, quick_sort_iterative_loop_nil _ _ _ _, List.Perm.refl _,
        same_outside_refl _ _ _, ?_⟩
      intro i j h1 h2 h3
      by_cases e : i = j
      · subst e; exact le_refl _
      · rcases inv.order i j h1 (by omega) h3 with ⟨f, hf, _⟩ | hle
        · simp at hf
        · exact hle
    | cons item rest =>
      by_cases h : item.low < item.high
      · have hfi := inv.frames item (List.mem_cons_self _ _)
        have w := inv.weight
        have hlen := length_le_stack_weight rest
        simp only [stack_weight] at w hw
        rw [quick_sort_iterative_loop_step _ _ _ _ _ _ h (by omega)]
        obtain ⟨pp, ps, pl, ph, -⟩ := partition_array_spec arr item.low item.high strategy seed
          (by have := inv.low_nonneg; omega) h (by have := inv.high_lt; omega)
        have inv1 := loop_inv_step low high item rest arr strategy seed h inv
        have w1 := stack_weight_new_frames item _ pl ph
        obtain ⟨arr1, seed1, e, q1, q2, q3⟩ := ih _ _
          (partition_array arr item.low item.high strategy seed).seed
          (by rw [stack_weight_append]; omega) inv1
        exact ⟨arr1, seed1, e, q1.trans pp,
          same_outside_trans q2 (same_outside_mono ps hfi.1 hfi.2.2), q3⟩
      · rw [quick_sort_iterative_loop_skip _ _ _ _ _ _ h]
        simp only [stack_weight] at hw
        exact ih rest arr seed (by omega) (loop_inv_skip low high item rest arr h inv)

/-! ## `quick_sort_iterative` -/

theorem quick_sort_iterative_spec (arr : List Int) (low high : Int) (strategy : PivotStrategy)
    (seed : Nat) (hl : 0 ≤ low) (hlh : low ≤ high) (hh : high < arr.length) :
    ∃ arr1 seed1, quick_sort_iterative true (some arr) low high strategy seed =
        some (SORT_SUCCESS, some arr1, seed1) ∧
      arr1.Perm arr ∧ same_outside arr1 arr low high ∧ sorted_range arr1 low high := by
  have inv : loop_inv low high [⟨low, high⟩] arr := by
    refine ⟨hl, hh, ?_, List.pairwise_singleton _ _, ?_, ?_⟩
    · intro f hf
      rw [List.mem_singleton] at hf
      subst hf
      exact ⟨le_refl _, hlh, le_refl _⟩
    · simp only [stack_weight]
      push_cast
      omega
    · intro x y h1 h2 h3
      exact Or.inl ⟨⟨low, high⟩, List.mem_singleton.mpr rfl, h1, h3⟩
  obtain ⟨arr1, seed1, e, q⟩ := quick_sort_iterative_loop_spec low high strategy _ _ arr seed
    (le_refl _) inv
  refine ⟨arr1, seed1, ?_, q⟩
  have hv : ¬ (low < 0 ∨ high < 0 ∨ low > high) := by omega
  have hc : ((([] : List StackItem).length : Nat) : Int) < high - low + 1 := by
    simp only [List.length_nil]; push_cast; omega
  simp only [quick_sort_iterative, if_neg hv, stack_push, if_pos hc, e, not_true_eq_false,
    if_false]

/-! ## `quick_sort_recursive` -/

theorem quick_sort_recursive_present_invalid (arr : List Int) (low high : Int)
    (strategy : PivotStrategy) (seed : Nat) (h : low < 0 ∨ high < 0 ∨ low > high) :
    quick_sort_recursive_present arr low high strategy seed = ⟨SORT_ERROR_INVALID_SIZE, arr, seed⟩ := by
  rw [quick_sort_recursive_present, if_pos h]

theorem quick_sort_recursive_present_single (arr : List Int) (low high : Int)
    (strategy : PivotStrategy) (seed : Nat) (hl : 0 ≤ low) (h : low = high) :
    quick_sort_recursive_present arr low high strategy seed = ⟨SORT_SUCCESS, arr, seed⟩ := by
  rw [quick_sort_recursive_present, if_neg (by omega), dif_neg (by omega)]

theorem quick_sort_recursive_present_step (arr : List Int) (low high : Int)
    (strategy : PivotStrategy) (seed : Nat) (hl : 0 ≤ low) (h : low < high) :
    quick_sort_recursive_present arr low high strategy seed =
      if (quick_sort_recursive_present (partition_array arr low high strategy seed).arr low
          ((partition_array arr low high strategy seed).index - 1) strategy
          (partition_array arr low high strategy seed).seed).error ≠ SORT_SUCCESS then
        quick_sort_recursive_present (partition_array arr low high strategy seed).arr low
          ((partition_array arr low high strategy seed).index - 1) strategy
          (partition_array arr low high strategy seed).seed
      else
        quick_sort_recursive_present
          (quick_sort_recursive_present (partition_array arr low high strategy seed).arr low
            ((partition_array arr low high strategy seed).index - 1) strategy
            (partition_array arr low high strategy seed).seed).arr
          ((partition_array arr low high strategy seed).index + 1) high strategy
          (quick_sort_recursive_present (partition_array arr low high strategy seed).arr low
            ((partition_array arr low high strategy seed).index - 1) strategy
            (partition_array arr low high strategy seed).seed).seed := by
  conv_lhs => rw [quick_sort_recursive_present]
  rw [if_neg (by omega), dif_pos h]
  simp only
  split
  · rfl
  · split
    · rfl
    · rename_i h2
      simp only [ne_eq, not_not] at h2
      rw [← h2]

/-- Whatever it returns, `quick_sort_recursive` leaves a permutation of the
array that differs from it only inside `[low, high]`. -/
theorem quick_sort_recursive_present_frame (strategy : PivotStrategy) (n : Nat) :
    ∀ (arr : List Int) (low high : Int) (seed : Nat), (high - low).toNat ≤ n →
      high < arr.length →
      (quick_sort_recursive_present arr low high strategy seed).arr.Perm arr ∧
        same_outside (quick_sort_recursive_present arr low high strategy seed).arr arr low high := by
  induction n with
  | zero =>
    intro arr low high seed hn hh
    by_cases hv : low < 0 ∨ high < 0 ∨ low > high
    · rw [quick_sort_recursive_present_invalid _ _ _ _ _ hv]
      exact ⟨List.Perm.refl _, same_outside_refl _ _ _⟩
    · rw [quick_sort_recursive_present_single _ _ _ _ _ (by omega) (by omega)]
      exact ⟨List.Perm.refl _, same_outside_refl _ _ _⟩
  | succ n ih =>
    intro arr low high seed hn hh
    by_cases hv : low < 0 ∨ high < 0 ∨ low > high
    · rw [quick_sort_recursive_present_invalid _ _ _ _ _ hv]
      exact ⟨List.Perm.refl _, same_outside_refl _ _ _⟩
    · by_cases h : low < high
      · obtain ⟨pp, ps, pl, ph, -⟩ := partition_array_spec arr low high strategy seed (by omega) h hh
        rw [quick_sort_recursive_present_step _ _ _ _ _ (by omega) h]
        generalize partition_array arr low high strategy seed = part at pp ps pl ph
        have hlen : part.arr.length = arr.length := ps.1
        have l := ih part.arr low (part.index - 1) part.seed (by omega) (by omega)
        generalize quick_sort_recursive_present part.arr low (part.index - 1) strategy part.seed
          = left at l
        have hlen2 : left.arr.length = arr.length := l.2.1.trans hlen
        have r := ih left.arr (part.index + 1) high left.seed (by omega) (by omega)
        have l2 := same_outside_mono l.2 (le_refl low) (show part.index - 1 ≤ high by omega)
        split
        · exact ⟨l.1.trans pp, same_outside_trans l2 ps⟩
        · exact ⟨r.1.trans (l.1.trans pp),
            same_outside_trans (same_outside_mono r.2 (show low ≤ part.index + 1 by omega)
              (le_refl high)) (same_outside_trans l2 ps)⟩
      · rw [quick_sort_recursive_present_single _ _ _ _ _ (by omega) (by omega)]
        exact ⟨List.Perm.refl _, same_outside_refl _ _ _⟩

/-! ## `partition_array` on a range that is already sorted -/

theorem select_pivot_sorted (arr : List Int) (low high : Int) (strategy : PivotStrategy)
    (seed : Nat) (hlh : low ≤ high) (hs : sorted_range arr low high) :
    (select_pivot arr low high strategy seed).arr = arr := by
  have hd : (high - low).tdiv 2 = (high - low) / 2 := Int.tdiv_eq_ediv (by omega) (by omega)
  simp only [select_pivot, if_neg (not_lt.mpr hlh)]
  cases strategy <;> simp only
  rw [hd]
  have h1 : ¬ rd arr low > rd arr (low + (high - low) / 2) :=
    not_lt.mpr (hs _ _ (le_refl _) (by omega) (by omega))
  rw [if_neg h1]
  have h2 : ¬ rd arr low > rd arr high := not_lt.mpr (hs _ _ (le_refl _) hlh (le_refl _))
  rw [if_neg h2]
  have h3 : ¬ rd arr (low + (high - low) / 2) > rd arr high :=
    not_lt.mpr (hs _ _ (by omega) (by omega) (le_refl _))
  rw [if_neg h3]

theorem partition_scan_sorted (arr : List Int) (low high idx : Int) (hl : 0 ≤ low)
    (hi1 : low ≤ idx) (hi2 : idx ≤ high) (hh : high < arr.length)
    (hs : sorted_range arr low high) (count : Nat) :
    ∀ (j : Int) (a : List Int) (i m : Int), low ≤ j → low - 1 ≤ i → j + count = high →
      sorted_scan_inv arr high idx a i j m →
      ∃ m1, sorted_scan_inv arr high idx (partition_scan (rd arr idx) count j a i).1
        (partition_scan (rd arr idx) count j a i).2 high m1 := by
  induction count with
  | zero =>
    intro j a i m hj hi hc inv
    have : j = high := by simpa using hc
    subst this
    exact ⟨m, inv⟩
  | succ n ih =>
    intro j a i m hj hi hc inv
    have hjn : j + 1 + (n : Int) = high := by push_cast at hc; omega
    have hjh : j < high := by push_cast at hc; omega
    obtain ⟨ilen, ird, iv, imh, im, ig⟩ := inv
    have e_idx_high : rd arr idx ≤ rd arr high := hs _ _ hi1 hi2 (le_refl _)
    simp only [partition_scan]
    have hsw : ∀ k, 0 ≤ k → rd (swap_elements a (i + 1) j) k =
        if k = j then rd a (i + 1) else if k = i + 1 then rd a j else rd a k :=
      fun k hk => rd_swap_elements a (i + 1) j k (by omega) (by omega) (by omega) (by omega) hk
    split
    · rename_i hc1
      -- the cell at `j` is at most the pivot: it is swapped with the boundary cell
      rcases ig with g0 | ⟨g1, g2, g3⟩
      · -- no cell was skipped so far: the swap is of `j` with itself
        have hjm : j ≤ m := by omega
        by_cases c : j < idx
        · -- before the pivot index
          refine ih (j + 1) _ (i + 1) m (by omega) (by omega) hjn
            ⟨by rw [length_swap_elements]; exact ilen, ?_, iv, imh, Or.inr ⟨by omega, by omega⟩,
              Or.inl (by omega)⟩
          intro k hk
          rw [hsw k hk, g0]
          by_cases e : k = j
          · rw [if_pos e, ← e]; exact ird k hk
          · rw [if_neg e, if_neg e]; exact ird k hk
        · -- at or after the pivot index: `m = j` holds the value of `arr[high]`
          have hm : m = j := by omega
          have hjv : rd a j = rd arr high := by
            rw [ird j (by omega), if_neg (by omega), if_pos hm.symm]
          have hT : rd arr high = rd arr idx := le_antisymm (hjv ▸ hc1) e_idx_high
          have hflat : ∀ k, idx ≤ k → k ≤ high → rd arr k = rd arr idx := by
            intro k h1 h2
            exact le_antisymm (hT ▸ hs k high (by omega) h2 (le_refl _)) (hs idx k hi1 h1 h2)
          refine ih (j + 1) _ (i + 1) (j + 1) (by omega) (by omega) hjn
            ⟨by rw [length_swap_elements]; exact ilen, ?_, hflat _ (by omega) (by omega), by omega,
              Or.inl ⟨by omega, by omega⟩, Or.inl (by omega)⟩
          intro k hk
          rw [hsw k hk, g0]
          have hk2 : rd a k = if k = high then rd arr idx else if k = j + 1 then rd arr high
              else rd arr k := by
            rw [ird k hk]
            by_cases e1 : k = high
            · rw [if_pos e1, if_pos e1]
            · rw [if_neg e1, if_neg e1]
              by_cases e2 : k = m
              · rw [if_pos e2, if_neg (by omega), e2, hm, hflat j (by omega) (by omega), hT]
              · rw [if_neg e2]
                by_cases e3 : k = j + 1
                · rw [if_pos e3, e3, hflat (j + 1) (by omega) (by omega), hT]
                · rw [if_neg e3]
          by_cases e : k = j
          · rw [if_pos e, e]; rw [e] at hk2; exact hk2
          · rw [if_neg e, if_neg e]; exact hk2
      · -- some cell was skipped: `m = i + 1` and exactly one cell, `m`, is in the gap
        have hm : m = i + 1 := by omega
        have hjv : rd a j = rd arr j := by
          rw [ird j (by omega), if_neg (by omega), if_neg (by omega)]
        have hj2 : j = i + 2 := by
          by_contra hne
          have h1 := g3 (i + 2) (by omega) (by omega)
          have h2 := hs (i + 2) j (by omega) (by omega) (by omega)
          rw [hjv] at hc1
          omega
        have hjv2 : rd arr j = rd arr idx :=
          le_antisymm (hjv ▸ hc1) (hs idx j hi1 (by omega) (by omega))
        refine ih (j + 1) _ (i + 1) j (by omega) (by omega) hjn
          ⟨by rw [length_swap_elements]; exact ilen, ?_, hjv2, by omega,
            Or.inl ⟨by omega, by omega⟩, Or.inr ⟨by omega, by omega, fun k h1 h2 => by omega⟩⟩
        intro k hk
        rw [hsw k hk]
        by_cases e1 : k = j
        · rw [if_pos e1, ird (i + 1) (by omega), if_neg (by omega), if_pos hm.symm,
            if_neg (by omega), if_pos e1]
        · rw [if_neg e1]
          by_cases e2 : k = i + 1
          · rw [if_pos e2, hjv, if_neg (by omega), if_neg e1, e2, hjv2, ← hm, iv]
          · rw [if_neg e2, ird k hk]
            by_cases e3 : k = high
            · rw [if_pos e3, if_pos e3]
            · rw [if_neg e3, if_neg e3, if_neg (by omega), if_neg e1]
    · rename_i hc1
      -- the cell at `j` is above the pivot: it is skipped
      have hc2 : rd arr idx < rd a j := not_le.mp hc1
      rcases ig with g0 | ⟨g1, g2, g3⟩
      · have hidx : idx ≤ j := by
          by_contra hne
          have hjv : rd a j = rd arr j := by
            rw [ird j (by omega), if_neg (by omega), if_neg (by omega)]
          have := hs j idx hj (by omega) hi2
          rw [hjv] at hc2
          omega
        exact ih (j + 1) a i m (by omega) hi hjn
          ⟨ilen, ird, iv, imh, im, Or.inr ⟨by omega, by omega, fun k h1 h2 => by omega⟩⟩
      · have hjv : rd a j = rd arr j := by
          rw [ird j (by omega), if_neg (by omega), if_neg (by omega)]
        refine ih (j + 1) a i m (by omega) hi hjn
          ⟨ilen, ird, iv, imh, im, Or.inr ⟨g1, by omega, fun k h1 h2 => ?_⟩⟩
        by_cases e : k = j
        · rw [e, ← hjv]; exact hc2
        · exact g3 k h1 (by omega)

/-- Partitioning a range that is already sorted leaves the array as it is,
whichever pivot is chosen. -/
theorem partition_array_sorted (arr : List Int) (low high : Int) (strategy : PivotStrategy)
    (seed : Nat) (hl : 0 ≤ low) (hlh : low < high) (hh : high < arr.length)
    (hs : sorted_range arr low high) :
    (partition_array arr low high strategy seed).arr = arr := by
  have hsel := select_pivot_sorted arr low high strategy seed (le_of_lt hlh) hs
  obtain ⟨-, -, si1, si2⟩ := select_pivot_spec arr low high strategy seed hl (le_of_lt hlh) hh
  simp only [partition_array, if_neg (not_le.mpr hlh)]
  rw [hsel]
  generalize (select_pivot arr low high strategy seed).index = idx at si1 si2
  have hn : ((high - low).toNat : Int) = high - low := Int.toNat_of_nonneg (by omega)
  have inv0 : sorted_scan_inv arr high idx (swap_elements arr idx high) (low - 1) low idx := by
    refine ⟨length_swap_elements _ _ _, ?_, rfl, si2, Or.inr ⟨rfl, by omega⟩, Or.inl (by omega)⟩
    intro k hk
    exact rd_swap_elements arr idx high k (by omega) (by omega) (by omega) (by omega) hk
  obtain ⟨m, ilen, ird, iv, imh, im, ig⟩ := partition_scan_sorted arr low high idx hl si1 si2 hh hs
    (high - low).toNat low (swap_elements arr idx high) (low - 1) idx (le_refl _) (le_refl _)
    (by omega) inv0
  have hb := partition_scan_boundary (rd arr idx) (high - low).toNat low
    (swap_elements arr idx high) (low - 1)
  generalize partition_scan (rd arr idx) (high - low).toNat low (swap_elements arr idx high)
    (low - 1) = scan at ilen ird iv imh im ig hb
  obtain ⟨a, i⟩ := scan
  simp only at ilen ird iv imh im ig hb ⊢
  have hm : m = i + 1 := by omega
  apply ext_rd _ _ (by rw [length_swap_elements]; exact ilen)
  intro k hk0 hk1
  rw [rd_swap_elements a (i + 1) high k (by omega) (by omega) (by omega) (by omega) hk0]
  by_cases e1 : k = high
  · rw [if_pos e1, ird (i + 1) (by omega)]
    by_cases e2 : i + 1 = high
    · rw [if_pos e2, e1, ← e2, ← hm, iv]
    · rw [if_neg e2, if_pos hm.symm, e1]
  · rw [if_neg e1]
    by_cases e2 : k = i + 1
    · rw [if_pos e2, ird high (by omega), if_pos rfl, e2, ← hm, iv]
    · rw [if_neg e2, ird k hk0, if_neg e1, if_neg (by omega)]

theorem sorted_range_mono {arr : List Int} {low high low1 high1 : Int}
    (h : sorted_range arr low high) (hl : low ≤ low1) (hh : high1 ≤ high) :
    sorted_range arr low1 high1 :=
  fun i j h1 h2 h3 => h i j (by omega) h2 (by omega)

/-- On a range that is already sorted, `quick_sort_recursive` leaves the array
as it is, whatever it returns. -/
theorem quick_sort_recursive_present_sorted (strategy : PivotStrategy) (n : Nat) :
    ∀ (arr : List Int) (low high : Int) (seed : Nat), (high - low).toNat ≤ n →
      high < arr.length → sorted_range arr low high →
      (quick_sort_recursive_present arr low high strategy seed).arr = arr := by
  induction n with
  | zero =>
    intro arr low high seed hn hh hs
    by_cases hv : low < 0 ∨ high < 0 ∨ low > high
    · rw [quick_sort_recursive_present_invalid _ _ _ _ _ hv]
    · rw [quick_sort_recursive_present_single _ _ _ _ _ (by omega) (by omega)]
  | succ n ih =>
    intro arr low high seed hn hh hs
    by_cases hv : low < 0 ∨ high < 0 ∨ low > high
    · rw [quick_sort_recursive_present_invalid _ _ _ _ _ hv]
    · by_cases h : low < high
      · obtain ⟨-, -, pl, ph, -⟩ := partition_array_spec arr low high strategy seed (by omega) h hh
        have pa := partition_array_sorted arr low high strategy seed (by omega) h hh hs
        rw [quick_sort_recursive_present_step _ _ _ _ _ (by omega) h]
        generalize partition_array arr low high strategy seed = part at pl ph pa
        have l := ih part.arr low (part.index - 1) part.seed (by omega) (by rw [pa]; omega)
          (by rw [pa]; exact sorted_range_mono hs (le_refl _) (by omega))
        generalize quick_sort_recursive_present part.arr low (part.index - 1) strategy part.seed
          = left at l
        have r := ih left.arr (part.index + 1) high left.seed (by omega) (by rw [l, pa]; omega)
          (by rw [l, pa]; exact sorted_range_mono hs (by omega) (le_refl _))
        split
        · rw [l, pa]
        · rw [r, l, pa]
      · rw [quick_sort_recursive_present_single _ _ _ _ _ (by omega) (by omega)]

/-! ## Evaluation of `quick_sort_recursive` on concrete inputs -/

theorem quick_sort_recursive_present_eq_depth (strategy : PivotStrategy) (n : Nat) :
    ∀ (arr : List Int) (low high : Int) (seed : Nat), (high - low).toNat ≤ n →
      quick_sort_recursive_present arr low high strategy seed =
        quick_sort_recursive_depth n arr low high strategy seed := by
  induction n with
  | zero =>
    intro arr low high seed hn
    simp only [quick_sort_recursive_depth]
    split
    · rename_i hv
      exact quick_sort_recursive_present_invalid _ _ _ _ _ hv
    · exact quick_sort_recursive_present_single _ _ _ _ _ (by omega) (by omega)
  | succ n ih =>
    intro arr low high seed hn
    simp only [quick_sort_recursive_depth]
    split
    · rename_i hv
      exact quick_sort_recursive_present_invalid _ _ _ _ _ hv
    · split
      · rename_i hv h
        have hp := partition_array_index_bounds arr low high strategy seed h
        rw [quick_sort_recursive_present_step _ _ _ _ _ (by omega) h]
        rw [ih _ _ _ _ (by omega), ih _ _ _ _ (by omega)]
      · exact quick_sort_recursive_present_single _ _ _ _ _ (by omega) (by omega)

/-! ## `merge_arrays` -/

theorem length_write_list (xs : List Int) : ∀ (a : List Int) (k : Int),
    (write_list a k xs).length = a.length := by
  induction xs with
  | nil => intro a k; rfl
  | cons x xs ih => intro a k; simp only [write_list]; rw [ih, length_wr]

theorem rd_write_list (xs : List Int) : ∀ (a : List Int) (k : Int), 0 ≤ k →
    k + xs.length ≤ a.length → ∀ p : Int, 0 ≤ p →
    rd (write_list a k xs) p =
      if k ≤ p ∧ p < k + xs.length then xs.getD (p - k).toNat 0 else rd a p := by
  induction xs with
  | nil =>
    intro a k hk hlen p hp
    simp only [write_list, List.length_nil]
    rw [if_neg]
    push_cast
    omega
  | cons x xs ih =>
    intro a k hk hlen p hp
    simp only [List.length_cons] at hlen
    push_cast at hlen
    simp only [write_list]
    rw [ih (wr a k x) (k + 1) (by omega) (by rw [length_wr]; omega) p hp]
    simp only [List.length_cons]
    push_cast
    by_cases c : k + 1 ≤ p ∧ p < k + 1 + xs.length
    · rw [if_pos c, if_pos (by omega)]
      have e : (p - k).toNat = (p - (k + 1)).toNat + 1 := by omega
      rw [e, List.getD_cons_succ]
    · rw [if_neg c]
      by_cases e : p = k
      · subst e
        rw [rd_wr_eq a p x hp (by omega), if_pos (by omega)]
        simp
      · rw [rd_wr_ne a k p x hk hp (Ne.symm e), if_neg (by omega)]

theorem same_outside_write_list (xs : List Int) (a : List Int) (k : Int) (hk : 0 ≤ k)
    (hlen : k + xs.length ≤ a.length) :
    same_outside (write_list a k xs) a k (k + xs.length - 1) := by
  refine ⟨length_write_list xs a k, fun p hp ho => ?_⟩
  rw [rd_write_list xs a k hk hlen p hp, if_neg (by omega)]

theorem slice_write_list (xs : List Int) (a : List Int) (k : Int) (hk : 0 ≤ k)
    (hlen : k + xs.length ≤ a.length) :
    slice (write_list a k xs) k (k + xs.length - 1) = xs := by
  have hl := slice_length (write_list a k xs) k (k + xs.length - 1) hk
    (by rw [length_write_list]; omega)
  have hl2 : (slice (write_list a k xs) k (k + xs.length - 1)).length = xs.length := by
    rw [hl]; omega
  apply List.ext_getElem hl2
  intro n h1 h2
  rw [slice_getElem _ _ _ hk n h1, rd_write_list xs a k hk hlen _ (by omega), if_pos (by omega)]
  have e : (k + (n : Int) - k).toNat = n := by omega
  rw [e, List.getD_eq_getElem _ _ h2]

theorem rd_eq_getElem (a : List Int) (i : Int) (h1 : i.toNat < a.length) :
    rd a i = a[i.toNat] := by
  simp [rd, List.getD_eq_getElem?_getD, h1]

theorem merge_rest_eq (buf : List Int) (size : Int) (hsize : size = buf.length) (n : Nat) :
    ∀ (a : List Int) (i k : Int), 0 ≤ i → (size - i).toNat ≤ n →
      merge_rest buf size a i k =
        (write_list a k (buf.drop i.toNat), k + (buf.drop i.toNat).length) := by
  induction n with
  | zero =>
    intro a i k hi hn
    rw [merge_rest, if_neg (by omega), List.drop_eq_nil_of_le (by omega)]
    simp [write_list]
  | succ n ih =>
    intro a i k hi hn
    rw [merge_rest]
    split
    · rename_i c
      have hlt : i.toNat < buf.length := by omega
      rw [ih _ _ _ (by omega) (by omega), List.drop_eq_getElem_cons hlt,
        rd_eq_getElem buf i hlt]
      have e : (i + 1).toNat = i.toNat + 1 := by omega
      simp only [write_list, List.length_cons, e]
      push_cast
      rw [add_assoc, add_comm 1]
    · rw [List.drop_eq_nil_of_le (by omega)]
      simp [write_list]

theorem merge_lists_perm (xs ys : List Int) : (merge_lists xs ys).Perm (xs ++ ys) :=
  List.merge_perm_append _

theorem merge_lists_sorted (xs ys : List Int) (hx : xs.Sorted (· ≤ ·)) (hy : ys.Sorted (· ≤ ·)) :
    (merge_lists xs ys).Sorted (· ≤ ·) := by
  have := List.Sorted.merge hx hy
  simpa [merge_lists] using this

/-- The three loops of `merge_arrays`, started at `(i, j, k)`, write the merge
of what is left of the two buffers from cell `k` on. -/
theorem merge_loops_eq (left_arr right_arr : List Int) (left_size right_size : Int)
    (hls : left_size = left_arr.length) (hrs : right_size = right_arr.length) (n : Nat) :
    ∀ (a : List Int) (i j k : Int), 0 ≤ i → 0 ≤ j → i ≤ left_size → j ≤ right_size →
      (left_size - i).toNat + (right_size - j).toNat ≤ n →
      (merge_rest right_arr right_size
        (merge_rest left_arr left_size
          (merge_loop left_arr right_arr left_size right_size a i j k).1
          (merge_loop left_arr right_arr left_size right_size a i j k).2.1
          (merge_loop left_arr right_arr left_size right_size a i j k).2.2.2).1
        (merge_loop left_arr right_arr left_size right_size a i j k).2.2.1
        (merge_rest left_arr left_size
          (merge_loop left_arr right_arr left_size right_size a i j k).1
          (merge_loop left_arr right_arr left_size right_size a i j k).2.1
          (merge_loop left_arr right_arr left_size right_size a i j k).2.2.2).2).1 =
        write_list a k (merge_lists (left_arr.drop i.toNat) (right_arr.drop j.toNat)) := by
  have exit : ∀ (a : List Int) (i j k : Int), 0 ≤ i → 0 ≤ j → i ≤ left_size → j ≤ right_size →
      ¬ (i < left_size ∧ j < right_size) →
      (merge_rest right_arr right_size (merge_rest left_arr left_size a i k).1 j
        (merge_rest left_arr left_size a i k).2).1 =
        write_list a k (merge_lists (left_arr.drop i.toNat) (right_arr.drop j.toNat)) := by
    intro a i j k hi hj hi1 hj1 hc
    rw [merge_rest_eq left_arr left_size hls _ a i k hi (le_refl _)]
    simp only
    rw [merge_rest_eq right_arr right_size hrs _ _ j _ hj (le_refl _)]
    simp only
    by_cases c : i < left_size
    · have : right_arr.drop j.toNat = [] := List.drop_eq_nil_of_le (by omega)
      rw [this]
      simp [merge_lists, write_list]
    · have : left_arr.drop i.toNat = [] := List.drop_eq_nil_of_le (by omega)
      rw [this]
      simp [merge_lists, write_list]
  induction n with
  | zero =>
    intro a i j k hi hj hi1 hj1 hn
    have hc : ¬ (i < left_size ∧ j < right_size) := by omega
    rw [merge_loop, if_neg hc]
    exact exit a i j k hi hj hi1 hj1 hc
  | succ n ih =>
    intro a i j k hi hj hi1 hj1 hn
    by_cases hc : i < left_size ∧ j < right_size
    · have hi2 : i.toNat < left_arr.length := by omega
      have hj2 : j.toNat < right_arr.length := by omega
      have ei : (i + 1).toNat = i.toNat + 1 := by omega
      have ej : (j + 1).toNat = j.toNat + 1 := by omega
      rw [merge_loop, if_pos hc]
      split
      · rename_i c
        rw [ih _ _ _ _ (by omega) hj (by omega) hj1 (by omega)]
        rw [List.drop_eq_getElem_cons hi2, List.drop_eq_getElem_cons hj2]
        rw [rd_eq_getElem _ _ hi2, rd_eq_getElem _ _ hj2] at c
        simp only [merge_lists]
        rw [List.cons_merge_cons_pos _ _ _ (by simpa using c)]
        simp only [write_list, ei]
        rw [rd_eq_getElem _ _ hi2, ← List.drop_eq_getElem_cons hj2]
      · rename_i c
        rw [ih _ _ _ _ hi (by omega) hi1 (by omega) (by omega)]
        rw [List.drop_eq_getElem_cons hi2, List.drop_eq_getElem_cons hj2]
        rw [rd_eq_getElem _ _ hi2, rd_eq_getElem _ _ hj2] at c
        simp only [merge_lists]
        rw [List.cons_merge_cons_neg _ _ _ (by simpa using c)]
        simp only [write_list, ej]
        rw [rd_eq_getElem _ _ hj2, ← List.drop_eq_getElem_cons hi2]
    · rw [merge_loop, if_neg hc]
      exact exit a i j k hi hj hi1 hj1 hc

theorem buffer_fill_eq_slice (arr : List Int) (start : Int) (size : Nat) (hs : 0 ≤ start)
    (hlen : start + size ≤ arr.length) :
    buffer_fill arr start size = slice arr start (start + size - 1) := by
  have hl := slice_length arr start (start + size - 1) hs (by omega)
  apply List.ext_getElem (by simp only [buffer_fill, List.length_map, List.length_range]; omega)
  intro n h1 h2
  rw [slice_getElem arr _ _ hs n h2]
  simp [buffer_fill]

theorem slice_append (arr : List Int) (left mid right : Int) (hl : 0 ≤ left) (hlm : left ≤ mid + 1)
    (hmr : mid ≤ right) :
    slice arr left right = slice arr left mid ++ slice arr (mid + 1) right := by
  have e1 : (right - left + 1).toNat = (mid - left + 1).toNat + (right - (mid + 1) + 1).toNat := by
    omega
  have e2 : (mid + 1).toNat = left.toNat + (mid - left + 1).toNat := by omega
  simp only [slice]
  rw [e1, List.take_add, List.drop_drop, e2]

/-- With its buffers obtained, `merge_arrays` writes the merge of the two
halves over the range `[left, right]`. -/
theorem merge_arrays_eq (arr : List Int) (left mid right : Int) (hl : 0 ≤ left) (hlm : left ≤ mid)
    (hmr : mid < right) (hr : right < arr.length) :
    merge_arrays true arr left mid right =
      write_list arr left (merge_lists (slice arr left mid) (slice arr (mid + 1) right)) := by
  have b1 : buffer_fill arr left (mid - left + 1).toNat = slice arr left mid := by
    rw [buffer_fill_eq_slice arr left _ hl (by omega)]
    congr 1
    omega
  have b2 : buffer_fill arr (mid + 1) (right - mid).toNat = slice arr (mid + 1) right := by
    rw [buffer_fill_eq_slice arr (mid + 1) _ (by omega) (by omega)]
    congr 1
    omega
  have l1 := slice_length arr left mid hl (by omega)
  have l2 := slice_length arr (mid + 1) right (by omega) hr
  simp only [merge_arrays, not_true_eq_false, if_false, b1, b2]
  have := merge_loops_eq (slice arr left mid) (slice arr (mid + 1) right) (mid - left + 1)
    (right - mid) (by omega) (by omega) _ arr 0 0 left (le_refl _) (le_refl _) (by omega)
    (by omega) (le_refl _)
  simpa using this

theorem merge_arrays_spec (malloc_ok : Bool) (arr : List Int) (left mid right : Int)
    (hl : 0 ≤ left) (hlm : left ≤ mid) (hmr : mid < right) (hr : right < arr.length) :
    same_outside (merge_arrays malloc_ok arr left mid right) arr left right ∧
      (slice (merge_arrays malloc_ok arr left mid right) left right).Perm (slice arr left right) ∧
      (malloc_ok = true → sorted_range arr left mid → sorted_range arr (mid + 1) right →
        sorted_range (merge_arrays malloc_ok arr left mid right) left right) := by
  cases malloc_ok with
  | false =>
    have e : merge_arrays false arr left mid right = arr := by simp [merge_arrays]
    rw [e]
    exact ⟨same_outside_refl _ _ _, List.Perm.refl _, fun h => by cases h⟩
  | true =>
    rw [merge_arrays_eq arr left mid right hl hlm hmr hr]
    have l1 := slice_length arr left mid hl (by omega)
    have l2 := slice_length arr (mid + 1) right (by omega) hr
    have hp := merge_lists_perm (slice arr left mid) (slice arr (mid + 1) right)
    have hlen : ((merge_lists (slice arr left mid) (slice arr (mid + 1) right)).length : Int) =
        right - left + 1 := by
      rw [hp.length_eq, List.length_append, l1, l2]
      omega
    have hr2 : left + ((merge_lists (slice arr left mid) (slice arr (mid + 1) right)).length : Int)
        - 1 = right := by omega
    have so := same_outside_write_list (merge_lists (slice arr left mid) (slice arr (mid + 1) right))
      arr left hl (by omega)
    have sl := slice_write_list (merge_lists (slice arr left mid) (slice arr (mid + 1) right))
      arr left hl (by omega)
    rw [hr2] at so sl
    refine ⟨so, ?_, ?_⟩
    · rw [sl, slice_append arr left mid right hl (by omega) (by omega)]
      exact hp
    · intro _ s1 s2
      rw [← sorted_slice_iff _ left right hl (by rw [so.1]; exact hr), sl]
      exact merge_lists_sorted _ _ ((sorted_slice_iff arr left mid hl (by omega)).mpr s1)
        ((sorted_slice_iff arr (mid + 1) right (by omega) hr).mpr s2)

/-! ## `merge_sort_serial` and `merge_sort_parallel` -/

theorem merge_sort_serial_present_invalid (alloc : Int → Int → Int → Bool) (arr : List Int)
    (left right : Int) (h : left < 0 ∨ right < 0 ∨ left > right) :
    merge_sort_serial_present alloc arr left right = (SORT_ERROR_INVALID_SIZE, arr) := by
  rw [merge_sort_serial_present, if_pos h]

theorem merge_sort_serial_present_single (alloc : Int → Int → Int → Bool) (arr : List Int)
    (left right : Int) (hl : 0 ≤ left) (h : left = right) :
    merge_sort_serial_present alloc arr left right = (SORT_SUCCESS, arr) := by
  rw [merge_sort_serial_present, if_neg (by omega), dif_neg (by omega)]

theorem merge_sort_serial_present_step (alloc : Int → Int → Int → Bool) (arr : List Int)
    (left right : Int) (hl : 0 ≤ left) (h : left < right) :
    merge_sort_serial_present alloc arr left right =
      if (merge_sort_serial_present alloc arr left (left + (right - left) / 2)).1 ≠ SORT_SUCCESS then
        merge_sort_serial_present alloc arr left (left + (right - left) / 2)
      else if (merge_sort_serial_present alloc
          (merge_sort_serial_present alloc arr left (left + (right - left) / 2)).2
          (left + (right - left) / 2 + 1) right).1 ≠ SORT_SUCCESS then
        merge_sort_serial_present alloc
          (merge_sort_serial_present alloc arr left (left + (right - left) / 2)).2
          (left + (right - left) / 2 + 1) right
      else (SORT_SUCCESS, merge_arrays (alloc left (left + (right - left) / 2) right)
        (merge_sort_serial_present alloc
          (merge_sort_serial_present alloc arr left (left + (right - left) / 2)).2
          (left + (right - left) / 2 + 1) right).2 left (left + (right - left) / 2) right) := by
  have hd : (right - left).tdiv 2 = (right - left) / 2 := Int.tdiv_eq_ediv (by omega) (by omega)
  conv_lhs => rw [merge_sort_serial_present]
  rw [if_neg (by omega), dif_pos h]
  simp only [hd]

/-- On a valid range `merge_sort_serial` returns `SORT_SUCCESS`; it leaves the
range a permutation of what it was and the rest of the array untouched, and,
when every buffer is obtained, it leaves the range sorted. -/
theorem merge_sort_serial_present_spec (alloc : Int → Int → Int → Bool) (n : Nat) :
    ∀ (arr : List Int) (left right : Int), (right - left).toNat ≤ n → 0 ≤ left → left ≤ right →
      right < arr.length →
      (merge_sort_serial_present alloc arr left right).1 = SORT_SUCCESS ∧
        same_outside (merge_sort_serial_present alloc arr left right).2 arr left right ∧
        (slice (merge_sort_serial_present alloc arr left right).2 left right).Perm
          (slice arr left right) ∧
        ((∀ l m r, alloc l m r = true) →
          sorted_range (merge_sort_serial_present alloc arr left right).2 left right) := by
  have base : ∀ (arr : List Int) (left right : Int), 0 ≤ left → left = right →
      (merge_sort_serial_present alloc arr left right).1 = SORT_SUCCESS ∧
        same_outside (merge_sort_serial_present alloc arr left right).2 arr left right ∧
        (slice (merge_sort_serial_present alloc arr left right).2 left right).Perm
          (slice arr left right) ∧
        ((∀ l m r, alloc l m r = true) →
          sorted_range (merge_sort_serial_present alloc arr left right).2 left right) := by
    intro arr left right hl h
    rw [merge_sort_serial_present_single alloc arr left right hl h]
    refine ⟨rfl, same_outside_refl _ _ _, List.Perm.refl _, fun _ i j h1 h2 h3 => ?_⟩
    have : i = j := by omega
    rw [this]
  induction n with
  | zero =>
    intro arr left right hn hl hlr hr
    exact base arr left right hl (by omega)
  | succ n ih =>
    intro arr left right hn hl hlr hr
    by_cases h : left < right
    · rw [merge_sort_serial_present_step alloc arr left right hl h]
      have hm1 : left ≤ left + (right - left) / 2 := by omega
      have hm2 : left + (right - left) / 2 < right := by omega
      generalize left + (right - left) / 2 = mid at hm1 hm2
      obtain ⟨a1, a2, a3, a4⟩ := ih arr left mid (by omega) hl hm1 (by omega)
      generalize merge_sort_serial_present alloc arr left mid = l at a1 a2 a3 a4
      have hlen1 : l.2.length = arr.length := a2.1
      obtain ⟨b1, b2, b3, b4⟩ := ih l.2 (mid + 1) right (by omega) (by omega) (by omega) (by omega)
      generalize merge_sort_serial_present alloc l.2 (mid + 1) right = r at b1 b2 b3 b4
      have hlen2 : r.2.length = arr.length := b2.1.trans hlen1
      obtain ⟨c1, c2, c3⟩ := merge_arrays_spec (alloc left mid right) r.2 left mid right hl hm1 hm2
        (by omega)
      rw [if_neg (by simp [a1]), if_neg (by simp [b1])]
      have so : same_outside r.2 arr left right :=
        same_outside_trans (same_outside_mono b2 (by omega) (le_refl _))
          (same_outside_mono a2 (le_refl _) (by omega))
      have p1 : l.2.Perm arr := (perm_iff_slice_perm l.2 arr left mid hl (by omega) a2).mpr a3
      have p2 : r.2.Perm l.2 :=
        (perm_iff_slice_perm r.2 l.2 (mid + 1) right (by omega) (by omega) b2).mpr b3
      refine ⟨rfl, same_outside_trans c1 so, ?_, ?_⟩
      · exact c2.trans ((perm_iff_slice_perm r.2 arr left right hl (by omega) so).mp (p2.trans p1))
      · intro hall
        refine c3 (hall _ _ _) ?_ (b4 hall)
        intro i j h1 h2 h3
        rw [b2.2 i (by omega) (Or.inl (by omega)), b2.2 j (by omega) (Or.inl (by omega))]
        exact a4 hall i j h1 h2 h3
    · exact base arr left right hl (by omega)

/-- Merging two halves of a range that is already sorted leaves the array as
it is. -/
theorem merge_arrays_sorted (malloc_ok : Bool) (arr : List Int) (left mid right : Int)
    (hl : 0 ≤ left) (hlm : left ≤ mid) (hmr : mid < right) (hr : right < arr.length)
    (hs : sorted_range arr left right) : merge_arrays malloc_ok arr left mid right = arr := by
  cases malloc_ok with
  | false => simp [merge_arrays]
  | true =>
    obtain ⟨c1, c2, c3⟩ := merge_arrays_spec true arr left mid right hl hlm hmr hr
    have s := c3 rfl (sorted_range_mono hs (le_refl _) (by omega))
      (sorted_range_mono hs (by omega) (le_refl _))
    apply eq_of_slice_eq _ _ left right hl (by omega) c1
    exact List.eq_of_perm_of_sorted c2
      ((sorted_slice_iff _ left right hl (by rw [c1.1]; exact hr)).mpr s)
      ((sorted_slice_iff arr left right hl hr).mpr hs)

theorem merge_sort_serial_present_sorted (alloc : Int → Int → Int → Bool) (n : Nat) :
    ∀ (arr : List Int) (left right : Int), (right - left).toNat ≤ n → 0 ≤ left → left ≤ right →
      right < arr.length → sorted_range arr left right →
      (merge_sort_serial_present alloc arr left right).2 = arr := by
  induction n with
  | zero =>
    intro arr left right hn hl hlr hr hs
    rw [merge_sort_serial_present_single alloc arr left right hl (by omega)]
  | succ n ih =>
    intro arr left right hn hl hlr hr hs
    by_cases h : left < right
    · rw [merge_sort_serial_present_step alloc arr left right hl h]
      have hm1 : left ≤ left + (right - left) / 2 := by omega
      have hm2 : left + (right - left) / 2 < right := by omega
      generalize left + (right - left) / 2 = mid at hm1 hm2
      have a1 := (merge_sort_serial_present_spec alloc n arr left mid (by omega) hl hm1
        (by omega)).1
      have a2 := ih arr left mid (by omega) hl hm1 (by omega)
        (sorted_range_mono hs (le_refl _) (by omega))
      generalize merge_sort_serial_present alloc arr left mid = l at a1 a2
      have b1 := (merge_sort_serial_present_spec alloc n l.2 (mid + 1) right (by omega) (by omega)
        (by omega) (by rw [a2]; exact hr)).1
      have b2 := ih l.2 (mid + 1) right (by omega) (by omega) (by omega) (by rw [a2]; exact hr)
        (by rw [a2]; exact sorted_range_mono hs (by omega) (le_refl _))
      generalize merge_sort_serial_present alloc l.2 (mid + 1) right = r at b1 b2
      rw [if_neg (by simp [a1]), if_neg (by simp [b1])]
      simp only
      rw [b2, a2]
      exact merge_arrays_sorted _ arr left mid right hl hm1 hm2 hr hs
    · rw [merge_sort_serial_present_single alloc arr left right hl (by omega)]

/-- On a valid range `merge_sort_serial` returns `SORT_SUCCESS`. -/
theorem merge_sort_serial_present_success (alloc : Int → Int → Int → Bool) (n : Nat) :
    ∀ (arr : List Int) (left right : Int), (right - left).toNat ≤ n → 0 ≤ left → left ≤ right →
      (merge_sort_serial_present alloc arr left right).1 = SORT_SUCCESS := by
  induction n with
  | zero =>
    intro arr left right hn hl hlr
    rw [merge_sort_serial_present_single alloc arr left right hl (by omega)]
  | succ n ih =>
    intro arr left right hn hl hlr
    by_cases h : left < right
    · rw [merge_sort_serial_present_step alloc arr left right hl h]
      have a1 := ih arr left (left + (right - left) / 2) (by omega) hl (by omega)
      have b1 := ih (merge_sort_serial_present alloc arr left (left + (right - left) / 2)).2
        (left + (right - left) / 2 + 1) right (by omega) (by omega) (by omega)
      rw [if_neg (by simp [a1]), if_neg (by simp [b1])]
    · rw [merge_sort_serial_present_single alloc arr left right hl (by omega)]

/-- The sequential run of `merge_sort_parallel` computes what
`merge_sort_serial` computes, on every array and every pair of bounds. -/
theorem merge_sort_parallel_present_eq_serial (alloc : Int → Int → Int → Bool) (n : Nat) :
    ∀ (arr : List Int) (left right : Int), (right - left).toNat ≤ n →
      merge_sort_parallel_present alloc arr left right =
        merge_sort_serial_present alloc arr left right := by
  induction n with
  | zero =>
    intro arr left right hn
    rw [merge_sort_parallel_present]
    split
    · rename_i hv
      rw [merge_sort_serial_present_invalid alloc arr left right hv]
    · rw [if_pos (by simp only [PARALLEL_THRESHOLD]; omega)]
  | succ n ih =>
    intro arr left right hn
    rw [merge_sort_parallel_present]
    split
    · rename_i hv
      rw [merge_sort_serial_present_invalid alloc arr left right hv]
    · rename_i hv
      split
      · rfl
      · rename_i ht
        simp only [PARALLEL_THRESHOLD] at ht
        have h : left < right := by omega
        have hd : (right - left).tdiv 2 = (right - left) / 2 :=
          Int.tdiv_eq_ediv (by omega) (by omega)
        rw [dif_pos h, merge_sort_serial_present_step alloc arr left right (by omega) h]
        simp only [hd]
        rw [ih _ _ _ (by omega), ih _ _ _ (by omega)]
        have a1 := merge_sort_serial_present_success alloc n arr left
          (left + (right - left) / 2) (by omega) (by omega) (by omega)
        have b1 := merge_sort_serial_present_success alloc n
          (merge_sort_serial_present alloc arr left (left + (right - left) / 2)).2
          (left + (right - left) / 2 + 1) right (by omega) (by omega) (by omega)
        rw [if_neg (by simp [a1]), if_neg (by simp [b1])]

/-! ## Top-level statements on the three sort functions -/

theorem slice_full (arr : List Int) : slice arr 0 (arr.length - 1) = arr := by
  have e : ((arr.length : Int) - 1 - 0 + 1).toNat = arr.length := by omega
  simp only [slice, Int.toNat_zero, List.drop_zero, e, List.take_length]

theorem merge_sort_parallel_present_spec (alloc : Int → Int → Int → Bool) (arr : List Int)
    (left right : Int) (hl : 0 ≤ left) (hlr : left ≤ right) (hr : right < arr.length) :
    (merge_sort_parallel_present alloc arr left right).1 = SORT_SUCCESS ∧
      same_outside (merge_sort_parallel_present alloc arr left right).2 arr left right ∧
      (slice (merge_sort_parallel_present alloc arr left right).2 left right).Perm
        (slice arr left right) ∧
      ((∀ l m r, alloc l m r = true) →
        sorted_range (merge_sort_parallel_present alloc arr left right).2 left right) := by
  rw [merge_sort_parallel_present_eq_serial alloc _ arr left right (le_refl _)]
  exact merge_sort_serial_present_spec alloc _ arr left right (le_refl _) hl hlr hr

/-- What the three sort functions promise on the whole array `[0, n - 1]`:
`is_sorted` returns 1, and the array is an ascending permutation of the
input. -/
theorem whole_array_sorted (arr1 arr : List Int) (hne : 0 < arr.length)
    (hso : same_outside arr1 arr 0 (arr.length - 1)) (hs : sorted_range arr1 0 (arr.length - 1))
    (hp : (slice arr1 0 (arr.length - 1)).Perm (slice arr 0 (arr.length - 1))) :
    is_sorted (some arr1) arr.length = 1 ∧ arr1.Sorted (· ≤ ·) ∧ arr1.Perm arr := by
  have hlen : arr1.length = arr.length := hso.1
  refine ⟨(is_sorted_eq_one_iff arr1 arr.length (by omega)).mpr hs, ?_, ?_⟩
  · have := (sorted_slice_iff arr1 0 (arr.length - 1) (le_refl _) (by omega)).mpr hs
    rw [← hlen, slice_full] at this
    exact this
  · have h1 := slice_full arr
    have h2 := slice_full arr1
    rw [hlen] at h2
    rw [h1, h2] at hp
    exact hp

theorem quick_sort_recursive_small_test :
    quick_sort_recursive_present [5, 2, 8, 1, 9, 3, 7, 4, 6, 0] 0 9 PIVOT_FIRST 123456789 =
      ⟨SORT_ERROR_INVALID_SIZE, [0, 2, 1, 3, 4, 5, 7, 9, 6, 8], 123456789⟩ := by
  rw [quick_sort_recursive_present_eq_depth PIVOT_FIRST 9 _ _ _ _ (by decide)]
  decide

/-- C1 (code defect): on the array `[5,2,8,1,9,3,7,4,6,0]` of the small test, with
`PIVOT_FIRST`, `quick_sort_recursive(arr, 0, 9)` returns
`SORT_ERROR_INVALID_SIZE` and leaves `[0,2,1,3,4,5,7,9,6,8]`, on which
`is_sorted` returns 0; on the reverse-sorted `[9,8,...,0]` it returns the same
code and leaves `[0,8,7,6,5,4,3,2,1,9]`. The recursion calls itself on the
empty range `[low, pivot - 1]` with `pivot = low`, which its own entry check
rejects. -/
theorem quick_sort_recursive_fails_small_test :
    quick_sort_recursive (some [5, 2, 8, 1, 9, 3, 7, 4, 6, 0]) 0 9 PIVOT_FIRST 123456789 =
        (SORT_ERROR_INVALID_SIZE, some [0, 2, 1, 3, 4, 5, 7, 9, 6, 8], 123456789) ∧
      is_sorted (some [0, 2, 1, 3, 4, 5, 7, 9, 6, 8]) 10 = 0 ∧
      quick_sort_recursive (some [9, 8, 7, 6, 5, 4, 3, 2, 1, 0]) 0 9 PIVOT_FIRST 123456789 =
        (SORT_ERROR_INVALID_SIZE, some [0, 8, 7, 6, 5, 4, 3, 2, 1, 9], 123456789) ∧
      is_sorted (some [0, 8, 7, 6, 5, 4, 3, 2, 1, 9]) 10 = 0 := by
  refine ⟨?_, by decide, ?_, by decide⟩
  · simp only [quick_sort_recursive, quick_sort_recursive_small_test]
  · simp only [quick_sort_recursive]
    rw [quick_sort_recursive_present_eq_depth PIVOT_FIRST 9 _ _ _ _ (by decide)]
    decide

/-- C2: on a valid range `0 ≤ low ≤ high < n`, for each of the five strategies
and every generator state, `quick_sort_iterative` (its stack obtained) stays
inside its stack, returns `SORT_SUCCESS` and leaves the cells `low..high`
sorted ascending and a permutation of what they were; when the range is the
whole array, `is_sorted` returns 1 on the result, which is an ascending
permutation of the input. -/
theorem quick_sort_iterative_sorts (arr : List Int) (low high : Int) (strategy : PivotStrategy)
    (seed : Nat) (hl : 0 ≤ low) (hlh : low ≤ high) (hh : high < arr.length) :
    ∃ arr1 seed1, quick_sort_iterative true (some arr) low high strategy seed =
        some (SORT_SUCCESS, some arr1, seed1) ∧
      (slice arr1 low high).Sorted (· ≤ ·) ∧
      (slice arr1 low high).Perm (slice arr low high) ∧
      (low = 0 → high = arr.length - 1 →
        is_sorted (some arr1) arr.length = 1 ∧ arr1.Sorted (· ≤ ·) ∧ arr1.Perm arr) := by
  obtain ⟨arr1, seed1, e, hp, hso, hs⟩ := quick_sort_iterative_spec arr low high strategy seed hl hlh hh
  have hsp := (perm_iff_slice_perm arr1 arr low high hl (by omega) hso).mp hp
  refine ⟨arr1, seed1, e, (sorted_slice_iff arr1 low high hl (by rw [hso.1]; exact hh)).mpr hs,
    hsp, ?_⟩
  intro h0 h1
  subst h0 h1
  exact whole_array_sorted arr1 arr (by omega) hso hs hsp

/-- The array of the small test is sorted into `[0,1,...,9]`. -/
theorem small_test_sorted (arr1 : List Int) (hs : arr1.Sorted (· ≤ ·))
    (hp : arr1.Perm [5, 2, 8, 1, 9, 3, 7, 4, 6, 0]) : arr1 = [0, 1, 2, 3, 4, 5, 6, 7, 8, 9] :=
  List.eq_of_perm_of_sorted (hp.trans (by decide)) hs (by decide)

/-- Witness of C2: `[5,2,8,1,9,3,7,4,6,0]` sorted over `[0, 9]` with
`PIVOT_RANDOM` from the initial generator state ends as `[0,1,...,9]`. -/
theorem quick_sort_iterative_sorts_witness :
    (0 : Int) ≤ 0 ∧ (0 : Int) ≤ 9 ∧ (9 : Int) < ([5, 2, 8, 1, 9, 3, 7, 4, 6, 0] : List Int).length ∧
    ∃ seed1, quick_sort_iterative true (some [5, 2, 8, 1, 9, 3, 7, 4, 6, 0]) 0 9 PIVOT_RANDOM
      123456789 = some (SORT_SUCCESS, some [0, 1, 2, 3, 4, 5, 6, 7, 8, 9], seed1) := by
  refine ⟨by decide, by decide, by decide, ?_⟩
  obtain ⟨arr1, seed1, e, -, -, h⟩ := quick_sort_iterative_sorts [5, 2, 8, 1, 9, 3, 7, 4, 6, 0] 0 9
    PIVOT_RANDOM 123456789 (by decide) (by decide) (by decide)
  obtain ⟨-, hs, hp⟩ := h rfl (by decide)
  rw [small_test_sorted arr1 hs hp] at e
  exact ⟨seed1, e⟩

/-- C3: on a valid range `0 ≤ left ≤ right < n`, `merge_sort_parallel` (the two
halves run one after the other, every buffer obtained) returns `SORT_SUCCESS`
and leaves the cells `left..right` sorted ascending and a permutation of what
they were, for ranges below and above the threshold alike; when the range is
the whole array, `is_sorted` returns 1 on the result, which is an ascending
permutation of the input. -/
theorem merge_sort_parallel_sorts (alloc : Int → Int → Int → Bool) (arr : List Int)
    (left right : Int) (hall : ∀ l m r, alloc l m r = true) (hl : 0 ≤ left) (hlr : left ≤ right)
    (hr : right < arr.length) :
    ∃ arr1, merge_sort_parallel alloc (some arr) left right = (SORT_SUCCESS, some arr1) ∧
      (slice arr1 left right).Sorted (· ≤ ·) ∧
      (slice arr1 left right).Perm (slice arr left right) ∧
      (left = 0 → right = arr.length - 1 →
        is_sorted (some arr1) arr.length = 1 ∧ arr1.Sorted (· ≤ ·) ∧ arr1.Perm arr) := by
  obtain ⟨e, hso, hsp, hs⟩ := merge_sort_parallel_present_spec alloc arr left right hl hlr hr
  refine ⟨(merge_sort_parallel_present alloc arr left right).2, ?_,
    (sorted_slice_iff _ left right hl (by rw [hso.1]; exact hr)).mpr (hs hall), hsp, ?_⟩
  · simp only [merge_sort_parallel, e]
  · intro h0 h1
    subst h0 h1
    exact whole_array_sorted _ arr (by omega) hso (hs hall) hsp

/-- Witness of C3: `[5,2,8,1,9,3,7,4,6,0]` sorted over `[0, 9]` ends as
`[0,1,...,9]`. -/
theorem merge_sort_parallel_sorts_witness :
    (∀ l m r : Int, (fun _ _ _ => true : Int → Int → Int → Bool) l m r = true) ∧
      (0 : Int) ≤ 0 ∧ (0 : Int) ≤ 9 ∧ (9 : Int) < ([5, 2, 8, 1, 9, 3, 7, 4, 6, 0] : List Int).length ∧
      merge_sort_parallel (fun _ _ _ => true) (some [5, 2, 8, 1, 9, 3, 7, 4, 6, 0]) 0 9 =
        (SORT_SUCCESS, some [0, 1, 2, 3, 4, 5, 6, 7, 8, 9]) := by
  refine ⟨fun _ _ _ => rfl, by decide, by decide, by decide, ?_⟩
  obtain ⟨arr1, e, -, -, h⟩ := merge_sort_parallel_sorts (fun _ _ _ => true)
    [5, 2, 8, 1, 9, 3, 7, 4, 6, 0] 0 9 (fun _ _ _ => rfl) (by decide) (by decide) (by decide)
  obtain ⟨-, hs, hp⟩ := h rfl (by decide)
  rw [small_test_sorted arr1 hs hp] at e
  exact e

/-- C4 (code defect): `quick_sort_recursive` called on the array `[2, 1]` with the
valid bounds `low = 0`, `high = 1` returns `SORT_ERROR_INVALID_SIZE`, under each
of the five strategies. -/
theorem quick_sort_recursive_rejects_valid_range (strategy : PivotStrategy) :
    (quick_sort_recursive (some [2, 1]) 0 1 strategy 123456789).1 = SORT_ERROR_INVALID_SIZE := by
  simp only [quick_sort_recursive]
  rw [quick_sort_recursive_present_eq_depth strategy 1 _ _ _ _ (by decide)]
  cases strategy <;> decide

/-- C5 (as amended): each of `quick_sort_recursive`, `quick_sort_iterative` and
`merge_sort_parallel` returns `SORT_ERROR_NULL_POINTER` on an absent array
whatever the bounds `(a, b)`; returns `SORT_ERROR_INVALID_SIZE` and leaves the
array as it is when `low < 0` or `high < 0` or `low > high`; and on a one-cell
range `[k, k]` with `0 ≤ k` leaves the array as it is and returns
`SORT_SUCCESS`, except `quick_sort_iterative` when its stack is not obtained,
which returns `SORT_ERROR_MEMORY_ALLOC`. The first two hold whether or not the
stack and the merge buffers are obtained. -/
theorem sort_entry_checks (arr : List Int) (a b low high k : Int) (strategy : PivotStrategy)
    (seed : Nat) (malloc_ok : Bool) (alloc : Int → Int → Int → Bool)
    (hbad : low < 0 ∨ high < 0 ∨ low > high) (hk : 0 ≤ k) :
    (quick_sort_recursive none a b strategy seed = (SORT_ERROR_NULL_POINTER, none, seed) ∧
      quick_sort_iterative malloc_ok none a b strategy seed =
        some (SORT_ERROR_NULL_POINTER, none, seed) ∧
      merge_sort_parallel alloc none a b = (SORT_ERROR_NULL_POINTER, none)) ∧
    (quick_sort_recursive (some arr) low high strategy seed =
        (SORT_ERROR_INVALID_SIZE, some arr, seed) ∧
      quick_sort_iterative malloc_ok (some arr) low high strategy seed =
        some (SORT_ERROR_INVALID_SIZE, some arr, seed) ∧
      merge_sort_parallel alloc (some arr) low high = (SORT_ERROR_INVALID_SIZE, some arr)) ∧
    (quick_sort_recursive (some arr) k k strategy seed = (SORT_SUCCESS, some arr, seed) ∧
      quick_sort_iterative true (some arr) k k strategy seed =
        some (SORT_SUCCESS, some arr, seed) ∧
      quick_sort_iterative false (some arr) k k strategy seed =
        some (SORT_ERROR_MEMORY_ALLOC, some arr, seed) ∧
      merge_sort_parallel alloc (some arr) k k = (SORT_SUCCESS, some arr)) := by
  have hv : ¬ (k < 0 ∨ k < 0 ∨ k > k) := by omega
  refine ⟨⟨rfl, rfl, rfl⟩, ⟨?_, ?_, ?_⟩, ⟨?_, ?_, ?_, ?_⟩⟩
  · simp only [quick_sort_recursive, quick_sort_recursive_present_invalid _ _ _ _ _ hbad]
  · simp only [quick_sort_iterative, if_pos hbad]
  · simp only [merge_sort_parallel]
    rw [merge_sort_parallel_present, if_pos hbad]
  · simp only [quick_sort_recursive, quick_sort_recursive_present_single _ _ _ _ _ hk rfl]
  · have hc : ((([] : List StackItem).length : Nat) : Int) < k - k + 1 := by
      simp only [List.length_nil]; push_cast; omega
    simp only [quick_sort_iterative, if_neg hv, stack_push, if_pos hc, not_true_eq_false,
      if_false]
    rw [quick_sort_iterative_loop_skip _ _ _ _ _ _ (by simp), quick_sort_iterative_loop_nil]
  · simp only [quick_sort_iterative, if_neg hv]
    simp
  · simp only [merge_sort_parallel]
    rw [merge_sort_parallel_present_eq_serial alloc _ _ _ _ (le_refl _),
      merge_sort_serial_present_single alloc arr k k hk rfl]

/-- Witness of C5: the array `[3, 1, 2]` with the inverted bounds `(2, 1)` and
the one-cell range `[1, 1]`, and an absent array with the bounds `(0, 2)`. -/
theorem sort_entry_checks_witness :
    ((2 : Int) < 0 ∨ (1 : Int) < 0 ∨ (2 : Int) > 1) ∧ (0 : Int) ≤ 1 ∧
    (quick_sort_recursive none 0 2 PIVOT_MEDIAN_OF_THREE 123456789 =
        (SORT_ERROR_NULL_POINTER, none, 123456789) ∧
      quick_sort_iterative true none 0 2 PIVOT_MEDIAN_OF_THREE 123456789 =
        some (SORT_ERROR_NULL_POINTER, none, 123456789) ∧
      merge_sort_parallel (fun _ _ _ => true) none 0 2 = (SORT_ERROR_NULL_POINTER, none)) ∧
    (quick_sort_recursive (some [3, 1, 2]) 2 1 PIVOT_MEDIAN_OF_THREE 123456789 =
        (SORT_ERROR_INVALID_SIZE, some [3, 1, 2], 123456789) ∧
      quick_sort_iterative true (some [3, 1, 2]) 2 1 PIVOT_MEDIAN_OF_THREE 123456789 =
        some (SORT_ERROR_INVALID_SIZE, some [3, 1, 2], 123456789) ∧
      merge_sort_parallel (fun _ _ _ => true) (some [3, 1, 2]) 2 1 =
        (SORT_ERROR_INVALID_SIZE, some [3, 1, 2])) ∧
    (quick_sort_recursive (some [3, 1, 2]) 1 1 PIVOT_MEDIAN_OF_THREE 123456789 =
        (SORT_SUCCESS, some [3, 1, 2], 123456789) ∧
      quick_sort_iterative true (some [3, 1, 2]) 1 1 PIVOT_MEDIAN_OF_THREE 123456789 =
        some (SORT_SUCCESS, some [3, 1, 2], 123456789) ∧
      quick_sort_iterative false (some [3, 1, 2]) 1 1 PIVOT_MEDIAN_OF_THREE 123456789 =
        some (SORT_ERROR_MEMORY_ALLOC, some [3, 1, 2], 123456789) ∧
      merge_sort_parallel (fun _ _ _ => true) (some [3, 1, 2]) 1 1 =
        (SORT_SUCCESS, some [3, 1, 2])) :=
  ⟨by decide, by decide,
    sort_entry_checks [3, 1, 2] 0 2 2 1 1 PIVOT_MEDIAN_OF_THREE 123456789 true (fun _ _ _ => true)
      (by decide) (by decide)⟩

/-- Counterexample to C5 as first stated: on the present array `[3, 1, 2]` with
`low = high = 1`, `quick_sort_iterative` whose stack is not obtained returns
`SORT_ERROR_MEMORY_ALLOC`, not `SORT_SUCCESS` (the array is left as it is). -/
theorem sort_entry_checks_counterexample :
    quick_sort_iterative false (some [3, 1, 2]) 1 1 PIVOT_FIRST 123456789 =
        some (SORT_ERROR_MEMORY_ALLOC, some [3, 1, 2], 123456789) ∧
      quick_sort_iterative false (some [3, 1, 2]) 1 1 PIVOT_FIRST 123456789 ≠
        some (SORT_SUCCESS, some [3, 1, 2], 123456789) := by
  have e : quick_sort_iterative false (some [3, 1, 2]) 1 1 PIVOT_FIRST 123456789 =
      some (SORT_ERROR_MEMORY_ALLOC, some [3, 1, 2], 123456789) := by
    simp [quick_sort_iterative]
  refine ⟨e, ?_⟩
  rw [e]
  decide

/-- C6: on a valid range `0 ≤ low ≤ high < n`, whatever each of
`quick_sort_recursive`, `quick_sort_iterative` (stack obtained or not) and
`merge_sort_parallel` (buffers obtained or not) returns, the array keeps its
length, every cell outside `[low, high]` is unchanged and the cells
`low..high` hold a permutation of what they held. -/
theorem sort_frame (arr : List Int) (low high : Int) (strategy : PivotStrategy) (seed : Nat)
    (malloc_ok : Bool) (alloc : Int → Int → Int → Bool)
    (hl : 0 ≤ low) (hlh : low ≤ high) (hh : high < arr.length) :
    (∃ e arr1 seed1, quick_sort_recursive (some arr) low high strategy seed =
        (e, some arr1, seed1) ∧ arr1.length = arr.length ∧
      (∀ k : Int, 0 ≤ k → (k < low ∨ high < k) → rd arr1 k = rd arr k) ∧
      (slice arr1 low high).Perm (slice arr low high)) ∧
    (∃ e arr1 seed1, quick_sort_iterative malloc_ok (some arr) low high strategy seed =
        some (e, some arr1, seed1) ∧ arr1.length = arr.length ∧
      (∀ k : Int, 0 ≤ k → (k < low ∨ high < k) → rd arr1 k = rd arr k) ∧
      (slice arr1 low high).Perm (slice arr low high)) ∧
    (∃ e arr1, merge_sort_parallel alloc (some arr) low high = (e, some arr1) ∧
      arr1.length = arr.length ∧
      (∀ k : Int, 0 ≤ k → (k < low ∨ high < k) → rd arr1 k = rd arr k) ∧
      (slice arr1 low high).Perm (slice arr low high)) := by
  refine ⟨?_, ?_, ?_⟩
  · obtain ⟨hp, hso⟩ := quick_sort_recursive_present_frame strategy _ arr low high seed (le_refl _) hh
    exact ⟨_, _, _, rfl, hso.1, hso.2, (perm_iff_slice_perm _ arr low high hl (by omega) hso).mp hp⟩
  · cases malloc_ok with
    | false =>
      have hv : ¬ (low < 0 ∨ high < 0 ∨ low > high) := by omega
      refine ⟨SORT_ERROR_MEMORY_ALLOC, arr, seed, ?_, rfl, fun _ _ _ => rfl, List.Perm.refl _⟩
      simp [quick_sort_iterative, hv]
    | true =>
      obtain ⟨arr1, seed1, e, hp, hso, -⟩ := quick_sort_iterative_spec arr low high strategy seed hl
        hlh hh
      exact ⟨_, arr1, seed1, e, hso.1, hso.2,
        (perm_iff_slice_perm _ arr low high hl (by omega) hso).mp hp⟩
  · obtain ⟨-, hso, hsp, -⟩ := merge_sort_parallel_present_spec alloc arr low high hl hlh hh
    exact ⟨_, _, rfl, hso.1, hso.2, hsp⟩

/-- Witness of C6: the array `[5,2,8,1,9,3,7,4,6,0]` on the range `[2, 7]`, with
`PIVOT_RANDOM`, the stack obtained and no merge buffer obtained. -/
theorem sort_frame_witness :
    (0 : Int) ≤ 2 ∧ (2 : Int) ≤ 7 ∧ (7 : Int) < ([5, 2, 8, 1, 9, 3, 7, 4, 6, 0] : List Int).length ∧
    ∃ e arr1 seed1, quick_sort_iterative true (some [5, 2, 8, 1, 9, 3, 7, 4, 6, 0]) 2 7 PIVOT_RANDOM
        123456789 = some (e, some arr1, seed1) ∧
      arr1.length = ([5, 2, 8, 1, 9, 3, 7, 4, 6, 0] : List Int).length ∧
      (∀ k : Int, 0 ≤ k → (k < 2 ∨ 7 < k) → rd arr1 k = rd [5, 2, 8, 1, 9, 3, 7, 4, 6, 0] k) ∧
      (slice arr1 2 7).Perm (slice [5, 2, 8, 1, 9, 3, 7, 4, 6, 0] 2 7) :=
  ⟨by decide, by decide, by decide,
    (sort_frame [5, 2, 8, 1, 9, 3, 7, 4, 6, 0] 2 7 PIVOT_RANDOM 123456789 true (fun _ _ _ => false)
      (by decide) (by decide) (by decide)).2.1⟩

/-- C7: `merge_sort_parallel`, run with its two halves one after the other,
returns the code of `merge_sort_serial` and leaves the array that
`merge_sort_serial` leaves: on every array, present or absent, for all bounds
(so on every valid range, below and above the threshold of 1000) and whichever
merge buffers are obtained. -/
theorem merge_sort_parallel_eq_serial (alloc : Int → Int → Int → Bool) (arr : Option (List Int))
    (left right : Int) :
    merge_sort_parallel alloc arr left right = merge_sort_serial alloc arr left right := by
  cases arr with
  | none => rfl
  | some a =>
    simp only [merge_sort_parallel, merge_sort_serial,
      merge_sort_parallel_present_eq_serial alloc _ a left right (le_refl _)]

/-- C8 (code defect): on the array `[5,2,8,1,9,3,7,4,6,0]` with the bounds
`(0, 9)`, `PIVOT_LAST` and the same generator state, `quick_sort_recursive`
returns `SORT_ERROR_INVALID_SIZE` and leaves `[0,2,8,1,9,3,7,4,6,5]`, while
`quick_sort_iterative` returns `SORT_SUCCESS` and leaves `[0,1,...,9]`. -/
theorem quick_sort_drivers_differ :
    quick_sort_recursive (some [5, 2, 8, 1, 9, 3, 7, 4, 6, 0]) 0 9 PIVOT_LAST 123456789 =
        (SORT_ERROR_INVALID_SIZE, some [0, 2, 8, 1, 9, 3, 7, 4, 6, 5], 123456789) ∧
      ∃ seed1, quick_sort_iterative true (some [5, 2, 8, 1, 9, 3, 7, 4, 6, 0]) 0 9 PIVOT_LAST
        123456789 = some (SORT_SUCCESS, some [0, 1, 2, 3, 4, 5, 6, 7, 8, 9], seed1) := by
  constructor
  · simp only [quick_sort_recursive]
    rw [quick_sort_recursive_present_eq_depth PIVOT_LAST 9 _ _ _ _ (by decide)]
    decide
  · obtain ⟨arr1, seed1, e, hp, hso, hs⟩ := quick_sort_iterative_spec
      [5, 2, 8, 1, 9, 3, 7, 4, 6, 0] 0 9 PIVOT_LAST 123456789 (by decide) (by decide) (by decide)
    have hsp := (perm_iff_slice_perm arr1 _ 0 9 (by decide) (by decide) hso).mp hp
    obtain ⟨-, h1, h2⟩ := whole_array_sorted arr1 [5, 2, 8, 1, 9, 3, 7, 4, 6, 0] (by decide) hso hs hsp
    rw [small_test_sorted arr1 h1 h2] at e
    exact ⟨seed1, e⟩

/-- C9: when the cells `low..high` of a valid range `0 ≤ low ≤ high < n` are
already in ascending order, the array after `quick_sort_recursive`, after
`quick_sort_iterative` (stack obtained or not) and after `merge_sort_parallel`
(buffers obtained or not) is the array before the call, for every strategy
and every generator state. -/
theorem sort_idempotent (arr : List Int) (low high : Int) (strategy : PivotStrategy) (seed : Nat)
    (malloc_ok : Bool) (alloc : Int → Int → Int → Bool)
    (hl : 0 ≤ low) (hlh : low ≤ high) (hh : high < arr.length)
    (hs : (slice arr low high).Sorted (· ≤ ·)) :
    (quick_sort_recursive (some arr) low high strategy seed).2.1 = some arr ∧
      (∃ e seed1, quick_sort_iterative malloc_ok (some arr) low high strategy seed =
        some (e, some arr, seed1)) ∧
      (merge_sort_parallel alloc (some arr) low high).2 = some arr := by
  have hsr := (sorted_slice_iff arr low high hl hh).mp hs
  refine ⟨?_, ?_, ?_⟩
  · simp only [quick_sort_recursive,
      quick_sort_recursive_present_sorted strategy _ arr low high seed (le_refl _) hh hsr]
  · cases malloc_ok with
    | false =>
      have hv : ¬ (low < 0 ∨ high < 0 ∨ low > high) := by omega
      exact ⟨SORT_ERROR_MEMORY_ALLOC, seed, by simp [quick_sort_iterative, hv]⟩
    | true =>
      obtain ⟨arr1, seed1, e, hp, hso, hs1⟩ := quick_sort_iterative_spec arr low high strategy seed
        hl hlh hh
      have hsp := (perm_iff_slice_perm arr1 arr low high hl (by omega) hso).mp hp
      have : arr1 = arr := eq_of_slice_eq arr1 arr low high hl (by omega) hso
        (List.eq_of_perm_of_sorted hsp
          ((sorted_slice_iff arr1 low high hl (by rw [hso.1]; exact hh)).mpr hs1) hs)
      rw [this] at e
      exact ⟨_, seed1, e⟩
  · simp only [merge_sort_parallel]
    rw [merge_sort_parallel_present_eq_serial alloc _ arr low high (le_refl _),
      merge_sort_serial_present_sorted alloc _ arr low high (le_refl _) hl hlh hh hsr]

/-- Witness of C9: the array `[4, 1, 1, 2, 3, 0]`, whose cells `1..4` are in
ascending order, with `PIVOT_RANDOM`. -/
theorem sort_idempotent_witness :
    (0 : Int) ≤ 1 ∧ (1 : Int) ≤ 4 ∧ (4 : Int) < ([4, 1, 1, 2, 3, 0] : List Int).length ∧
    (slice [4, 1, 1, 2, 3, 0] 1 4).Sorted (· ≤ ·) ∧
    (quick_sort_recursive (some [4, 1, 1, 2, 3, 0]) 1 4 PIVOT_RANDOM 123456789).2.1 =
      some [4, 1, 1, 2, 3, 0] ∧
    (∃ e seed1, quick_sort_iterative true (some [4, 1, 1, 2, 3, 0]) 1 4 PIVOT_RANDOM 123456789 =
      some (e, some [4, 1, 1, 2, 3, 0], seed1)) ∧
    (merge_sort_parallel (fun _ _ _ => true) (some [4, 1, 1, 2, 3, 0]) 1 4).2 =
      some [4, 1, 1, 2, 3, 0] :=
  ⟨by decide, by decide, by decide, by decide,
    sort_idempotent [4, 1, 1, 2, 3, 0] 1 4 PIVOT_RANDOM 123456789 true (fun _ _ _ => true)
      (by decide) (by decide) (by decide) (by decide)⟩

/-- C10: on a range `0 ≤ low < high < n`, `partition_array` returns a position `p`
with `low ≤ p ≤ high`; afterwards the cell `p` holds the pivot value `v` (the
cell at the index chosen by `select_pivot`, read after the swaps of
`select_pivot`), every cell in `low..p-1` holds a value `≤ v` and every cell in
`p+1..high` holds a value `> v`, so that every cell of the range with a value
`≤ v` is at or before `p`. -/
theorem partition_array_postcondition (arr : List Int) (low high : Int) (strategy : PivotStrategy)
    (seed : Nat) (hl : 0 ≤ low) (hlh : low < high) (hh : high < arr.length) :
    low ≤ (partition_array arr low high strategy seed).index ∧
      (partition_array arr low high strategy seed).index ≤ high ∧
      rd (partition_array arr low high strategy seed).arr
        (partition_array arr low high strategy seed).index =
          rd (select_pivot arr low high strategy seed).arr
            (select_pivot arr low high strategy seed).index ∧
      (∀ i : Int, low ≤ i → i < (partition_array arr low high strategy seed).index →
        rd (partition_array arr low high strategy seed).arr i ≤
          rd (select_pivot arr low high strategy seed).arr
            (select_pivot arr low high strategy seed).index) ∧
      (∀ i : Int, (partition_array arr low high strategy seed).index < i → i ≤ high →
        rd (select_pivot arr low high strategy seed).arr
            (select_pivot arr low high strategy seed).index <
          rd (partition_array arr low high strategy seed).arr i) ∧
      (∀ i : Int, low ≤ i → i ≤ high →
        rd (partition_array arr low high strategy seed).arr i ≤
          rd (select_pivot arr low high strategy seed).arr
            (select_pivot arr low high strategy seed).index →
        i ≤ (partition_array arr low high strategy seed).index) := by
  obtain ⟨-, -, pl, ph, pv, ple, pgt⟩ := partition_array_spec arr low high strategy seed hl hlh hh
  simp only [pivot_value_of] at pv ple pgt
  refine ⟨pl, ph, pv, ple, pgt, ?_⟩
  intro i h1 h2 h3
  by_contra hc
  have := pgt i (by omega) h2
  omega

/-- Witness of C10: the array `[5,2,8,1,9,3,7,4,6,0]` partitioned over `[0, 9]`
with `PIVOT_MEDIAN_OF_THREE`. -/
theorem partition_array_postcondition_witness :
    (0 : Int) ≤ 0 ∧ (0 : Int) < 9 ∧ (9 : Int) < ([5, 2, 8, 1, 9, 3, 7, 4, 6, 0] : List Int).length ∧
    (0 : Int) ≤ (partition_array [5, 2, 8, 1, 9, 3, 7, 4, 6, 0] 0 9 PIVOT_MEDIAN_OF_THREE
      123456789).index ∧
    (partition_array [5, 2, 8, 1, 9, 3, 7, 4, 6, 0] 0 9 PIVOT_MEDIAN_OF_THREE 123456789).index ≤ 9 :=
  ⟨by decide, by decide, by decide,
    (partition_array_postcondition [5, 2, 8, 1, 9, 3, 7, 4, 6, 0] 0 9 PIVOT_MEDIAN_OF_THREE 123456789
      (by decide) (by decide) (by decide)).1,
    (partition_array_postcondition [5, 2, 8, 1, 9, 3, 7, 4, 6, 0] 0 9 PIVOT_MEDIAN_OF_THREE 123456789
      (by decide) (by decide) (by decide)).2.1⟩

/-! ## Pivot selection, merge, error propagation and the explicit stack -/

theorem next_seed_eq_mod (s : Nat) : next_seed s = (s * 1103515245 + 12345) % 2 ^ 31 := by
  have e : (0x7fffffff : Nat) = 2 ^ 31 - 1 := by norm_num
  simp only [next_seed]
  rw [e, Nat.and_pow_two_sub_one_eq_mod]
  exact Nat.mod_mod_of_dvd _ (by norm_num)

/-- C12: for every array, every range with `low ≤ high` (so every range with
`0 ≤ low ≤ high`), each of the five
strategies and every generator state, `select_pivot` returns an index `i` with
`low ≤ i ≤ high`; `PIVOT_FIRST` returns `low`, `PIVOT_LAST` returns `high`,
`PIVOT_MIDDLE` returns `low + ⌊(high - low) / 2⌋`, and `PIVOT_FIRST`,
`PIVOT_LAST`, `PIVOT_MIDDLE` and `PIVOT_RANDOM` leave the array as it is. -/
theorem select_pivot_index (arr : List Int) (low high : Int) (strategy : PivotStrategy)
    (seed : Nat) (hlh : low ≤ high) :
    low ≤ (select_pivot arr low high strategy seed).index ∧
      (select_pivot arr low high strategy seed).index ≤ high ∧
      (select_pivot arr low high PIVOT_FIRST seed).index = low ∧
      (select_pivot arr low high PIVOT_LAST seed).index = high ∧
      (select_pivot arr low high PIVOT_MIDDLE seed).index = low + (high - low) / 2 ∧
      (strategy ≠ PIVOT_MEDIAN_OF_THREE → (select_pivot arr low high strategy seed).arr = arr) := by
  have hd : (high - low).tdiv 2 = (high - low) / 2 := Int.tdiv_eq_ediv (by omega) (by omega)
  have h1 := Int.emod_nonneg (next_seed seed : Int) (show high - low + 1 ≠ 0 by omega)
  have h2 := Int.emod_lt_of_pos (next_seed seed : Int) (show 0 < high - low + 1 by omega)
  simp only [select_pivot, if_neg (not_lt.mpr hlh), hd]
  refine ⟨?_, ?_, trivial, trivial, trivial, ?_⟩
  · cases strategy <;> simp only <;> omega
  · cases strategy <;> simp only <;> omega
  · cases strategy <;> simp

/-- Witness of C12: `PIVOT_RANDOM` on the range `[2, 7]` of the array of the
small test, from the initial generator state. -/
theorem select_pivot_index_witness :
    (0 : Int) ≤ 2 ∧ (2 : Int) ≤ 7 ∧
    (2 : Int) ≤ (select_pivot [5, 2, 8, 1, 9, 3, 7, 4, 6, 0] 2 7 PIVOT_RANDOM 123456789).index ∧
    (select_pivot [5, 2, 8, 1, 9, 3, 7, 4, 6, 0] 2 7 PIVOT_RANDOM 123456789).index ≤ 7 ∧
    (select_pivot [5, 2, 8, 1, 9, 3, 7, 4, 6, 0] 2 7 PIVOT_RANDOM 123456789).arr =
      [5, 2, 8, 1, 9, 3, 7, 4, 6, 0] :=
  have h := select_pivot_index [5, 2, 8, 1, 9, 3, 7, 4, 6, 0] 2 7 PIVOT_RANDOM 123456789
    (by decide)
  ⟨by decide, by decide, h.1, h.2.1, h.2.2.2.2.2 (by decide)⟩

/-- C13: the generator of `PIVOT_RANDOM` is the linear-congruential generator
with multiplier 1103515245, increment 12345 and modulus `2 ^ 31`, started at
123456789: for every state `s` (so for every 32-bit one), the update computed
with 32-bit wrap-around and the mask `0x7fffffff` is
`(s * 1103515245 + 12345) mod 2 ^ 31` in exact integers, and is again a 32-bit
state; for `low ≤ high` (so for `0 ≤ low ≤ high`) a
`PIVOT_RANDOM` selection advances the state by exactly one update and returns
`low + (new_state mod (high - low + 1))`, and so does `partition_array` on
`low < high`. -/
theorem random_pivot_generator (arr : List Int) (low high : Int) (s : Nat) (hlh : low ≤ high) :
    initial_seed = 123456789 ∧
      ((s * 1103515245 + 12345) % 2 ^ 32) &&& 0x7fffffff = (s * 1103515245 + 12345) % 2 ^ 31 ∧
      next_seed s = (s * 1103515245 + 12345) % 2 ^ 31 ∧
      next_seed s < 2 ^ 32 ∧
      (select_pivot arr low high PIVOT_RANDOM s).seed = next_seed s ∧
      (select_pivot arr low high PIVOT_RANDOM s).index =
        low + ((next_seed s : Nat) : Int) % (high - low + 1) ∧
      (low < high → (partition_array arr low high PIVOT_RANDOM s).seed = next_seed s) := by
  have e := next_seed_eq_mod s
  refine ⟨rfl, ?_, e, ?_, ?_, ?_, ?_⟩
  · simpa only [next_seed] using e
  · rw [e]
    exact lt_of_lt_of_le (Nat.mod_lt _ (by norm_num)) (by norm_num)
  · simp only [select_pivot, if_neg (not_lt.mpr hlh)]
  · simp only [select_pivot, if_neg (not_lt.mpr hlh)]
  · intro h
    simp only [partition_array, if_neg (not_le.mpr h), select_pivot, if_neg (not_lt.mpr hlh)]

/-- Witness of C13: the first selection of a run, from the initial state, on
the range `[0, 9]`: the state becomes 231794730 and the index is 0. -/
theorem random_pivot_generator_witness :
    initial_seed < 2 ^ 32 ∧ (0 : Int) ≤ 0 ∧ (0 : Int) ≤ 9 ∧
    next_seed initial_seed = (initial_seed * 1103515245 + 12345) % 2 ^ 31 ∧
    next_seed initial_seed = 231794730 ∧
    (select_pivot [5, 2, 8, 1, 9, 3, 7, 4, 6, 0] 0 9 PIVOT_RANDOM initial_seed).seed =
      next_seed initial_seed ∧
    (select_pivot [5, 2, 8, 1, 9, 3, 7, 4, 6, 0] 0 9 PIVOT_RANDOM initial_seed).index = 0 :=
  have h := random_pivot_generator [5, 2, 8, 1, 9, 3, 7, 4, 6, 0] 0 9 initial_seed (by decide)
  ⟨by decide, by decide, by decide, h.2.2.1, by decide, h.2.2.2.2.1, by decide⟩

/-- C16: `is_sorted(arr, n)` returns 1 exactly when `n ≥ 1` and
`arr[i-1] ≤ arr[i]` for every `1 ≤ i < n`, and returns 0 otherwise, in
particular for `n ≤ 0` and for an absent array. (The function only reads the
array: its embedding returns the code alone.) -/
theorem is_sorted_spec (arr : List Int) (n : Int) :
    (is_sorted (some arr) n = 1 ↔
        1 ≤ n ∧ ∀ i : Int, 1 ≤ i → i < n → rd arr (i - 1) ≤ rd arr i) ∧
      (is_sorted (some arr) n ≠ 1 → is_sorted (some arr) n = 0) ∧
      (n ≤ 0 → is_sorted (some arr) n = 0) ∧
      is_sorted none n = 0 := by
  have loop01 : ∀ (count : Nat) (i : Int), is_sorted_loop arr count i = 1 ∨
      is_sorted_loop arr count i = 0 := by
    intro count
    induction count with
    | zero => intro i; exact Or.inl rfl
    | succ c ih =>
      intro i
      simp only [is_sorted_loop]
      split
      · exact Or.inr rfl
      · exact ih (i + 1)
  refine ⟨?_, ?_, ?_, rfl⟩
  · by_cases hn : 1 ≤ n
    · rw [is_sorted_eq_one_iff arr n hn, sorted_range_iff_adjacent]
      constructor
      · intro h
        exact ⟨hn, fun i h1 h2 => h i (by omega) (by omega)⟩
      · intro h i h1 h2
        exact h.2 i (by omega) (by omega)
    · simp only [is_sorted, if_pos (show n ≤ 0 by omega)]
      constructor
      · intro h; cases h
      · intro h; omega
  · intro h
    by_cases hn : n ≤ 0
    · simp only [is_sorted, if_pos hn]
    · simp only [is_sorted, if_neg hn] at h ⊢
      rcases loop01 (n - 1).toNat 1 with h1 | h0
      · exact absurd h1 h
      · exact h0
  · intro hn
    simp only [is_sorted, if_pos hn]

/-- C17: for every strategy and every generator state, `select_pivot` called
with `low > high` and `partition_array` called with `low ≥ high` return `low`
and leave the array and the generator state as they are. -/
theorem degenerate_range (arr : List Int) (low high low1 high1 : Int) (strategy : PivotStrategy)
    (seed : Nat) (h : low > high) (h1 : low1 ≥ high1) :
    select_pivot arr low high strategy seed = ⟨arr, seed, low⟩ ∧
      partition_array arr low1 high1 strategy seed = ⟨arr, seed, low1⟩ := by
  constructor
  · simp only [select_pivot, if_pos h]
  · simp only [partition_array, if_pos h1]

/-- Witness of C17: `PIVOT_RANDOM` on the empty range `(3, 2)` and
`PIVOT_MEDIAN_OF_THREE` on the one-cell range `[1, 1]`. -/
theorem degenerate_range_witness :
    ((3 : Int) > 2) ∧ ((1 : Int) ≥ 1) ∧
    select_pivot [3, 1, 2] 3 2 PIVOT_RANDOM 123456789 = ⟨[3, 1, 2], 123456789, 3⟩ ∧
    partition_array [3, 1, 2] 1 1 PIVOT_RANDOM 123456789 = ⟨[3, 1, 2], 123456789, 1⟩ :=
  ⟨by decide, by decide,
    degenerate_range [3, 1, 2] 3 2 1 1 PIVOT_RANDOM 123456789 (by decide) (by decide)⟩

/-- C14: for `0 ≤ left ≤ mid < right < n`, when the cells `left..mid` and the
cells `mid+1..right` are each in ascending order, `merge_arrays` (its buffers
obtained) leaves the cells `left..right` in ascending order and a permutation
of what they held, keeps the length and leaves every cell outside
`[left, right]` unchanged. -/
theorem merge_arrays_merges (arr : List Int) (left mid right : Int) (hl : 0 ≤ left)
    (hlm : left ≤ mid) (hmr : mid < right) (hr : right < arr.length)
    (h1 : (slice arr left mid).Sorted (· ≤ ·)) (h2 : (slice arr (mid + 1) right).Sorted (· ≤ ·)) :
    (slice (merge_arrays true arr left mid right) left right).Sorted (· ≤ ·) ∧
      (slice (merge_arrays true arr left mid right) left right).Perm (slice arr left right) ∧
      (merge_arrays true arr left mid right).length = arr.length ∧
      (∀ k : Int, 0 ≤ k → (k < left ∨ right < k) →
        rd (merge_arrays true arr left mid right) k = rd arr k) := by
  obtain ⟨c1, c2, c3⟩ := merge_arrays_spec true arr left mid right hl hlm hmr hr
  refine ⟨?_, c2, c1.1, c1.2⟩
  rw [sorted_slice_iff _ left right hl (by rw [c1.1]; exact hr)]
  exact c3 rfl ((sorted_slice_iff arr left mid hl (by omega)).mp h1)
    ((sorted_slice_iff arr (mid + 1) right (by omega) hr).mp h2)

/-- Witness of C14: the halves `[1, 4, 7]` and `[2, 4, 9]` inside
`[8, 1, 4, 7, 2, 4, 9, 0]` are merged into `[1, 2, 4, 4, 7, 9]`. -/
theorem merge_arrays_merges_witness :
    (0 : Int) ≤ 1 ∧ (1 : Int) ≤ 3 ∧ (3 : Int) < 6 ∧
    (6 : Int) < ([8, 1, 4, 7, 2, 4, 9, 0] : List Int).length ∧
    (slice [8, 1, 4, 7, 2, 4, 9, 0] 1 3).Sorted (· ≤ ·) ∧
    (slice [8, 1, 4, 7, 2, 4, 9, 0] 4 6).Sorted (· ≤ ·) ∧
    (slice (merge_arrays true [8, 1, 4, 7, 2, 4, 9, 0] 1 3 6) 1 6).Sorted (· ≤ ·) ∧
    (slice (merge_arrays true [8, 1, 4, 7, 2, 4, 9, 0] 1 3 6) 1 6).Perm
      (slice [8, 1, 4, 7, 2, 4, 9, 0] 1 6) :=
  have h := merge_arrays_merges [8, 1, 4, 7, 2, 4, 9, 0] 1 3 6 (by decide) (by decide) (by decide)
    (by decide) (by decide) (by decide)
  ⟨by decide, by decide, by decide, by decide, by decide, by decide, h.1, h.2.1⟩

/-- A swap reads every cell through the transposition of the two indices. -/
theorem rd_swap_elements_equiv (arr : List Int) (a b k : Int) (ha : 0 ≤ a) (ha1 : a < arr.length)
    (hb : 0 ≤ b) (hb1 : b < arr.length) (hk : 0 ≤ k) :
    rd (swap_elements arr a b) k = rd arr (Equiv.swap a b k) := by
  rw [rd_swap_elements arr a b k ha ha1 hb hb1 hk, Equiv.swap_apply_def]
  by_cases e1 : k = b
  · subst e1
    by_cases e2 : k = a
    · subst e2; simp
    · simp [e2]
  · by_cases e2 : k = a
    · subst e2; simp [e1]
    · simp [e1, e2]

/-- A swap of two positions of a duplicate-free list of positions permutes the
values read at these positions. -/
theorem map_rd_swap_perm (arr : List Int) (ps : List Int) (a b : Int) (hn : ps.Nodup)
    (hps : ∀ p ∈ ps, 0 ≤ p ∧ p < arr.length) (ha : a ∈ ps) (hb : b ∈ ps) :
    (ps.map (rd (swap_elements arr a b))).Perm (ps.map (rd arr)) := by
  have e : ps.map (rd (swap_elements arr a b)) = (ps.map (Equiv.swap a b)).map (rd arr) := by
    rw [List.map_map]
    apply List.map_congr_left
    intro k hk
    exact rd_swap_elements_equiv arr a b k (hps a ha).1 (hps a ha).2 (hps b hb).1 (hps b hb).2
      (hps k hk).1
  rw [e]
  apply List.Perm.map
  rw [List.perm_ext_iff_of_nodup (hn.map (Equiv.swap a b).injective) hn]
  intro k
  rw [List.mem_map]
  constructor
  · rintro ⟨x, hx, rfl⟩
    rw [Equiv.swap_apply_def]
    split
    · exact hb
    · split
      · exact ha
      · exact hx
  · intro hk
    refine ⟨Equiv.swap a b k, ?_, Equiv.swap_apply_self a b k⟩
    rw [Equiv.swap_apply_def]
    split
    · exact hb
    · split
      · exact ha
      · exact hk

/-- One compare-and-swap of `select_pivot`: the smaller value ends at `x`, the
larger at `y`, the other cells are unchanged. -/
theorem guarded_swap_spec (a : List Int) (x y : Int) (hx : 0 ≤ x) (hx1 : x < a.length)
    (hy : 0 ≤ y) (hy1 : y < a.length) :
    (if rd a x > rd a y then swap_elements a x y else a).length = a.length ∧
      ∀ k : Int, 0 ≤ k → rd (if rd a x > rd a y then swap_elements a x y else a) k =
        if k = x then min (rd a x) (rd a y) else if k = y then max (rd a x) (rd a y)
        else rd a k := by
  split
  · rename_i c
    refine ⟨length_swap_elements a x y, fun k hk => ?_⟩
    rw [rd_swap_elements a x y k hx hx1 hy hy1 hk]
    by_cases e1 : k = x
    · subst e1
      by_cases e2 : k = y
      · subst e2; simp
      · rw [if_neg e2, if_pos rfl, if_pos rfl]; omega
    · by_cases e2 : k = y
      · subst e2
        rw [if_pos rfl, if_neg e1, if_pos rfl]; omega
      · rw [if_neg e2, if_neg e1, if_neg e1, if_neg e2]
  · rename_i c
    refine ⟨rfl, fun k hk => ?_⟩
    by_cases e1 : k = x
    · subst e1
      rw [if_pos rfl]; omega
    · by_cases e2 : k = y
      · subst e2
        rw [if_neg e1, if_pos rfl]; omega
      · rw [if_neg e1, if_neg e2]

theorem guarded_swap_perm (a arr : List Int) (ps : List Int) (x y : Int) (hn : ps.Nodup)
    (hlen : a.length = arr.length) (hps : ∀ p ∈ ps, 0 ≤ p ∧ p < arr.length) (hx : x ∈ ps)
    (hy : y ∈ ps) (h : (ps.map (rd a)).Perm (ps.map (rd arr))) :
    (ps.map (rd (if rd a x > rd a y then swap_elements a x y else a))).Perm (ps.map (rd arr)) := by
  split
  · exact (map_rd_swap_perm a ps x y hn (by rw [hlen]; exact hps) hx hy).trans h
  · exact h

/-- C11: on a range `0 ≤ low ≤ high < n`, `select_pivot` with
`PIVOT_MEDIAN_OF_THREE` returns `mid = low + (high - low) / 2` and leaves
`arr[low] ≤ arr[mid] ≤ arr[high]`; the values at the probed positions
`{low, mid, high}` (each position taken once, also when `mid` is `low`) are a
permutation of the values these positions held; every other cell, the length
and the generator state are unchanged. -/
theorem select_pivot_median_of_three (arr : List Int) (low high : Int) (seed : Nat)
    (hl : 0 ≤ low) (hlh : low ≤ high) (hh : high < arr.length) :
    (select_pivot arr low high PIVOT_MEDIAN_OF_THREE seed).index = low + (high - low) / 2 ∧
      rd (select_pivot arr low high PIVOT_MEDIAN_OF_THREE seed).arr low ≤
        rd (select_pivot arr low high PIVOT_MEDIAN_OF_THREE seed).arr (low + (high - low) / 2) ∧
      rd (select_pivot arr low high PIVOT_MEDIAN_OF_THREE seed).arr (low + (high - low) / 2) ≤
        rd (select_pivot arr low high PIVOT_MEDIAN_OF_THREE seed).arr high ∧
      (([low, low + (high - low) / 2, high].dedup).map
          (rd (select_pivot arr low high PIVOT_MEDIAN_OF_THREE seed).arr)).Perm
        (([low, low + (high - low) / 2, high].dedup).map (rd arr)) ∧
      (select_pivot arr low high PIVOT_MEDIAN_OF_THREE seed).arr.length = arr.length ∧
      (∀ k : Int, 0 ≤ k → k ≠ low → k ≠ low + (high - low) / 2 → k ≠ high →
        rd (select_pivot arr low high PIVOT_MEDIAN_OF_THREE seed).arr k = rd arr k) ∧
      (select_pivot arr low high PIVOT_MEDIAN_OF_THREE seed).seed = seed := by
  have hd : (high - low).tdiv 2 = (high - low) / 2 := Int.tdiv_eq_ediv (by omega) (by omega)
  simp only [select_pivot, if_neg (not_lt.mpr hlh), hd]
  have hm1 : low ≤ low + (high - low) / 2 := by omega
  have hm2 : low + (high - low) / 2 ≤ high := by omega
  generalize low + (high - low) / 2 = mid at hm1 hm2
  have hn : ([low, mid, high].dedup).Nodup := List.nodup_dedup _
  have hps : ∀ p ∈ [low, mid, high].dedup, 0 ≤ p ∧ p < arr.length := by
    intro p hp
    rw [List.mem_dedup] at hp
    simp only [List.mem_cons, List.mem_singleton, List.not_mem_nil, or_false] at hp
    omega
  have mlow : low ∈ [low, mid, high].dedup := List.mem_dedup.mpr (by simp)
  have mmid : mid ∈ [low, mid, high].dedup := List.mem_dedup.mpr (by simp)
  have mhigh : high ∈ [low, mid, high].dedup := List.mem_dedup.mpr (by simp)
  obtain ⟨l1, r1⟩ := guarded_swap_spec arr low mid hl (by omega) (by omega) (by omega)
  have p1 := guarded_swap_perm arr arr _ low mid hn rfl hps mlow mmid (List.Perm.refl _)
  generalize (if rd arr low > rd arr mid then swap_elements arr low mid else arr) = a1
    at l1 r1 p1
  obtain ⟨l2, r2⟩ := guarded_swap_spec a1 low high hl (by omega) (by omega) (by omega)
  have p2 := guarded_swap_perm a1 arr _ low high hn l1 hps mlow mhigh p1
  generalize (if rd a1 low > rd a1 high then swap_elements a1 low high else a1) = a2
    at l2 r2 p2
  obtain ⟨l3, r3⟩ := guarded_swap_spec a2 mid high (by omega) (by omega) (by omega) (by omega)
  have p3 := guarded_swap_perm a2 arr _ mid high hn (l2.trans l1) hps mmid mhigh p2
  generalize (if rd a2 mid > rd a2 high then swap_elements a2 mid high else a2) = a3
    at l3 r3 p3
  have q1l := r1 low hl
  have q1m := r1 mid (by omega)
  have q1h := r1 high (by omega)
  have q2l := r2 low hl
  have q2m := r2 mid (by omega)
  have q2h := r2 high (by omega)
  have q3l := r3 low hl
  have q3m := r3 mid (by omega)
  have q3h := r3 high (by omega)
  refine ⟨trivial, ?_, ?_, p3, (l3.trans l2).trans l1, ?_, trivial⟩
  · simp only [if_true] at q1l q1m q1h q2l q2m q2h q3l q3m q3h
    split_ifs at q1m q1h q2m q2h q3l q3m q3h <;> omega
  · simp only [if_true] at q1l q1m q1h q2l q2m q2h q3l q3m q3h
    split_ifs at q1m q1h q2m q2h q3l q3m q3h <;> omega
  · intro k hk e1 e2 e3
    rw [r3 k hk, if_neg e2, if_neg e3, r2 k hk, if_neg e1, if_neg e3, r1 k hk, if_neg e1,
      if_neg e2]

/-- Witness of C11: on `[5,2,8,1,9,3,7,4,6,0]` at the range `[0, 9]` the
selection returns 4 and leaves `arr[0] ≤ arr[4] ≤ arr[9]` (the array becomes
`[0,2,8,1,5,3,7,4,6,9]`). -/
theorem select_pivot_median_of_three_witness :
    (0 : Int) ≤ 0 ∧ (0 : Int) ≤ 9 ∧ (9 : Int) < ([5, 2, 8, 1, 9, 3, 7, 4, 6, 0] : List Int).length ∧
    (select_pivot [5, 2, 8, 1, 9, 3, 7, 4, 6, 0] 0 9 PIVOT_MEDIAN_OF_THREE 123456789).arr =
      [0, 2, 8, 1, 5, 3, 7, 4, 6, 9] ∧
    (select_pivot [5, 2, 8, 1, 9, 3, 7, 4, 6, 0] 0 9 PIVOT_MEDIAN_OF_THREE 123456789).index =
      0 + (9 - 0) / 2 ∧
    rd (select_pivot [5, 2, 8, 1, 9, 3, 7, 4, 6, 0] 0 9 PIVOT_MEDIAN_OF_THREE 123456789).arr 0 ≤
      rd (select_pivot [5, 2, 8, 1, 9, 3, 7, 4, 6, 0] 0 9 PIVOT_MEDIAN_OF_THREE 123456789).arr
        (0 + (9 - 0) / 2) ∧
    rd (select_pivot [5, 2, 8, 1, 9, 3, 7, 4, 6, 0] 0 9 PIVOT_MEDIAN_OF_THREE 123456789).arr
        (0 + (9 - 0) / 2) ≤
      rd (select_pivot [5, 2, 8, 1, 9, 3, 7, 4, 6, 0] 0 9 PIVOT_MEDIAN_OF_THREE 123456789).arr 9 :=
  have h := select_pivot_median_of_three [5, 2, 8, 1, 9, 3, 7, 4, 6, 0] 0 9 123456789 (by decide)
    (by decide) (by decide)
  ⟨by decide, by decide, by decide, by decide, h.1, h.2.1, h.2.2.1⟩

/-- When `quick_sort_recursive` returns `SORT_SUCCESS`, it leaves the range
sorted. -/
theorem quick_sort_recursive_present_success_sorted (strategy : PivotStrategy) (n : Nat) :
    ∀ (arr : List Int) (low high : Int) (seed : Nat), (high - low).toNat ≤ n →
      high < arr.length →
      (quick_sort_recursive_present arr low high strategy seed).error = SORT_SUCCESS →
      sorted_range (quick_sort_recursive_present arr low high strategy seed).arr low high := by
  have single : ∀ (arr : List Int) (low high : Int), ¬ low < high → sorted_range arr low high := by
    intro arr low high h i j h1 h2 h3
    have : i = j := by omega
    rw [this]
  induction n with
  | zero =>
    intro arr low high seed hn hh hok
    exact single _ low high (by omega)
  | succ n ih =>
    intro arr low high seed hn hh hok
    by_cases hv : low < 0 ∨ high < 0 ∨ low > high
    · rw [quick_sort_recursive_present_invalid _ _ _ _ _ hv] at hok
      cases hok
    · by_cases h : low < high
      · obtain ⟨pp, ps, pl, ph, pv, ple, pgt⟩ := partition_array_spec arr low high strategy seed
          (by omega) h hh
        rw [quick_sort_recursive_present_step _ _ _ _ _ (by omega) h] at hok ⊢
        generalize pivot_value_of arr low high strategy seed = v at pv ple pgt
        generalize partition_array arr low high strategy seed = part at pp ps pl ph pv ple pgt hok ⊢
        have hlen : part.arr.length = arr.length := ps.1
        have lf := quick_sort_recursive_present_frame strategy _ part.arr low (part.index - 1)
          part.seed (le_refl _) (by omega)
        have ls := ih part.arr low (part.index - 1) part.seed (by omega) (by omega)
        generalize quick_sort_recursive_present part.arr low (part.index - 1) strategy part.seed
          = left at lf ls hok ⊢
        have hlen2 : left.arr.length = arr.length := lf.2.1.trans hlen
        by_cases hle : left.error = SORT_SUCCESS
        · rw [if_neg (by simp [hle])] at hok ⊢
          have rf := quick_sort_recursive_present_frame strategy _ left.arr (part.index + 1) high
            left.seed (le_refl _) (by omega)
          have rs := ih left.arr (part.index + 1) high left.seed (by omega) (by omega) hok
          generalize quick_sort_recursive_present left.arr (part.index + 1) high strategy left.seed
            = right at rf rs hok ⊢
          have lsorted := ls hle
          -- values on the two sides of the pivot after both calls
          have hleft : ∀ k, low ≤ k → k < part.index → rd right.arr k = rd left.arr k ∧
              rd left.arr k ≤ v := by
            intro k h1 h2
            refine ⟨rf.2.2 k (by omega) (Or.inl (by omega)), ?_⟩
            obtain ⟨y, y1, y2, y3⟩ := rd_range_of_perm left.arr part.arr low (part.index - 1)
              (by omega) (by omega) lf.1 lf.2 k h1 (by omega)
            rw [← y3]
            exact ple y y1 (by omega)
          have hpiv : rd right.arr part.index = v := by
            rw [rf.2.2 part.index (by omega) (Or.inl (by omega)),
              lf.2.2 part.index (by omega) (Or.inr (by omega)), pv]
          have hright : ∀ k, part.index < k → k ≤ high → v < rd right.arr k := by
            intro k h1 h2
            obtain ⟨y, y1, y2, y3⟩ := rd_range_of_perm right.arr left.arr (part.index + 1) high
              (by omega) (by omega) rf.1 rf.2 k (by omega) h2
            rw [← y3, lf.2.2 y (by omega) (Or.inr (by omega))]
            exact pgt y (by omega) y2
          intro i j h1 h2 h3
          by_cases c1 : j < part.index
          · rw [(hleft i h1 (by omega)).1, (hleft j (by omega) c1).1]
            exact lsorted i j h1 h2 (by omega)
          · by_cases c2 : part.index < i
            · exact rs i j (by omega) h2 h3
            · have hi : rd right.arr i ≤ v := by
                by_cases e : i = part.index
                · rw [e, hpiv]
                · rw [(hleft i h1 (by omega)).1]
                  exact (hleft i h1 (by omega)).2
              have hj : v ≤ rd right.arr j := by
                by_cases e : j = part.index
                · rw [e, hpiv]
                · exact le_of_lt (hright j (by omega) h3)
              exact le_trans hi hj
        · rw [if_pos (by simpa using hle)] at hok
          exact absurd hok hle
      · exact single _ low high h

/-- C20: in `quick_sort_recursive` on `0 ≤ low < high < n`, with `part` the
result of the partition step, `left` the result of the call on
`[low, pivot-1]` and `right` the result of the call on `[pivot+1, high]`: when
`left` is not a success, the call returns `left` as it is (code, array and
generator state) and the cells from `pivot` on are those the partition step
left; when `left` is a success its range is sorted, and when `right` then
fails the call returns `right` as it is, with the cells up to `pivot` as `left`
had them, so the range `[low, pivot-1]` still sorted. -/
theorem quick_sort_recursive_propagates (arr : List Int) (low high : Int)
    (strategy : PivotStrategy) (seed : Nat) (part : PivotResult) (left right : QuickResult)
    (hl : 0 ≤ low) (hlh : low < high) (hh : high < arr.length)
    (hpart : part = partition_array arr low high strategy seed)
    (hleft : left = quick_sort_recursive_present part.arr low (part.index - 1) strategy part.seed)
    (hright : right =
      quick_sort_recursive_present left.arr (part.index + 1) high strategy left.seed) :
    (left.error ≠ SORT_SUCCESS →
      quick_sort_recursive (some arr) low high strategy seed =
        (left.error, some left.arr, left.seed) ∧
      ∀ k : Int, part.index ≤ k → rd left.arr k = rd part.arr k) ∧
    (left.error = SORT_SUCCESS →
      (slice left.arr low (part.index - 1)).Sorted (· ≤ ·) ∧
      (right.error ≠ SORT_SUCCESS →
        quick_sort_recursive (some arr) low high strategy seed =
          (right.error, some right.arr, right.seed) ∧
        (∀ k : Int, 0 ≤ k → k ≤ part.index → rd right.arr k = rd left.arr k) ∧
        (slice right.arr low (part.index - 1)).Sorted (· ≤ ·))) := by
  obtain ⟨-, ps, pl, ph, -⟩ := partition_array_spec arr low high strategy seed hl hlh hh
  have e := quick_sort_recursive_present_step arr low high strategy seed hl hlh
  rw [← hpart] at ps pl ph e
  have hlen : part.arr.length = arr.length := ps.1
  have lf := quick_sort_recursive_present_frame strategy _ part.arr low (part.index - 1)
    part.seed (le_refl _) (by omega)
  have ls := quick_sort_recursive_present_success_sorted strategy _ part.arr low (part.index - 1)
    part.seed (le_refl _) (by omega)
  rw [← hleft] at lf ls e
  have hlen2 : left.arr.length = arr.length := lf.2.1.trans hlen
  have rf := quick_sort_recursive_present_frame strategy _ left.arr (part.index + 1) high
    left.seed (le_refl _) (by omega)
  rw [← hright] at rf e
  have hlen3 : right.arr.length = arr.length := rf.2.1.trans hlen2
  constructor
  · intro hne
    rw [if_pos hne] at e
    refine ⟨by simp only [quick_sort_recursive, e], fun k hk => ?_⟩
    exact lf.2.2 k (by omega) (Or.inr (by omega))
  · intro hok
    have lsorted := ls hok
    refine ⟨(sorted_slice_iff left.arr low (part.index - 1) hl (by omega)).mpr lsorted, ?_⟩
    intro hne
    rw [if_neg (by simp [hok])] at e
    refine ⟨by simp only [quick_sort_recursive, e], fun k hk0 hk => ?_, ?_⟩
    · exact rf.2.2 k hk0 (Or.inl (by omega))
    · rw [sorted_slice_iff right.arr low (part.index - 1) hl (by omega)]
      intro i j h1 h2 h3
      rw [rf.2.2 i (by omega) (Or.inl (by omega)), rf.2.2 j (by omega) (Or.inl (by omega))]
      exact lsorted i j h1 h2 h3

/-- Witness of C20: on `[3, 1, 2, 5, 4]` over `[0, 4]` with `PIVOT_FIRST` the
pivot lands at 2, the call on `[0, 1]` fails and its outcome is the outcome of
the whole call; the cells `3..4` stay `[5, 4]`. -/
theorem quick_sort_recursive_propagates_witness :
    (0 : Int) ≤ 0 ∧ (0 : Int) < 4 ∧ (4 : Int) < ([3, 1, 2, 5, 4] : List Int).length ∧
    partition_array [3, 1, 2, 5, 4] 0 4 PIVOT_FIRST 123456789 = ⟨[1, 2, 3, 5, 4], 123456789, 2⟩ ∧
    quick_sort_recursive_present [1, 2, 3, 5, 4] 0 (2 - 1) PIVOT_FIRST 123456789 =
      ⟨SORT_ERROR_INVALID_SIZE, [1, 2, 3, 5, 4], 123456789⟩ ∧
    quick_sort_recursive (some [3, 1, 2, 5, 4]) 0 4 PIVOT_FIRST 123456789 =
      (SORT_ERROR_INVALID_SIZE, some [1, 2, 3, 5, 4], 123456789) := by
  have hp : partition_array [3, 1, 2, 5, 4] 0 4 PIVOT_FIRST 123456789 =
      ⟨[1, 2, 3, 5, 4], 123456789, 2⟩ := by decide
  have hq : quick_sort_recursive_present [1, 2, 3, 5, 4] 0 (2 - 1) PIVOT_FIRST 123456789 =
      ⟨SORT_ERROR_INVALID_SIZE, [1, 2, 3, 5, 4], 123456789⟩ := by
    rw [quick_sort_recursive_present_eq_depth PIVOT_FIRST 1 _ _ _ _ (by decide)]
    decide
  have h := quick_sort_recursive_propagates [3, 1, 2, 5, 4] 0 4 PIVOT_FIRST 123456789
    ⟨[1, 2, 3, 5, 4], 123456789, 2⟩ ⟨SORT_ERROR_INVALID_SIZE, [1, 2, 3, 5, 4], 123456789⟩
    (quick_sort_recursive_present [1, 2, 3, 5, 4] (2 + 1) 4 PIVOT_FIRST 123456789)
    (by decide) (by decide) (by decide) hp.symm hq.symm rfl
  exact ⟨by decide, by decide, by decide, hp, hq, (h.1 (by decide)).1⟩

theorem quick_sort_iterative_body_skip (capacity : Int) (strategy : PivotStrategy)
    (item : StackItem) (rest : List StackItem) (arr : List Int) (seed : Nat) (pushes pops : Nat)
    (h : ¬ item.low < item.high) :
    quick_sort_iterative_body capacity strategy item rest arr seed pushes pops =
      some ⟨rest, arr, seed, pushes, pops + 1⟩ := by
  simp only [quick_sort_iterative_body, if_neg h]

theorem quick_sort_iterative_body_step (capacity : Int) (strategy : PivotStrategy)
    (item : StackItem) (rest : List StackItem) (arr : List Int) (seed : Nat) (pushes pops : Nat)
    (h : item.low < item.high) (hc : (rest.length : Int) + 1 < capacity) :
    quick_sort_iterative_body capacity strategy item rest arr seed pushes pops =
      some ⟨new_frames item (partition_array arr item.low item.high strategy seed).index ++ rest,
        (partition_array arr item.low item.high strategy seed).arr,
        (partition_array arr item.low item.high strategy seed).seed,
        pushes + (new_frames item (partition_array arr item.low item.high strategy seed).index).length,
        pops + 1⟩ := by
  have l1 : (rest.length : Int) < capacity := by omega
  have l2 : ∀ f : StackItem, (((f :: rest).length : Nat) : Int) < capacity := by
    intro f; simp only [List.length_cons]; push_cast; omega
  simp only [quick_sort_iterative_body, if_pos h, new_frames, stack_push]
  by_cases c1 : (partition_array arr item.low item.high strategy seed).index - 1 > item.low <;>
  by_cases c2 : (partition_array arr item.low item.high strategy seed).index + 1 < item.high <;>
  simp [c1, c2, l1, l2, hc]
  omega

/-- The loop of `quick_sort_iterative` is the iteration of its body. -/
theorem quick_sort_iterative_loop_eq_body (capacity : Int) (strategy : PivotStrategy)
    (item : StackItem) (rest : List StackItem) (arr : List Int) (seed : Nat) (pushes pops : Nat) :
    quick_sort_iterative_loop capacity strategy (item :: rest) arr seed =
      match quick_sort_iterative_body capacity strategy item rest arr seed pushes pops with
      | none => none
      | some t => quick_sort_iterative_loop capacity strategy t.stack t.arr t.seed := by
  by_cases h : item.low < item.high
  · rw [quick_sort_iterative_loop]
    simp only [dif_pos h, quick_sort_iterative_body, if_pos h]
    split
    · rename_i e1
      simp only [e1]
    · rename_i stack1 e1
      simp only [e1]
      split
      · rename_i e2
        simp only [e2]
      · rename_i stack2 e2
        simp only [e2]
  · rw [quick_sort_iterative_loop_skip _ _ _ _ _ _ h,
      quick_sort_iterative_body_skip _ _ _ _ _ _ _ _ h]

theorem quick_sort_iterative_run_loop (capacity : Int) (strategy : PivotStrategy) (count : Nat) :
    ∀ s : LoopState,
      (∀ t, quick_sort_iterative_run capacity strategy count s = some t →
        quick_sort_iterative_loop capacity strategy s.stack s.arr s.seed =
          quick_sort_iterative_loop capacity strategy t.stack t.arr t.seed) ∧
      (quick_sort_iterative_run capacity strategy count s = none →
        quick_sort_iterative_loop capacity strategy s.stack s.arr s.seed = none) := by
  induction count with
  | zero =>
    intro s
    simp only [quick_sort_iterative_run]
    exact ⟨fun t h => (by cases h; rfl), fun h => (by cases h)⟩
  | succ c ih =>
    intro s
    obtain ⟨stack, arr, seed, pushes, pops⟩ := s
    cases stack with
    | nil =>
      simp only [quick_sort_iterative_run]
      exact ⟨fun t h => (by cases h; rfl), fun h => (by cases h)⟩
    | cons item rest =>
      simp only [quick_sort_iterative_run]
      rw [quick_sort_iterative_loop_eq_body capacity strategy item rest arr seed pushes pops]
      cases quick_sort_iterative_body capacity strategy item rest arr seed pushes pops with
      | none => exact ⟨fun t h => (by cases h), fun _ => rfl⟩
      | some t1 => exact ih t1

theorem quick_sort_iterative_body_weight (capacity : Int) (strategy : PivotStrategy)
    (item : StackItem) (rest : List StackItem) (arr : List Int) (seed : Nat) (pushes pops : Nat)
    (t : LoopState)
    (h : quick_sort_iterative_body capacity strategy item rest arr seed pushes pops = some t) :
    stack_weight t.stack < stack_weight (item :: rest) := by
  by_cases c : item.low < item.high
  · have hp := partition_array_index_bounds arr item.low item.high strategy seed c
    simp only [quick_sort_iterative_body, if_pos c] at h
    generalize (partition_array arr item.low item.high strategy seed) = part at h hp
    split at h
    · cases h
    · rename_i stack1 e1
      split at h
      · cases h
      · rename_i stack2 e2
        cases h
        have w1 : stack_weight stack1 ≤ stack_weight rest + (part.index - item.low).toNat := by
          split at e1
          · simp only [stack_push] at e1
            split at e1
            · cases e1
              simp only [stack_weight]
              omega
            · cases e1
          · cases e1
            omega
        have w2 : stack_weight stack2 ≤ stack_weight stack1 + (item.high - part.index).toNat := by
          split at e2
          · simp only [stack_push] at e2
            split at e2
            · cases e2
              simp only [stack_weight]
              omega
            · cases e2
          · cases e2
            omega
        simp only [stack_weight]
        omega
  · rw [quick_sort_iterative_body_skip _ _ _ _ _ _ _ _ c] at h
    cases h
    simp only [stack_weight]
    omega

theorem run_inv_start (arr : List Int) (low high : Int) (seed : Nat) (hl : 0 ≤ low)
    (hlh : low ≤ high) (hh : high < arr.length) :
    run_inv low high arr seed (quick_sort_iterative_start arr low high seed) := by
  refine ⟨⟨hl, hh, ?_, List.pairwise_singleton _ _, ?_, ?_⟩, ?_, rfl, Or.inl rfl⟩
  · intro f hf
    simp only [quick_sort_iterative_start, List.mem_singleton] at hf
    subst hf
    exact ⟨le_refl _, hlh, le_refl _⟩
  · simp only [quick_sort_iterative_start, stack_weight]
    push_cast
    omega
  · intro x y h1 h2 h3
    exact Or.inl ⟨⟨low, high⟩, List.mem_singleton.mpr rfl, h1, h3⟩
  · simp only [quick_sort_iterative_start, stack_weight, List.length_singleton]
    push_cast
    omega

/-- From a state that satisfies the invariant, one more iteration stays inside
the allocated stack and leads to a state that satisfies the invariant. -/
theorem run_inv_body (low high : Int) (arr0 : List Int) (seed0 : Nat) (strategy : PivotStrategy)
    (item : StackItem) (rest : List StackItem) (arr : List Int) (seed pushes pops : Nat)
    (h : run_inv low high arr0 seed0 ⟨item :: rest, arr, seed, pushes, pops⟩) :
    ∃ t, quick_sort_iterative_body (high - low + 1) strategy item rest arr seed pushes pops =
        some t ∧ run_inv low high arr0 seed0 t := by
  obtain ⟨inv, cnt, pp, pr⟩ := h
  simp only at inv cnt pp pr
  have hrest : ∀ f ∈ rest, f.low < f.high := by
    intro f hf
    rcases pr with e | e
    · simp only [quick_sort_iterative_start, LoopState.mk.injEq, List.cons.injEq] at e
      rw [e.1.2] at hf
      cases hf
    · exact e f (List.mem_cons_of_mem _ hf)
  have hfi := inv.frames item (List.mem_cons_self _ _)
  have w := inv.weight
  have hlen := length_le_stack_weight rest
  simp only [stack_weight, List.length_cons] at w cnt pp
  push_cast at cnt
  by_cases c : item.low < item.high
  · rw [quick_sort_iterative_body_step _ _ _ _ _ _ _ _ c (by omega)]
    have hp := partition_array_index_bounds arr item.low item.high strategy seed c
    have inv1 := loop_inv_step low high item rest arr strategy seed c inv
    have w1 := stack_weight_new_frames item _ hp.1 hp.2
    refine ⟨_, rfl, inv1, ?_, ?_, Or.inr ?_⟩
    · simp only [stack_weight_append, List.length_append]
      push_cast
      omega
    · simp only [List.length_append]
      omega
    · intro f hf
      rcases List.mem_append.mp hf with hf | hf
      · rcases (mem_new_frames item _ f).mp hf with ⟨rfl, c1⟩ | ⟨rfl, c1⟩ <;> simp only <;> omega
      · exact hrest f hf
  · rw [quick_sort_iterative_body_skip _ _ _ _ _ _ _ _ c]
    refine ⟨_, rfl, loop_inv_skip low high item rest arr c inv, ?_, ?_, Or.inr hrest⟩
    · simp only
      omega
    · simp only
      omega

/-- From a state that satisfies the invariant, any number of iterations stays
inside the allocated stack and leads to a state that satisfies the invariant;
after as many iterations as the frames of the stack cover cells, the stack is
empty. -/
theorem run_inv_run (low high : Int) (arr0 : List Int) (seed0 : Nat) (strategy : PivotStrategy)
    (count : Nat) :
    ∀ s : LoopState, run_inv low high arr0 seed0 s →
      ∃ t, quick_sort_iterative_run (high - low + 1) strategy count s = some t ∧
        run_inv low high arr0 seed0 t ∧ (stack_weight s.stack ≤ count → t.stack = []) := by
  induction count with
  | zero =>
    intro s h
    refine ⟨s, rfl, h, fun hw => ?_⟩
    obtain ⟨stack, arr, seed, pushes, pops⟩ := s
    cases stack with
    | nil => rfl
    | cons item rest => simp [stack_weight] at hw
  | succ c ih =>
    intro s h
    obtain ⟨stack, arr, seed, pushes, pops⟩ := s
    cases stack with
    | nil => exact ⟨_, rfl, h, fun _ => rfl⟩
    | cons item rest =>
      obtain ⟨t1, e1, h1⟩ := run_inv_body low high arr0 seed0 strategy item rest arr seed pushes
        pops h
      have hw := quick_sort_iterative_body_weight _ _ _ _ _ _ _ _ _ e1
      obtain ⟨t, e, ht, hfin⟩ := ih t1 h1
      refine ⟨t, ?_, ht, fun hc => hfin (by simp only at hc; omega)⟩
      simp only [quick_sort_iterative_run, e1, e]

/-- What the invariant says of a state: the stack fits the allocation, its
frames are disjoint sub-ranges of `[low, high]`, and at most `high - low + 1`
pushes were executed. -/
theorem run_inv_bounds (low high : Int) (arr0 : List Int) (seed0 : Nat) (t : LoopState)
    (h : run_inv low high arr0 seed0 t) :
    (t.stack.length : Int) ≤ high - low + 1 ∧ (t.pushes : Int) ≤ high - low + 1 ∧
      t.stack.Pairwise disjoint_frames ∧
      (∀ f ∈ t.stack, low ≤ f.low ∧ f.low ≤ f.high ∧ f.high ≤ high) := by
  have hlen := length_le_stack_weight t.stack
  have w := h.inv.weight
  have c := h.count
  exact ⟨by omega, by omega, h.inv.disjoint, h.inv.frames⟩

/-- C15: in `quick_sort_iterative` on a range `0 ≤ low ≤ high < n`, with the
stack allocated for `high - low + 1` frames: the initial push is inside the
stack, the call never writes outside it, and after any number of iterations
the stack holds at most `high - low + 1` frames, no more frames were popped
than pushed, and when the stack is not empty (`top >= 0`) the next iteration
pops its top and makes all its pushes inside the stack. -/
theorem quick_sort_iterative_stack_in_bounds (arr : List Int) (low high : Int)
    (strategy : PivotStrategy) (seed : Nat) (hl : 0 ≤ low) (hlh : low ≤ high)
    (hh : high < arr.length) :
    stack_push (high - low + 1) [] ⟨low, high⟩ = some [⟨low, high⟩] ∧
      (∃ r, quick_sort_iterative true (some arr) low high strategy seed = some r) ∧
      ∀ count : Nat, ∃ t,
        quick_sort_iterative_run (high - low + 1) strategy count
          (quick_sort_iterative_start arr low high seed) = some t ∧
        (t.stack.length : Int) ≤ high - low + 1 ∧
        t.pops + t.stack.length = t.pushes ∧
        ∀ item rest, t.stack = item :: rest →
          ∃ t1, quick_sort_iterative_body (high - low + 1) strategy item rest t.arr t.seed
            t.pushes t.pops = some t1 := by
  refine ⟨?_, ?_, ?_⟩
  · have hc : ((([] : List StackItem).length : Nat) : Int) < high - low + 1 := by
      simp only [List.length_nil]; push_cast; omega
    simp only [stack_push, if_pos hc]
  · obtain ⟨arr1, seed1, e, -⟩ := quick_sort_iterative_spec arr low high strategy seed hl hlh hh
    exact ⟨_, e⟩
  · intro count
    obtain ⟨t, e, ht, -⟩ := run_inv_run low high arr seed strategy count _
      (run_inv_start arr low high seed hl hlh hh)
    refine ⟨t, e, (run_inv_bounds low high arr seed t ht).1, ht.popped, ?_⟩
    intro item rest hs
    obtain ⟨stack, a, sd, pushes, pops⟩ := t
    simp only at hs
    subst hs
    obtain ⟨t1, e1, -⟩ := run_inv_body low high arr seed strategy item rest a sd pushes pops ht
    exact ⟨t1, e1⟩

/-- Witness of C15: `[5,2,8,1,9,3,7,4,6,0]` over `[0, 9]` with `PIVOT_MIDDLE`;
after three iterations the stack holds the two frames `[7, 8]` and `[1, 5]`. -/
theorem quick_sort_iterative_stack_in_bounds_witness :
    (0 : Int) ≤ 0 ∧ (0 : Int) ≤ 9 ∧ (9 : Int) < ([5, 2, 8, 1, 9, 3, 7, 4, 6, 0] : List Int).length ∧
    (Option.map LoopState.stack
      (quick_sort_iterative_run (9 - 0 + 1) PIVOT_MIDDLE 3
        (quick_sort_iterative_start [5, 2, 8, 1, 9, 3, 7, 4, 6, 0] 0 9 123456789)) =
      some [⟨7, 8⟩, ⟨1, 5⟩]) ∧
    ∃ r, quick_sort_iterative true (some [5, 2, 8, 1, 9, 3, 7, 4, 6, 0]) 0 9 PIVOT_MIDDLE
      123456789 = some r :=
  ⟨by decide, by decide, by decide, by decide,
    (quick_sort_iterative_stack_in_bounds [5, 2, 8, 1, 9, 3, 7, 4, 6, 0] 0 9 PIVOT_MIDDLE 123456789
      (by decide) (by decide) (by decide)).2.1⟩

/-- C18: in `quick_sort_iterative` on a range `0 ≤ low ≤ high < n`, after any
number of iterations of the loop: the state is the initial one or every frame
on the stack has `low < high` (no empty or one-cell range is ever pushed), the
frames on the stack are pairwise disjoint sub-ranges of `[low, high]`, and the
number of pushes executed so far, the initial one included, is at most
`high - low + 1`. -/
theorem quick_sort_iterative_stack_invariant (arr : List Int) (low high : Int)
    (strategy : PivotStrategy) (seed : Nat) (hl : 0 ≤ low) (hlh : low ≤ high)
    (hh : high < arr.length) :
    ∀ count : Nat, ∃ t,
      quick_sort_iterative_run (high - low + 1) strategy count
        (quick_sort_iterative_start arr low high seed) = some t ∧
      (t = quick_sort_iterative_start arr low high seed ∨ ∀ f ∈ t.stack, f.low < f.high) ∧
      t.stack.Pairwise disjoint_frames ∧
      (∀ f ∈ t.stack, low ≤ f.low ∧ f.low ≤ f.high ∧ f.high ≤ high) ∧
      (t.pushes : Int) ≤ high - low + 1 := by
  intro count
  obtain ⟨t, e, ht, -⟩ := run_inv_run low high arr seed strategy count _
    (run_inv_start arr low high seed hl hlh hh)
  have hb := run_inv_bounds low high arr seed t ht
  exact ⟨t, e, ht.pruned, hb.2.2.1, hb.2.2.2, hb.2.1⟩

/-- Witness of C18: `[5,2,8,1,9,3,7,4,6,0]` over `[0, 9]` with `PIVOT_MIDDLE`;
after three iterations five pushes were made and the stack holds the frames
`[7, 8]` and `[1, 5]`. -/
theorem quick_sort_iterative_stack_invariant_witness :
    (0 : Int) ≤ 0 ∧ (0 : Int) ≤ 9 ∧ (9 : Int) < ([5, 2, 8, 1, 9, 3, 7, 4, 6, 0] : List Int).length ∧
    (Option.map (fun t => (t.stack, t.pushes))
      (quick_sort_iterative_run (9 - 0 + 1) PIVOT_MIDDLE 3
        (quick_sort_iterative_start [5, 2, 8, 1, 9, 3, 7, 4, 6, 0] 0 9 123456789)) =
      some ([⟨7, 8⟩, ⟨1, 5⟩], 5)) ∧
    ∃ t, quick_sort_iterative_run (9 - 0 + 1) PIVOT_MIDDLE 3
        (quick_sort_iterative_start [5, 2, 8, 1, 9, 3, 7, 4, 6, 0] 0 9 123456789) = some t ∧
      (t = quick_sort_iterative_start [5, 2, 8, 1, 9, 3, 7, 4, 6, 0] 0 9 123456789 ∨
        ∀ f ∈ t.stack, f.low < f.high) ∧
      t.stack.Pairwise disjoint_frames ∧
      (∀ f ∈ t.stack, (0 : Int) ≤ f.low ∧ f.low ≤ f.high ∧ f.high ≤ 9) ∧
      (t.pushes : Int) ≤ 9 - 0 + 1 :=
  ⟨by decide, by decide, by decide, by decide,
    quick_sort_iterative_stack_invariant [5, 2, 8, 1, 9, 3, 7, 4, 6, 0] 0 9 PIVOT_MIDDLE 123456789
      (by decide) (by decide) (by decide) 3⟩

/-- C19: both quicksort drivers end on every range `0 ≤ low ≤ high < n`, for
every strategy and generator state. In `quick_sort_recursive` the position
returned by `partition_array` lies in `[low, high]`, so both recursive calls
are on strictly shorter ranges, and the recursion unrolled to the depth
`high - low` computes the function. In `quick_sort_iterative` every iteration
strictly decreases the number of cells covered by the frames of the stack;
after at most `high - low + 1` iterations the stack is empty and the state
reached is what the call returns. -/
theorem quicksort_drivers_terminate (arr : List Int) (low high : Int) (strategy : PivotStrategy)
    (seed : Nat) (hl : 0 ≤ low) (hlh : low ≤ high) (hh : high < arr.length) :
    (low < high →
      low ≤ (partition_array arr low high strategy seed).index ∧
      (partition_array arr low high strategy seed).index ≤ high ∧
      ((partition_array arr low high strategy seed).index - 1 - low).toNat < (high - low).toNat ∧
      (high - ((partition_array arr low high strategy seed).index + 1)).toNat <
        (high - low).toNat) ∧
    quick_sort_recursive_present arr low high strategy seed =
      quick_sort_recursive_depth (high - low).toNat arr low high strategy seed ∧
    (∀ item rest a sd pushes pops t,
      quick_sort_iterative_body (high - low + 1) strategy item rest a sd pushes pops = some t →
      stack_weight t.stack < stack_weight (item :: rest)) ∧
    ∃ t, quick_sort_iterative_run (high - low + 1) strategy (high - low + 1).toNat
        (quick_sort_iterative_start arr low high seed) = some t ∧
      t.stack = [] ∧ (t.pops : Int) ≤ high - low + 1 ∧
      quick_sort_iterative true (some arr) low high strategy seed =
        some (SORT_SUCCESS, some t.arr, t.seed) := by
  refine ⟨?_, quick_sort_recursive_present_eq_depth strategy _ arr low high seed (le_refl _),
    fun item rest a sd pushes pops t h => quick_sort_iterative_body_weight _ _ _ _ _ _ _ _ _ h, ?_⟩
  · intro h
    have hp := partition_array_index_bounds arr low high strategy seed h
    exact ⟨hp.1, hp.2, by omega, by omega⟩
  · obtain ⟨t, e, ht, hfin⟩ := run_inv_run low high arr seed strategy (high - low + 1).toNat _
      (run_inv_start arr low high seed hl hlh hh)
    have hempty : t.stack = [] := by
      apply hfin
      simp only [quick_sort_iterative_start, stack_weight]
      omega
    have hb := run_inv_bounds low high arr seed t ht
    have hpop := ht.popped
    rw [hempty] at hpop
    simp only [List.length_nil, add_zero] at hpop
    refine ⟨t, e, hempty, by omega, ?_⟩
    have hloop := (quick_sort_iterative_run_loop (high - low + 1) strategy _ _).1 t e
    rw [hempty, quick_sort_iterative_loop_nil] at hloop
    simp only [quick_sort_iterative_start] at hloop
    have hv : ¬ (low < 0 ∨ high < 0 ∨ low > high) := by omega
    have hc : ((([] : List StackItem).length : Nat) : Int) < high - low + 1 := by
      simp only [List.length_nil]; push_cast; omega
    simp only [quick_sort_iterative, if_neg hv, stack_push, if_pos hc, hloop, not_true_eq_false,
      if_false]

/-- Witness of C19: `PIVOT_FIRST` on the reverse-sorted `[4, 3, 2, 1, 0]` over
`[0, 4]`: the loop ends after four iterations with `[0, 1, 2, 3, 4]`. -/
theorem quicksort_drivers_terminate_witness :
    (0 : Int) ≤ 0 ∧ (0 : Int) ≤ 4 ∧ (4 : Int) < ([4, 3, 2, 1, 0] : List Int).length ∧
    quick_sort_iterative_run (4 - 0 + 1) PIVOT_FIRST 4
        (quick_sort_iterative_start [4, 3, 2, 1, 0] 0 4 123456789) =
      some ⟨[], [0, 1, 2, 3, 4], 123456789, 4, 4⟩ ∧
    quick_sort_recursive_present [4, 3, 2, 1, 0] 0 4 PIVOT_FIRST 123456789 =
      quick_sort_recursive_depth ((4 : Int) - 0).toNat [4, 3, 2, 1, 0] 0 4 PIVOT_FIRST 123456789 ∧
    ∃ t, quick_sort_iterative_run (4 - 0 + 1) PIVOT_FIRST ((4 : Int) - 0 + 1).toNat
        (quick_sort_iterative_start [4, 3, 2, 1, 0] 0 4 123456789) = some t ∧
      t.stack = [] ∧ (t.pops : Int) ≤ 4 - 0 + 1 ∧
      quick_sort_iterative true (some [4, 3, 2, 1, 0]) 0 4 PIVOT_FIRST 123456789 =
        some (SORT_SUCCESS, some t.arr, t.seed) :=
  have h := quicksort_drivers_terminate [4, 3, 2, 1, 0] 0 4 PIVOT_FIRST 123456789 (by decide)
    (by decide) (by decide)
  ⟨by decide, by decide, by decide, by decide, h.2.1, h.2.2.2⟩

/-! ## `quick_sort_recursive` on ranges with an even number of cells -/

/-- The only codes that `quick_sort_recursive` returns on a present array are
`SORT_SUCCESS` and `SORT_ERROR_INVALID_SIZE`. -/
theorem quick_sort_recursive_present_codes (strategy : PivotStrategy) (n : Nat) :
    ∀ (arr : List Int) (low high : Int) (seed : Nat), (high - low).toNat ≤ n →
      (quick_sort_recursive_present arr low high strategy seed).error = SORT_SUCCESS ∨
      (quick_sort_recursive_present arr low high strategy seed).error =
        SORT_ERROR_INVALID_SIZE := by
  induction n with
  | zero =>
    intro arr low high seed hn
    by_cases hv : low < 0 ∨ high < 0 ∨ low > high
    · rw [quick_sort_recursive_present_invalid _ _ _ _ _ hv]; exact Or.inr rfl
    · rw [quick_sort_recursive_present_single _ _ _ _ _ (by omega) (by omega)]; exact Or.inl rfl
  | succ n ih =>
    intro arr low high seed hn
    by_cases hv : low < 0 ∨ high < 0 ∨ low > high
    · rw [quick_sort_recursive_present_invalid _ _ _ _ _ hv]; exact Or.inr rfl
    · by_cases h : low < high
      · have hp := partition_array_index_bounds arr low high strategy seed h
        rw [quick_sort_recursive_present_step _ _ _ _ _ (by omega) h]
        split
        · exact ih _ _ _ _ (by omega)
        · exact ih _ _ _ _ (by omega)
      · rw [quick_sort_recursive_present_single _ _ _ _ _ (by omega) (by omega)]; exact Or.inl rfl

/-- On a range with an even number of cells `quick_sort_recursive` returns
`SORT_ERROR_INVALID_SIZE`. -/
theorem quick_sort_recursive_present_even (strategy : PivotStrategy) (n : Nat) :
    ∀ (arr : List Int) (low high : Int) (seed : Nat), (high - low).toNat ≤ n → 0 ≤ low →
      low < high → (high - low + 1) % 2 = 0 →
      (quick_sort_recursive_present arr low high strategy seed).error =
        SORT_ERROR_INVALID_SIZE := by
  induction n with
  | zero =>
    intro arr low high seed hn hl hlh
    omega
  | succ n ih =>
    intro arr low high seed hn hl hlh hev
    have hp := partition_array_index_bounds arr low high strategy seed hlh
    rw [quick_sort_recursive_present_step _ _ _ _ _ hl hlh]
    generalize partition_array arr low high strategy seed = part at hp
    have hcl := quick_sort_recursive_present_codes strategy _ part.arr low (part.index - 1)
      part.seed (le_refl _)
    have hleft_even : low < part.index - 1 → (part.index - 1 - low + 1) % 2 = 0 →
        (quick_sort_recursive_present part.arr low (part.index - 1) strategy part.seed).error =
          SORT_ERROR_INVALID_SIZE :=
      fun h1 h2 => ih part.arr low (part.index - 1) part.seed (by omega) hl h1 h2
    have hleft_empty : part.index = low →
        (quick_sort_recursive_present part.arr low (part.index - 1) strategy part.seed).error =
          SORT_ERROR_INVALID_SIZE := by
      intro e
      rw [quick_sort_recursive_present_invalid _ _ _ _ _ (by omega)]
    generalize quick_sort_recursive_present part.arr low (part.index - 1) strategy part.seed
      = left at hcl hleft_even hleft_empty
    by_cases hle : left.error = SORT_SUCCESS
    · rw [if_neg (by simp [hle])]
      have hodd : (part.index - low) % 2 = 1 := by
        by_contra hne
        by_cases e : part.index = low
        · have := hleft_empty e
          rw [hle] at this
          cases this
        · have := hleft_even (by omega) (by omega)
          rw [hle] at this
          cases this
      by_cases e : part.index = high
      · rw [quick_sort_recursive_present_invalid _ _ _ _ _ (by omega)]
      · exact ih left.arr (part.index + 1) high left.seed (by omega) (by omega) (by omega)
          (by omega)
    · rw [if_pos hle]
      rcases hcl with h1 | h1
      · exact absurd h1 hle
      · exact h1

/-- A call of `quick_sort_recursive` on a valid range that does not return
`SORT_SUCCESS` has made a call on the empty range beside a pivot, which its
entry check rejected. -/
theorem quick_sort_recursive_present_failure (strategy : PivotStrategy) (n : Nat) :
    ∀ (arr : List Int) (low high : Int) (seed : Nat), (high - low).toNat ≤ n → 0 ≤ low →
      low ≤ high →
      (quick_sort_recursive_present arr low high strategy seed).error ≠ SORT_SUCCESS →
      ∃ d : RecCall, recursive_call strategy ⟨arr, low, high, seed⟩ d ∧ d.low = d.high + 1 ∧
        low ≤ d.low ∧ d.high ≤ high ∧
        quick_sort_recursive_present d.arr d.low d.high strategy d.seed =
          ⟨SORT_ERROR_INVALID_SIZE, d.arr, d.seed⟩ := by
  induction n with
  | zero =>
    intro arr low high seed hn hl hlh hne
    rw [quick_sort_recursive_present_single _ _ _ _ _ hl (by omega)] at hne
    exact absurd rfl hne
  | succ n ih =>
    intro arr low high seed hn hl hlh hne
    by_cases h : low < high
    · have hv : ¬ (low < 0 ∨ high < 0 ∨ low > high) := by omega
      have hp := partition_array_index_bounds arr low high strategy seed h
      rw [quick_sort_recursive_present_step _ _ _ _ _ hl h] at hne
      by_cases hle : (quick_sort_recursive_present (partition_array arr low high strategy seed).arr
          low ((partition_array arr low high strategy seed).index - 1) strategy
          (partition_array arr low high strategy seed).seed).error = SORT_SUCCESS
      · rw [if_neg (by simp [hle])] at hne
        by_cases e : (partition_array arr low high strategy seed).index = high
        · refine ⟨_, recursive_call.right ⟨arr, low, high, seed⟩ _ hv h hle (recursive_call.here _),
            ?_, ?_, ?_, ?_⟩
          · simp only; omega
          · simp only; omega
          · simp only; omega
          · exact quick_sort_recursive_present_invalid _ _ _ _ _ (by simp only; omega)
        · obtain ⟨d, hd, d1, d2, d3, d4⟩ := ih _ ((partition_array arr low high strategy seed).index
            + 1) high _ (by omega) (by omega) (by omega) hne
          exact ⟨d, recursive_call.right ⟨arr, low, high, seed⟩ d hv h hle hd, d1, by omega, d3,
            d4⟩
      · by_cases e : (partition_array arr low high strategy seed).index = low
        · refine ⟨_, recursive_call.left ⟨arr, low, high, seed⟩ _ hv h (recursive_call.here _),
            ?_, ?_, ?_, ?_⟩
          · simp only; omega
          · simp only; omega
          · simp only; omega
          · exact quick_sort_recursive_present_invalid _ _ _ _ _ (by simp only; omega)
        · obtain ⟨d, hd, d1, d2, d3, d4⟩ := ih _ low
            ((partition_array arr low high strategy seed).index - 1) _ (by omega) hl (by omega) hle
          exact ⟨d, recursive_call.left ⟨arr, low, high, seed⟩ d hv h hd, d1, d2, by omega, d4⟩
    · rw [quick_sort_recursive_present_single _ _ _ _ _ hl (by omega)] at hne
      exact absurd rfl hne

/-- C21: on a present array, for every strategy and generator state and every
range `0 ≤ low < high` with an even number of cells, `quick_sort_recursive`
returns `SORT_ERROR_INVALID_SIZE`. With `part` the result of the partition
step and `left` the result of the call on `[low, pivot-1]`: when the pivot is
at `low`, that call is on the empty range `[low, low-1]`, is rejected by the
entry check, and its outcome is the outcome of the whole call; when the pivot
is at `high` and `left` is a success, the call on `[high+1, high]` is rejected
and its outcome is the outcome of the whole call. And the call on an
even-length range always makes such a call `d`: on an empty range
`d.low = d.high + 1` beside a pivot inside `[low, high]`, rejected by the
entry check. -/
theorem quick_sort_recursive_even_range (arr : List Int) (low high : Int)
    (strategy : PivotStrategy) (seed : Nat) (part : PivotResult) (left : QuickResult)
    (hl : 0 ≤ low) (hlh : low < high) (hev : (high - low + 1) % 2 = 0)
    (hpart : part = partition_array arr low high strategy seed)
    (hleft : left = quick_sort_recursive_present part.arr low (part.index - 1) strategy part.seed) :
    (quick_sort_recursive (some arr) low high strategy seed).1 = SORT_ERROR_INVALID_SIZE ∧
    (part.index = low →
      left = ⟨SORT_ERROR_INVALID_SIZE, part.arr, part.seed⟩ ∧
      quick_sort_recursive (some arr) low high strategy seed =
        (SORT_ERROR_INVALID_SIZE, some part.arr, part.seed)) ∧
    (part.index = high → left.error = SORT_SUCCESS →
      quick_sort_recursive_present left.arr (part.index + 1) high strategy left.seed =
        ⟨SORT_ERROR_INVALID_SIZE, left.arr, left.seed⟩ ∧
      quick_sort_recursive (some arr) low high strategy seed =
        (SORT_ERROR_INVALID_SIZE, some left.arr, left.seed)) ∧
    ∃ d : RecCall, recursive_call strategy ⟨arr, low, high, seed⟩ d ∧ d.low = d.high + 1 ∧
      low ≤ d.low ∧ d.high ≤ high ∧
      quick_sort_recursive_present d.arr d.low d.high strategy d.seed =
        ⟨SORT_ERROR_INVALID_SIZE, d.arr, d.seed⟩ := by
  have heven := quick_sort_recursive_present_even strategy _ arr low high seed (le_refl _) hl hlh
    hev
  have e := quick_sort_recursive_present_step arr low high strategy seed hl hlh
  rw [← hpart, ← hleft] at e
  refine ⟨by simp only [quick_sort_recursive, heven], ?_, ?_, ?_⟩
  · intro hp
    have hrej : left = ⟨SORT_ERROR_INVALID_SIZE, part.arr, part.seed⟩ := by
      rw [hleft]
      exact quick_sort_recursive_present_invalid _ _ _ _ _ (by omega)
    refine ⟨hrej, ?_⟩
    rw [if_pos (by rw [hrej]; simp)] at e
    simp only [quick_sort_recursive, e, hrej]
  · intro hp hok
    have hrej := quick_sort_recursive_present_invalid left.arr (part.index + 1) high strategy
      left.seed (by omega)
    refine ⟨hrej, ?_⟩
    rw [if_neg (by simp [hok]), hrej] at e
    simp only [quick_sort_recursive, e]
  · exact quick_sort_recursive_present_failure strategy _ arr low high seed (le_refl _) hl
      (le_of_lt hlh) (by rw [heven]; simp)

/-- Witness of C21: the two-cell range `[0, 1]` of `[2, 1]` with `PIVOT_RANDOM`
from the initial generator state. -/
theorem quick_sort_recursive_even_range_witness :
    (0 : Int) ≤ 0 ∧ (0 : Int) < 1 ∧ ((1 : Int) - 0 + 1) % 2 = 0 ∧
    (quick_sort_recursive (some [2, 1]) 0 1 PIVOT_RANDOM 123456789).1 =
      SORT_ERROR_INVALID_SIZE :=
  ⟨by decide, by decide, by decide,
    (quick_sort_recursive_even_range [2, 1] 0 1 PIVOT_RANDOM 123456789 _ _ (by decide) (by decide)
      (by decide) rfl rfl).1⟩

end SortAlgorithms
